import Mathlib

/-!
# MediBrief backend — verification of the core specification claims

This file gives a shallow embedding, in Lean 4, of the parts of the
MediBrief backend (a multi-tenant clinical SaaS API written in
TypeScript) that the specification's claims are about, together with
theorems settling each claim.

Modelling conventions:
* JavaScript strings are modelled as `List Char`; the regular-expression
  passes of the anonymizer and the audit scrubber are modelled by
  hand-written scanners that mirror the semantics of the concrete
  patterns appearing in the source (leftmost match, greedy quantifiers
  with the backtracking the concrete pattern allows, `\b` evaluated
  against the neighbouring character).  Character classes such as `\w`,
  `\d`, `\s`, `[A-Z]` are the ASCII classes of the source patterns.
* JavaScript numbers are modelled as real numbers where the source does
  real arithmetic (`Math.sqrt`, division), and as `Nat`/`Int`/`ℚ` where
  the source only counts or compares.
* Database rows are lists of records; HTTP handlers are total functions
  from the request and the relevant store to a response value.
* Asynchronous behaviour (the push stream) is modelled as a function
  consuming a list of incoming occurrences (pubsub message, heartbeat
  tick, wall-clock timeout, client disconnect); the two-minute timer is
  represented by the timeout occurrence.
-/

namespace MediBrief

/-! ## Character classes and basic string helpers -/

/-- ASCII decimal digit, the `\d` class of the source patterns. -/
def isDigitCh (c : Char) : Bool := 48 ≤ c.toNat && c.toNat ≤ 57

/-- ASCII word character, the `\w` class of the source patterns:
`[A-Za-z0-9_]`. -/
def isWordCh (c : Char) : Bool :=
  (65 ≤ c.toNat && c.toNat ≤ 90) || (97 ≤ c.toNat && c.toNat ≤ 122) ||
    (48 ≤ c.toNat && c.toNat ≤ 57) || c.toNat = 95

/-- ASCII uppercase letter, the `[A-Z]` class. -/
def isUpperAZ (c : Char) : Bool := 65 ≤ c.toNat && c.toNat ≤ 90

/-- ASCII lowercase letter, the `[a-z]` class. -/
def isLowerAZ (c : Char) : Bool := 97 ≤ c.toNat && c.toNat ≤ 122

/-- ASCII hexadecimal digit, the `[A-Fa-f0-9]` class of the audit
scrubber's identifier pattern. -/
def isHexCh (c : Char) : Bool :=
  (48 ≤ c.toNat && c.toNat ≤ 57) || (65 ≤ c.toNat && c.toNat ≤ 70) ||
    (97 ≤ c.toNat && c.toNat ≤ 102)

/-- Whitespace, the `\s` class (modelled by its ASCII members plus
no-break space, the ones a JS engine treats as `\s` that can appear in
the data). -/
def isSpaceCh (c : Char) : Bool :=
  c = ' ' || c = '\t' || c = '\n' || c = '\r' ||
    c.toNat = 11 || c.toNat = 12 || c.toNat = 160

/-- Word-character test lifted to an optional preceding character;
`none` stands for the start of the string, which is not a word
character. -/
def isWordOpt : Option Char → Bool
  | none => false
  | some c => isWordCh c

/-- The JS `\b` assertion between an optional previous character and the
character at the current position. -/
def wordBoundary (prev : Option Char) (c : Char) : Bool :=
  isWordOpt prev != isWordCh c

/-- `String.prototype.toLowerCase`, per character (ASCII range; the
source patterns only distinguish ASCII letters). -/
def jsToLowerChar (c : Char) : Char :=
  if 65 ≤ c.toNat && c.toNat ≤ 90 then Char.ofNat (c.toNat + 32) else c

/-- `String.prototype.toLowerCase` on a whole string. -/
def jsToLower (s : List Char) : List Char := s.map jsToLowerChar

/-- `String.prototype.trim`: strip leading and trailing whitespace. -/
def jsTrim (s : List Char) : List Char :=
  ((s.dropWhile isSpaceCh).reverse.dropWhile isSpaceCh).reverse

/-- `String.prototype.includes`: substring containment test. -/
def containsSub (needle : List Char) : List Char → Bool
  | [] => needle.isEmpty
  | c :: rest => needle.isPrefixOf (c :: rest) || containsSub needle rest

/-! ## Subscription quota (`subscription.middleware`, claim C3)

`hasRemainingAiQuota` first normalises the billing window
(`getClinicUsageWindow` resets `aiCallCount` and `billingPeriodStart`
when the stored period is not the current UTC month), then compares
`aiCallCount` with the plan's monthly limit; `checkSubscriptionLimits`
turns a failed check into a 429 response carrying the limit, and the
route handler calls `incrementAiUsage` only after the middleware let the
request through. -/

/-- The UTC (year, month) pair read off a `Date` by
`getUTCFullYear`/`getUTCMonth`. -/
structure UtcMonth where
  year : Int
  month : Nat
deriving DecidableEq, Repr

/-- `isSameBillingMonth`: equality of UTC year and month. -/
def isSameBillingMonth (l r : UtcMonth) : Bool :=
  l.year == r.year && l.month == r.month

/-- The columns of `Clinic` the quota middleware reads and writes. -/
structure Clinic where
  subscriptionPlan : List Char
  aiCallCount : Nat
  billingPeriodStart : UtcMonth
deriving DecidableEq, Repr

/-- The three environment-configured monthly limits. -/
structure AiLimits where
  enterprise : Nat
  pro : Nat
  free : Nat
deriving DecidableEq, Repr

/-- `resolveMonthlyLimit`: substring match on the normalised plan name,
`enterprise` before `pro`, defaulting to the free limit. -/
def resolveMonthlyLimit (env : AiLimits) (subscriptionPlan : List Char) : Nat :=
  let normalized := jsToLower (jsTrim subscriptionPlan)
  if containsSub "enterprise".toList normalized then env.enterprise
  else if containsSub "pro".toList normalized then env.pro
  else env.free

/-- `getClinicUsageWindow`: reset the counter and the period anchor when
the stored billing period is not the current UTC month. -/
def getClinicUsageWindow (clinic : Clinic) (now : UtcMonth) : Clinic :=
  if isSameBillingMonth clinic.billingPeriodStart now then clinic
  else { clinic with aiCallCount := 0, billingPeriodStart := now }

/-- Outcome of one AI request against the quota: either the request is
let through (and the counter was incremented by the route handler), or
the middleware rejected it with a 429 carrying the monthly limit. -/
inductive AiQuotaOutcome where
  | accepted (clinic : Clinic)
  | rateLimited (monthlyLimit : Nat) (clinic : Clinic)
deriving DecidableEq, Repr

/-- The clinic state after the request, in either outcome. -/
def AiQuotaOutcome.clinicAfter : AiQuotaOutcome → Clinic
  | .accepted c => c
  | .rateLimited _ c => c

/-- One AI request, as the composition the source performs:
`getClinicUsageWindow`, then the `aiCallCount < monthlyLimit` precheck
of `hasRemainingAiQuota`/`checkSubscriptionLimits`, then
`incrementAiUsage` on the accepted path only. -/
def processAiRequest (env : AiLimits) (clinic : Clinic) (now : UtcMonth) :
    AiQuotaOutcome :=
  let w := getClinicUsageWindow clinic now
  let monthlyLimit := resolveMonthlyLimit env w.subscriptionPlan
  if w.aiCallCount < monthlyLimit then
    .accepted { w with aiCallCount := w.aiCallCount + 1 }
  else
    .rateLimited monthlyLimit w

/-- A sequence of AI requests processed one after the other. -/
def processAiTrace (env : AiLimits) (clinic : Clinic) :
    List UtcMonth → Clinic
  | [] => clinic
  | now :: rest =>
      processAiTrace env ((processAiRequest env clinic now).clinicAfter) rest

/-! ## Authentication middleware (`auth.middleware`, claim C9) -/

/-- Staff / patient roles carried by a bearer token. -/
inductive Role where
  | admin | doctor | patient
deriving DecidableEq, Repr

/-- The verified token payload `{id, clinicId, role}`. -/
structure AuthUser where
  id : List Char
  clinicId : List Char
  role : Role
deriving DecidableEq, Repr

/-- The parts of an HTTP request the auth middleware can see.  `path` is
recorded to express which endpoint is being served; the middleware never
reads it. -/
structure AuthRequest where
  path : List Char
  authorization : Option (List Char)
  queryToken : Option (List Char)
deriving DecidableEq, Repr

/-- Result of the auth middleware: 401, or `next()` with the request
augmented by the user and the clinic id. -/
inductive AuthOutcome where
  | unauthorized
  | next (user : AuthUser) (clinicId : List Char)
deriving DecidableEq, Repr

/-- `authMiddleware`: take the token from the `Authorization: Bearer`
header (second space-separated word), otherwise from the non-empty
`?token=` query parameter; 401 when neither yields a non-empty token or
verification fails.  `verify` stands for `jwt.verify` with the server's
secret. -/
def authMiddleware (verify : List Char → Option AuthUser)
    (req : AuthRequest) : AuthOutcome :=
  let headerToken : Option (List Char) :=
    match req.authorization with
    | some h =>
        if "Bearer ".toList.isPrefixOf h then some ((h.splitOn ' ').getD 1 [])
        else none
    | none => none
  let token : Option (List Char) :=
    match headerToken with
    | some t => some t
    | none =>
        match req.queryToken with
        | some t => if t.isEmpty then none else some t
        | none => none
  match token with
  | none => .unauthorized
  | some t =>
      if t.isEmpty then .unauthorized
      else
        match verify t with
        | some u => .next u u.clinicId
        | none => .unauthorized

/-! ## Clinical data model (claims C1, C5, C6) -/

/-- Vital-sign record types (`VitalRecord.type`). -/
inductive VitalType where
  | BP | GLUCOSE | HEART_RATE | WEIGHT
deriving DecidableEq, Repr

/-- A `Patient` row, restricted to the columns the handlers read. -/
structure Patient where
  id : List Char
  clinicId : List Char
  isArchived : Bool
deriving DecidableEq, Repr

/-- A `VitalRecord` row. -/
structure VitalRecord where
  id : List Char
  patientId : List Char
  vtype : VitalType
  value : List Char
  recordedAt : Int
  deletedAt : Option Int
deriving DecidableEq, Repr

/-- A `LabResult` row, restricted to the columns the list handler
reads. -/
structure LabResult where
  id : List Char
  patientId : List Char
  testName : List Char
  value : List Char
  recordedAt : Int
  deletedAt : Option Int
deriving DecidableEq, Repr

/-- A `Consultation` row, restricted to the columns the list handler
reads. -/
structure Consultation where
  id : List Char
  patientId : List Char
  doctorId : List Char
  date : Int
  deletedAt : Option Int
deriving DecidableEq, Repr

/-- The `z.string().uuid()` path-parameter validation: 8-4-4-4-12
hexadecimal groups. -/
def isUuidParam (s : List Char) : Bool :=
  match s.splitOn '-' with
  | [a, b, c, d, e] =>
      a.length = 8 && b.length = 4 && c.length = 4 && d.length = 4 &&
        e.length = 12 && (a ++ b ++ c ++ d ++ e).all isHexCh
  | _ => false

/-- `ensurePatientInTenant` of the vitals router: `findFirst` on
`{id, clinicId}` (this variant has no `isArchived` filter). -/
def ensurePatientInTenantVitals (patients : List Patient)
    (patientId clinicId : List Char) : Option Patient :=
  patients.find? fun p => p.id == patientId && p.clinicId == clinicId

/-- `ensurePatientInTenant` of the labs and consultations routers:
`findFirst` on `{id, clinicId, isArchived: false}`. -/
def ensurePatientInTenantActive (patients : List Patient)
    (patientId clinicId : List Char) : Option Patient :=
  patients.find? fun p =>
    p.id == patientId && p.clinicId == clinicId && !p.isArchived

/-- `orderBy: { recordedAt: "desc" }` on vital records. -/
def sortVitalsDesc (records : List VitalRecord) : List VitalRecord :=
  records.insertionSort fun a b : VitalRecord => b.recordedAt ≤ a.recordedAt

/-- `orderBy: { recordedAt: "desc" }` on lab results. -/
def sortLabsDesc (records : List LabResult) : List LabResult :=
  records.insertionSort fun a b : LabResult => b.recordedAt ≤ a.recordedAt

/-- `orderBy: { date: "desc" }` on consultations. -/
def sortConsultationsDesc (records : List Consultation) : List Consultation :=
  records.insertionSort fun a b : Consultation => b.date ≤ a.date

/-- A list-endpoint response: an error status or a 200 with rows. -/
inductive ListResponse (α : Type) where
  | forbidden
  | badRequest
  | notFound
  | ok (rows : List α)
deriving DecidableEq, Repr

/-- `GET /vitals/:patientId`: tenant check on the patient, then
`findMany({ where: { patientId }, orderBy: { recordedAt: "desc" } })` —
the source query has no `deletedAt` filter. -/
def vitalsGetHandler (clinicId : Option (List Char))
    (patients : List Patient) (vitals : List VitalRecord)
    (patientIdParam : List Char) : ListResponse VitalRecord :=
  match clinicId with
  | none => .forbidden
  | some cid =>
      if !isUuidParam patientIdParam then .badRequest
      else
        match ensurePatientInTenantVitals patients patientIdParam cid with
        | none => .notFound
        | some _ =>
            .ok (sortVitalsDesc (vitals.filter fun v =>
              v.patientId == patientIdParam))

/-- `GET /labs/:patientId`: tenant check, then
`findMany({ where: { patientId, deletedAt: null }, orderBy:
{ recordedAt: "desc" } })`. -/
def labsGetHandler (clinicId : Option (List Char))
    (patients : List Patient) (labs : List LabResult)
    (patientIdParam : List Char) : ListResponse LabResult :=
  match clinicId with
  | none => .forbidden
  | some cid =>
      if !isUuidParam patientIdParam then .badRequest
      else
        match ensurePatientInTenantActive patients patientIdParam cid with
        | none => .notFound
        | some _ =>
            .ok (sortLabsDesc (labs.filter fun l =>
              l.patientId == patientIdParam && l.deletedAt == none))

/-- `GET /consultations/:patientId`: tenant check, cursor pagination
over `findMany({ where: { patientId }, orderBy: { date: "desc" } })` —
again without a `deletedAt` filter. -/
def consultationsGetHandler (clinicId : Option (List Char))
    (patients : List Patient) (consultations : List Consultation)
    (patientIdParam : List Char) (cursor : Option (List Char))
    (limit : Nat) : ListResponse Consultation :=
  match clinicId with
  | none => .forbidden
  | some cid =>
      if !isUuidParam patientIdParam then .badRequest
      else
        match ensurePatientInTenantActive patients patientIdParam cid with
        | none => .notFound
        | some _ =>
            let sorted := sortConsultationsDesc (consultations.filter fun c =>
              c.patientId == patientIdParam)
            let afterCursor :=
              match cursor with
              | none => sorted
              | some cur =>
                  (sorted.dropWhile fun c : Consultation => c.id != cur).drop 1
            let page := afterCursor.take (limit + 1)
            .ok (if limit < page.length then page.take limit else page)

/-! ## AI summary queue and job endpoints (`queue.ts`, claims C1, C6) -/

/-- BullMQ job states as surfaced by `job.getState()`. -/
inductive JobState where
  | queued | waiting | active | delayed | completed | failed
deriving DecidableEq, Repr

/-- Whether a state is terminal (`completed` or `failed`). -/
def JobState.isTerminal : JobState → Bool
  | .completed => true
  | .failed => true
  | _ => false

/-- A queued AI-summary job: the payload `{clinicId, patientId, userId}`
plus the queue-level state BullMQ tracks. -/
structure QueueJob where
  jobId : List Char
  clinicId : List Char
  patientId : List Char
  userId : List Char
  state : JobState
  failedReason : Option (List Char)
  summaryId : Option (List Char)
deriving DecidableEq, Repr

/-- The body returned by `getAiSummaryJobStatus`. -/
structure JobStatusView where
  jobId : List Char
  state : JobState
  failedReason : Option (List Char)
  summaryId : Option (List Char)
deriving DecidableEq, Repr

/-- `getAiSummaryJobStatus`: look the job up by id in the queue and
project its state — the clinic id stored in the job data is not
consulted. -/
def getAiSummaryJobStatus (jobs : List QueueJob) (jobId : List Char) :
    Option JobStatusView :=
  (jobs.find? fun j => j.jobId == jobId).map fun j =>
    { jobId := jobId, state := j.state, failedReason := j.failedReason,
      summaryId := j.summaryId }

/-- Response of `GET /ai/jobs/:jobId`. -/
inductive JobStatusResponse where
  | badRequest
  | notFound
  | ok (status : JobStatusView)
deriving DecidableEq, Repr

/-- `GET /ai/jobs/:jobId`: validate the parameter
(`z.string().min(1)`), fetch the status, 404 when absent.  The caller
(and in particular the caller's clinic id) is a parameter so that the
embedding records that the handler receives it; the source never
compares it with the job's clinic. -/
def aiJobsGetHandler (_caller : AuthUser) (jobs : List QueueJob)
    (jobIdParam : List Char) : JobStatusResponse :=
  if jobIdParam.isEmpty then .badRequest
  else
    match getAiSummaryJobStatus jobs jobIdParam with
    | none => .notFound
    | some st => .ok st

/-- `structuredInputCacheKey`. -/
def structuredInputCacheKey (patientId : List Char) : List Char :=
  "ai:structured-input:".toList ++ patientId

/-- A cache side effect performed by a handler. -/
inductive CacheOp where
  | deleteKey (key : List Char)
deriving DecidableEq, Repr

/-- The observable outcome of `POST /vitals`. -/
structure VitalsPostResult where
  status : Nat
  created : Option VitalRecord
  auditActions : List (List Char)
  cacheOps : List CacheOp
deriving DecidableEq, Repr

/-- The validated `POST /vitals` body. -/
structure CreateVitalBody where
  patientId : List Char
  vtype : VitalType
  value : List Char
  recordedAt : Int
deriving DecidableEq, Repr

/-- `POST /vitals`: tenant-context check, body validation, tenant check
on the patient, create, audit write.  The source performs no cache
operation on this path (`cacheOps` collects every cache side effect the
handler issues). -/
def vitalsPostHandler (clinicId : Option (List Char))
    (userId : Option (List Char)) (patients : List Patient)
    (body : CreateVitalBody) (newId : List Char) : VitalsPostResult :=
  match clinicId, userId with
  | some cid, some _ =>
      if !(isUuidParam body.patientId && 1 ≤ body.value.length &&
          body.value.length ≤ 100) then
        { status := 400, created := none, auditActions := [], cacheOps := [] }
      else
        match ensurePatientInTenantVitals patients body.patientId cid with
        | none =>
            { status := 404, created := none, auditActions := [],
              cacheOps := [] }
        | some _ =>
            let vital : VitalRecord :=
              { id := newId, patientId := body.patientId, vtype := body.vtype,
                value := body.value, recordedAt := body.recordedAt,
                deletedAt := none }
            { status := 201, created := some vital,
              auditActions := ["VITAL_CREATE".toList], cacheOps := [] }
  | _, _ => { status := 403, created := none, auditActions := [], cacheOps := [] }

/-- The observable outcome of `POST /consultations` (for contrast with
the vitals route: this one does invalidate the structured-input
cache). -/
structure ConsultationsPostResult where
  status : Nat
  auditActions : List (List Char)
  cacheOps : List CacheOp
deriving DecidableEq, Repr

/-- `POST /consultations`, reduced to its tenant check, audit write and
cache invalidation. -/
def consultationsPostHandler (clinicId : Option (List Char))
    (userId : Option (List Char)) (patients : List Patient)
    (patientIdBody : List Char) : ConsultationsPostResult :=
  match clinicId, userId with
  | some cid, some _ =>
      if !isUuidParam patientIdBody then
        { status := 400, auditActions := [], cacheOps := [] }
      else
        match ensurePatientInTenantActive patients patientIdBody cid with
        | none => { status := 404, auditActions := [], cacheOps := [] }
        | some _ =>
            { status := 201, auditActions := ["CONSULTATION_CREATE".toList],
              cacheOps := [CacheOp.deleteKey
                (structuredInputCacheKey patientIdBody)] }
  | _, _ => { status := 403, auditActions := [], cacheOps := [] }

/-- `GET /patients/:id`: `findFirst` on
`{id, clinicId, isArchived: false}`, 404 when nothing matches (claim
C1's cross-tenant read). -/
def patientsGetByIdHandler (clinicId : Option (List Char))
    (patients : List Patient) (idParam : List Char) :
    ListResponse Patient :=
  match clinicId with
  | none => .forbidden
  | some cid =>
      if !isUuidParam idParam then .badRequest
      else
        match ensurePatientInTenantActive patients idParam cid with
        | none => .notFound
        | some p => .ok [p]

/-! ## Push stream (`GET /ai/stream/:jobId`, claims C1, C8)

The endpoint first queries the current job state; if it is terminal it
writes a single frame and ends without subscribing.  Otherwise it writes
the current state, subscribes to the job channel, and then reacts to
occurrences: a pubsub message is written and triggers `cleanup()`, the
15-second interval writes a heartbeat comment, the 2-minute timer writes
a `timeout` frame and triggers `cleanup()`, and a client disconnect
triggers `cleanup()`.  `cleanup` is idempotent and tears down the
subscription and both timers, so no occurrence after it produces a
frame. -/

/-- An event published on the job channel (`JobEvent` of `queue.ts`):
its `state` field is `"completed"` or `"failed"` by type. -/
structure JobEvent where
  completed : Bool
  summaryId : Option (List Char)
  failedReason : Option (List Char)
deriving DecidableEq, Repr

/-- An occurrence the open stream can react to. -/
inductive StreamOccurrence where
  | message (e : JobEvent)
  | heartbeatTick
  | timeoutFire
  | clientClose
deriving DecidableEq, Repr

/-- A frame written to the client. -/
inductive Frame where
  | dataStatus (state : JobState) (summaryId : Option (List Char))
      (failedReason : Option (List Char))
  | dataEvent (e : JobEvent)
  | dataTimeout
  | heartbeatComment
deriving DecidableEq, Repr

/-- Whether a frame is a data frame announcing a terminal job outcome
(`completed` or `failed`). -/
def Frame.isTerminalData : Frame → Bool
  | .dataStatus s _ _ => s.isTerminal
  | .dataEvent _ => true
  | .dataTimeout => false
  | .heartbeatComment => false

/-- Whether a frame is a data frame at all (as opposed to a heartbeat
comment). -/
def Frame.isData : Frame → Bool
  | .heartbeatComment => false
  | _ => true

/-- The frames written by the subscribed stream on a sequence of
occurrences, until `cleanup()` runs. -/
def streamLoop : List StreamOccurrence → List Frame
  | [] => []
  | .message e :: _ => [Frame.dataEvent e]
  | .heartbeatTick :: rest => Frame.heartbeatComment :: streamLoop rest
  | .timeoutFire :: _ => [Frame.dataTimeout]
  | .clientClose :: _ => []

/-- The observable run of the stream endpoint. -/
structure StreamRun where
  frames : List Frame
  subscribed : Bool
deriving DecidableEq, Repr

/-- `GET /ai/stream/:jobId` given the status-query result for the
requested job (`none` models the 404 path before the stream opens). -/
def streamHandler (status : Option JobStatusView)
    (occs : List StreamOccurrence) : StreamRun :=
  match status with
  | none => { frames := [], subscribed := false }
  | some st =>
      let initial := Frame.dataStatus st.state st.summaryId st.failedReason
      if st.state.isTerminal then { frames := [initial], subscribed := false }
      else { frames := initial :: streamLoop occs, subscribed := true }

/-! ## Analytics engine (`analytics/service.ts`, claim C7) and AI risk
flags (`ai/service.ts`, claim C4)

JavaScript numbers are modelled as real numbers; `x.toFixed(2)` is
modelled as rounding to two decimals, half away from zero. -/

/-- `values.reduce((sum, value) => sum + value, 0)`. -/
noncomputable def listSumR (l : List ℝ) : ℝ := l.foldl (fun s v => s + v) 0

/-- The mean `sum / length` the source computes. -/
noncomputable def listMean (l : List ℝ) : ℝ := listSumR l / l.length

/-- The population variance
`reduce((sum, value) => sum + (value - mean) ** 2, 0) / length`. -/
noncomputable def listVariance (l : List ℝ) : ℝ :=
  listSumR (l.map fun v => (v - listMean l) ^ 2) / l.length

/-- `Math.sqrt` of the population variance. -/
noncomputable def listStdDev (l : List ℝ) : ℝ := Real.sqrt (listVariance l)

/-- `Number(x.toFixed(2))`: round to two decimals, half away from
zero. -/
noncomputable def jsRound2 (x : ℝ) : ℝ :=
  if 0 ≤ x then (⌊x * 100 + 1 / 2⌋ : ℤ) / 100
  else -((⌊-x * 100 + 1 / 2⌋ : ℤ) / 100)

/-- An entry of the z-score anomaly report. -/
structure ZScoreAnomaly where
  index : Nat
  value : ℝ
  zScore : ℝ

/-- `calculateZScoreAnomalies`: empty when fewer than 3 points or when
the population standard deviation is zero; otherwise the `{index,
value, zScore}` triples of the points with `|z| ≥ threshold`, the
reported z rounded to two decimals. -/
noncomputable def calculateZScoreAnomalies (values : List ℝ)
    (threshold : ℝ := 2) : List ZScoreAnomaly :=
  if values.length < 3 then []
  else
    let mean := listMean values
    let stdDev := listStdDev values
    if stdDev = 0 then []
    else
      (((values.enum.map fun p : Nat × ℝ =>
          { index := p.1, value := p.2,
            zScore := (p.2 - mean) / stdDev : ZScoreAnomaly }).filter
        fun e => decide (threshold ≤ |e.zScore|)).map
        fun e => { e with zScore := jsRound2 e.zScore })

/-- `calculateLatestZScore` of `ai/service.ts`: `null` when fewer than 4
points; otherwise the z-score of `values[values.length - 1]` against
the mean and population standard deviation of `values.slice(0, -1)`,
`null` when that standard deviation is zero, rounded to two
decimals. -/
noncomputable def calculateLatestZScore (values : List ℝ) : Option ℝ :=
  if values.length < 4 then none
  else
    let baseline := values.dropLast
    let latest := values.getD (values.length - 1) 0
    let mean := listMean baseline
    let stdDev := listStdDev baseline
    if stdDev = 0 then none
    else some (jsRound2 ((latest - mean) / stdDev))

/-- A recent lab value as carried inside the structured clinical
input. -/
structure LabValue where
  testName : List Char
  value : List Char
  referenceRange : Option (List Char)
deriving DecidableEq, Repr

/-- `StructuredClinicalInput`: the compact projection of a patient's
records handed to the risk-flag builder and the anonymizer.  The trend
lists are built from vitals fetched in `recordedAt`-descending order,
so they are most-recent-first. -/
structure StructuredClinicalInput where
  age : Option ℚ
  bpTrend : List ℝ
  glucoseTrend : List ℝ
  heartRateTrend : List ℝ
  weightTrend : List ℝ
  recentSymptoms : List (List Char)
  recentLabValues : List LabValue

/-- The `riskFlags` object of `AiGenerationResult`. -/
structure RiskFlags where
  highBloodPressureTrend : Bool
  risingGlucoseTrend : Bool
  tachycardiaTrend : Bool
  rapidWeightChange : Bool
  concerningSymptoms : List (List Char)
  disclaimer : List Char

/-- The case-insensitive test
`/(chest pain|dyspnea|fatigue|syncope|dizziness)/i.test(symptom)`. -/
def concerningSymptomTest (symptom : List Char) : Bool :=
  containsSub "chest pain".toList (jsToLower symptom) ||
    containsSub "dyspnea".toList (jsToLower symptom) ||
    containsSub "fatigue".toList (jsToLower symptom) ||
    containsSub "syncope".toList (jsToLower symptom) ||
    containsSub "dizziness".toList (jsToLower symptom)

/-- The fixed disclaimer string. -/
def aiDisclaimer : List Char :=
  "AI-generated monitoring support only. This is not a diagnosis.".toList

/-- `buildRiskFlags`: each boolean flag is driven by
`calculateLatestZScore` of the corresponding trend (`null` counts as
`false`); weight uses the absolute z-score. -/
noncomputable def buildRiskFlags (input : StructuredClinicalInput) :
    RiskFlags :=
  let bpZScore := calculateLatestZScore input.bpTrend
  let glucoseZScore := calculateLatestZScore input.glucoseTrend
  let heartRateZScore := calculateLatestZScore input.heartRateTrend
  let weightZScore := calculateLatestZScore input.weightTrend
  { highBloodPressureTrend :=
      match bpZScore with
      | none => false
      | some z => decide (2 ≤ z),
    risingGlucoseTrend :=
      match glucoseZScore with
      | none => false
      | some z => decide (2 ≤ z),
    tachycardiaTrend :=
      match heartRateZScore with
      | none => false
      | some z => decide (2 ≤ z),
    rapidWeightChange :=
      match weightZScore with
      | none => false
      | some z => decide (2 ≤ |z|),
    concerningSymptoms := input.recentSymptoms.filter concerningSymptomTest,
    disclaimer := aiDisclaimer }

/-! ## Regular-expression replacement machinery (claims C2, C10)

A matcher takes the optional previous character (for `\b`) and the text
from the current position and returns the length of the match starting
here, if any.  `replaceScan` is the global (`/g`) `String.replace`
loop: scan left to right, replace the leftmost match, resume after it
(`lastIndex` semantics); replacements are assembled on the side and
never rescanned within the same pass.  The fuel argument is the length
of the remaining text. -/

/-- Length of the greedy run of characters satisfying `p`. -/
def takeRun (p : Char → Bool) (s : List Char) : Nat := (s.takeWhile p).length

/-- The scan context after passing over `u`: the last character of `u`,
or the incoming context when `u` is empty. -/
def ctxAfter (prev : Option Char) (u : List Char) : Option Char :=
  match u.getLast? with
  | some d => some d
  | none => prev

/-- `[]` is end-of-text; otherwise the head must not be a word
character — the trailing `\b` condition of the source patterns whose
matches end in a word character. -/
def nextOk : List Char → Bool
  | [] => true
  | d :: _ => !isWordCh d

/-- Strip the trailing dots of a `[\w.]+` run (the backtracking the
trailing `\b` forces). -/
def dropTrailingDots (l : List Char) : List Char :=
  (l.reverse.dropWhile fun c => c = '.').reverse

/-- One rigid parsing step: consume exactly `k` characters satisfying
`P`. -/
def SegStep (P : Char → Bool) (k : Nat) (s r : List Char) : Prop :=
  k ≤ s.length ∧ (∀ d ∈ s.take k, P d = true) ∧ r = s.drop k

/-- A chain of rigid parsing steps. -/
def SegChain : List ((Char → Bool) × Nat) → List Char → List Char → Prop
  | [], s, r => r = s
  | (P, k) :: rest, s, r => ∃ m, SegStep P k s m ∧ SegChain rest m r

/-- One global-replace pass; `prev` is the character before the current
position in the original string (`none` at the start). -/
def replaceScan (m : Option Char → List Char → Option Nat)
    (repl : List Char) : Nat → Option Char → List Char → List Char
  | 0, _, _ => []
  | _ + 1, _, [] => []
  | fuel + 1, prev, c :: rest =>
      match m prev (c :: rest) with
      | some n =>
          let step := max n 1
          repl ++ replaceScan m repl fuel (((c :: rest).take step).getLast?)
            ((c :: rest).drop step)
      | none => c :: replaceScan m repl fuel (some c) rest

/-- `String.prototype.replace` with a `/g` pattern given by `m`. -/
def replaceAll (m : Option Char → List Char → Option Nat)
    (repl : List Char) (s : List Char) : List Char :=
  replaceScan m repl s.length none s

/-- Does the pattern match anywhere in `s`, with `prev` the character
preceding `s` (regular-expression search)? -/
def hasMatchFrom (m : Option Char → List Char → Option Nat) :
    Option Char → List Char → Bool
  | _, [] => false
  | prev, c :: rest =>
      (m prev (c :: rest)).isSome || hasMatchFrom m (some c) rest

/-- Search from the start of the string. -/
def hasMatch (m : Option Char → List Char → Option Nat)
    (s : List Char) : Bool :=
  hasMatchFrom m none s

/-! ### The anonymizer's patterns (`sanitizeSymptom`, claim C2) -/

/-- The `[-.]` separator class of the phone pattern. -/
def isSepCh (c : Char) : Bool := c = '-' || c = '.'

/-- A rigid parse of `\d{k}`: the remaining text after exactly `k`
digits. -/
def parseDigits : Nat → List Char → Option (List Char)
  | 0, s => some s
  | _ + 1, [] => none
  | k + 1, c :: rest => if isDigitCh c then parseDigits k rest else none

/-- The optional `[-.]` separator: consume one separator character when
the alternative takes it. -/
def parseSep : Bool → List Char → Option (List Char)
  | false, t => some t
  | true, [] => none
  | true, c :: t1 => if isSepCh c then some t1 else none

/-- One alternative of the phone pattern's separator choices:
`\d{3} sep? \d{3} sep? \d{4}` followed by the trailing `\b`, returning
the consumed length. -/
def phoneTry (useSep1 useSep2 : Bool) (s : List Char) : Option Nat :=
  match parseDigits 3 s with
  | none => none
  | some s1 =>
      match parseSep useSep1 s1 with
      | none => none
      | some s2 =>
          match parseDigits 3 s2 with
          | none => none
          | some s3 =>
              match parseSep useSep2 s3 with
              | none => none
              | some s4 =>
                  match parseDigits 4 s4 with
                  | none => none
                  | some s5 =>
                      if nextOk s5 then some (s.length - s5.length) else none

/-- The segment layout of one phone-pattern alternative. -/
def phoneSegs (u1 u2 : Bool) : List ((Char → Bool) × Nat) :=
  [(isDigitCh, 3), (isSepCh, cond u1 1 0), (isDigitCh, 3),
    (isSepCh, cond u2 1 0), (isDigitCh, 4)]

/-- `/\b\d{3}[-.]?\d{3}[-.]?\d{4}\b/`: the leading `\b` (the first
character is a digit, so the previous one must not be a word
character), then the four separator alternatives in the backtracking
order of the two greedy `[-.]?`. -/
def phoneMatchAt (prev : Option Char) (s : List Char) : Option Nat :=
  match s with
  | [] => none
  | c :: _ =>
      if !isDigitCh c || isWordOpt prev then none
      else
        (phoneTry true true s).orElse fun _ =>
        (phoneTry true false s).orElse fun _ =>
        (phoneTry false true s).orElse fun _ =>
        phoneTry false false s

/-- The `[\w.+-]` local-part class of the anonymizer's email pattern. -/
def isLocalCh (c : Char) : Bool :=
  isWordCh c || c = '.' || c = '+' || c = '-'

/-- The `[\w-]` domain class. -/
def isDomCh (c : Char) : Bool := isWordCh c || c = '-'

/-- The `[\w.]` tail class. -/
def isTailCh (c : Char) : Bool := isWordCh c || c = '.'

/-- `/\b[\w.+-]+@[\w-]+\.[\w.]+\b/`: each quantifier is effectively
greedy-deterministic (a shorter local/domain run still faces a
character of its own class where `@`/`.` is required), except that the
trailing `\b` strips the trailing dots of the `[\w.]+` run. -/
def emailMatchAt (prev : Option Char) (s : List Char) : Option Nat :=
  match s with
  | [] => none
  | c :: _ =>
      if !isLocalCh c || !wordBoundary prev c then none
      else
        let localLen := takeRun isLocalCh s
        match s.drop localLen with
        | '@' :: s2 =>
            let domLen := takeRun isDomCh s2
            if domLen = 0 then none
            else
              match s2.drop domLen with
              | '.' :: s3 =>
                  let tailRun := s3.takeWhile isTailCh
                  let kept := (dropTrailingDots tailRun).length
                  if kept = 0 then none
                  else some (localLen + 1 + domLen + 1 + kept)
              | _ => none
        | _ => none

/-- `/\b[A-Z][a-z]+ [A-Z][a-z]+\b/`: two capitalised words separated by
one space; the trailing `\b` requires the character after the second
word not to be a word character. -/
def nameMatchAt (prev : Option Char) (s : List Char) : Option Nat :=
  match s with
  | [] => none
  | c :: rest =>
      if !isUpperAZ c || isWordOpt prev then none
      else
        let low1 := takeRun isLowerAZ rest
        if low1 = 0 then none
        else
          match rest.drop low1 with
          | ' ' :: s2 =>
              match s2 with
              | d :: s3 =>
                  if !isUpperAZ d then none
                  else
                    let low2 := takeRun isLowerAZ s3
                    if low2 = 0 then none
                    else
                      let ok := match s3.drop low2 with
                        | [] => true
                        | e :: _ => !isWordCh e
                      if ok then some (1 + low1 + 1 + 1 + low2) else none
              | [] => none
          | _ => none

/-- The `[.\s:]` class trailing the salutation alternatives. -/
def isSalTrailCh (c : Char) : Bool := c = '.' || isSpaceCh c || c = ':'

/-- The alternatives of `(mr|mrs|ms|dr|patient|name)`, in source
order (JS alternation is ordered, so `mrs` is matched as `mr`). -/
def salutationWords : List (List Char) :=
  ["mr".toList, "mrs".toList, "ms".toList, "dr".toList, "patient".toList,
    "name".toList]

/-- Case-insensitive prefix test for one alternative. -/
def ciPrefix (w : List Char) (s : List Char) : Bool :=
  w.length ≤ s.length && jsToLower (s.take w.length) == w

/-- `/\b(mr|mrs|ms|dr|patient|name)[.\s:]*/gi`: the first alternative
that is a (case-insensitive) prefix wins, then the greedy `[.\s:]*`
run. -/
def salMatchAt (prev : Option Char) (s : List Char) : Option Nat :=
  if isWordOpt prev then none
  else
    match salutationWords.find? fun w => ciPrefix w s with
    | none => none
    | some w => some (w.length + takeRun isSalTrailCh (s.drop w.length))

/-- `/\s{2,}/g`: a greedy whitespace run of length at least two. -/
def collapseMatchAt (_prev : Option Char) (s : List Char) : Option Nat :=
  let r := takeRun isSpaceCh s
  if 2 ≤ r then some r else none

/-- `sanitizeSymptom`: lowercase, trim, drop salutations, redact
two-word capitalised names, replace phone-like runs and email-like
tokens, collapse whitespace, trim. -/
def sanitizeSymptom (raw : List Char) : List Char :=
  jsTrim
    (replaceAll collapseMatchAt [' ']
      (replaceAll emailMatchAt "[EMAIL]".toList
        (replaceAll phoneMatchAt "[PHONE]".toList
          (replaceAll nameMatchAt "[REDACTED]".toList
            (replaceAll salMatchAt [] (jsTrim (jsToLower raw)))))))

/-- `bucketAge`: `"unknown"` for `null` or negative ages, otherwise the
five-year band from `Math.floor(age / 5) * 5`. -/
def bucketAge (age : Option ℚ) : List Char :=
  match age with
  | none => "unknown".toList
  | some a =>
      if a < 0 then "unknown".toList
      else
        let lowerBound : ℤ := ⌊a / 5⌋ * 5
        (Nat.toDigits 10 lowerBound.toNat) ++ "-".toList ++
          (Nat.toDigits 10 (lowerBound + 4).toNat)

/-- The anonymizer's output record. -/
structure AnonymizedClinicalInput where
  sessionId : List Char
  ageBand : List Char
  bpTrend : List ℝ
  glucoseTrend : List ℝ
  heartRateTrend : List ℝ
  weightTrend : List ℝ
  recentSymptoms : List (List Char)
  recentLabValues : List LabValue

/-- `anonymizeForAi`; the freshly generated session id
(`randomUUID()`) is passed in as a parameter. -/
def anonymizeForAi (sessionId : List Char)
    (input : StructuredClinicalInput) : AnonymizedClinicalInput :=
  { sessionId := sessionId,
    ageBand := bucketAge input.age,
    bpTrend := input.bpTrend,
    glucoseTrend := input.glucoseTrend,
    heartRateTrend := input.heartRateTrend,
    weightTrend := input.weightTrend,
    recentSymptoms := input.recentSymptoms.map sanitizeSymptom,
    recentLabValues := input.recentLabValues.map fun lab =>
      { testName := lab.testName, value := lab.value,
        referenceRange := lab.referenceRange } }

/-- The set of characters that can appear anywhere inside an email
match (union of the pattern's classes and its two literals). -/
def emailCs (c : Char) : Bool :=
  isWordCh c || c = '.' || c = '+' || c = '-' || c = '@'

/-- The phone pattern's character set. -/
def phoneCs (c : Char) : Bool := isDigitCh c || isSepCh c

/-- No ASCII uppercase letter is immediately followed by an ASCII
lowercase letter (the shape a name-pattern match must start with). -/
def noUL : List Char → Bool
  | a :: b :: t => (!(isUpperAZ a && isLowerAZ b)) && noUL (b :: t)
  | _ => true

/-- Relation between the scan context of the output and the scan
context of the input at the same position: either the word-statuses
agree, or the output context is a non-word character and the position
starts at a non-word character. -/
def scOk (pout prev : Option Char) (s : List Char) : Prop :=
  isWordOpt pout = isWordOpt prev ∨
    (isWordOpt pout = false ∧ ∀ c, s.head? = some c → isWordCh c = false)

/-! ### The audit scrubber's patterns (`scrubPhi`, claim C10) -/

/-- A rigid parse of `[A-Fa-f0-9]{k}`. -/
def parseHex : Nat → List Char → Option (List Char)
  | 0, s => some s
  | _ + 1, [] => none
  | k + 1, c :: rest => if isHexCh c then parseHex k rest else none

/-- A literal dash. -/
def parseDash : List Char → Option (List Char)
  | '-' :: rest => some rest
  | _ => none

/-- The UUID pattern
`/\b[A-Fa-f0-9]{8}-[A-Fa-f0-9]{4}-[A-Fa-f0-9]{4}-[A-Fa-f0-9]{4}-[A-Fa-f0-9]{12}\b/g`:
a rigid shape between two word boundaries. -/
def uuidMatchAt (prev : Option Char) (s : List Char) : Option Nat :=
  match s with
  | [] => none
  | c :: _ =>
      if !isHexCh c || isWordOpt prev then none
      else
        match parseHex 8 s with
        | none => none
        | some s1 =>
            match parseDash s1 with
            | none => none
            | some s2 =>
                match parseHex 4 s2 with
                | none => none
                | some s3 =>
                    match parseDash s3 with
                    | none => none
                    | some s4 =>
                        match parseHex 4 s4 with
                        | none => none
                        | some s5 =>
                            match parseDash s5 with
                            | none => none
                            | some s6 =>
                                match parseHex 4 s6 with
                                | none => none
                                | some s7 =>
                                    match parseDash s7 with
                                    | none => none
                                    | some s8 =>
                                        match parseHex 12 s8 with
                                        | none => none
                                        | some s9 =>
                                            let ok := match s9 with
                                              | [] => true
                                              | d :: _ => !isWordCh d
                                            if ok then
                                              some (s.length - s9.length)
                                            else none

/-- The `[a-zA-Z0-9._%+-]` local class of the audit email pattern. -/
def isLocal2Ch (c : Char) : Bool :=
  isUpperAZ c || isLowerAZ c || isDigitCh c || c = '.' || c = '_' ||
    c = '%' || c = '+' || c = '-'

/-- The `[a-zA-Z0-9.-]` domain class of the audit email pattern (note
that it contains the dot). -/
def isDom2Ch (c : Char) : Bool :=
  isUpperAZ c || isLowerAZ c || isDigitCh c || c = '.' || c = '-'

/-- ASCII letter, the `[a-zA-Z]` class. -/
def isLetterCh (c : Char) : Bool := isUpperAZ c || isLowerAZ c

/-- Backtracking search for the split of the greedy `[a-zA-Z0-9.-]+`
domain run: the largest `k ≥ 1` such that the `k`-th character of the
run region is a literal `.` followed by at least two letters; returns
the consumed length `k + 1 + tld`. -/
def email2DomSplit (s2 : List Char) : Nat → Option Nat
  | 0 => none
  | k + 1 =>
      match s2.drop (k + 1) with
      | '.' :: s3 =>
          let tld := takeRun isLetterCh s3
          if 2 ≤ tld then some (k + 1 + 1 + tld) else email2DomSplit s2 k
      | _ => email2DomSplit s2 k

/-- `/[a-zA-Z0-9._%+-]+@[a-zA-Z0-9.-]+\.[a-zA-Z]{2,}/g` (no word
boundaries): greedy local part up to a literal `@`, then the greedy
domain run with backtracking for the final `.tld`. -/
def email2MatchAt (_prev : Option Char) (s : List Char) : Option Nat :=
  match s with
  | [] => none
  | c :: _ =>
      if !isLocal2Ch c then none
      else
        let localLen := takeRun isLocal2Ch s
        match s.drop localLen with
        | '@' :: s2 =>
            let domLen := takeRun isDom2Ch s2
            if domLen = 0 then none
            else
              match email2DomSplit s2 (domLen - 1) with
              | none => none
              | some consumed => some (localLen + 1 + consumed)
        | _ => none

/-- The `[\d\s\-().]` middle class of the audit phone pattern. -/
def isMid2Ch (c : Char) : Bool :=
  isDigitCh c || isSpaceCh c || c = '-' || c = '(' || c = ')' || c = '.'

/-- Backtracking search for the end of `[\d\s\-().]{7,}\d`: the largest
`m ≥ 7` such that the character at offset `m` of the run region is a
digit. -/
def phone2End (s1 : List Char) : Nat → Option Nat
  | 0 => none
  | m + 1 =>
      if m + 1 < 7 then none
      else
        match s1.drop (m + 1) with
        | d :: _ => if isDigitCh d then some (m + 1) else phone2End s1 m
        | [] => phone2End s1 m

/-- `/\+?\d[\d\s\-().]{7,}\d/g` (no word boundaries): optional plus,
then the first digit, the greedy middle run, and backtracking for the
final digit. -/
def phone2MatchAt (_prev : Option Char) (s : List Char) : Option Nat :=
  let core := fun (t : List Char) =>
    match t with
    | c :: rest =>
        if !isDigitCh c then none
        else
          let runLen := takeRun isMid2Ch rest
          match phone2End rest runLen with
          | none => none
          | some m => some (1 + m + 1)
    | [] => none
  match s with
  | '+' :: rest =>
      match core rest with
      | some n => some (n + 1)
      | none => none
  | _ => core s

/-- The `[REDACTED]` replacement token. -/
def redactedToken : List Char := "[REDACTED]".toList

/-- `scrubPhi`: the three global replacements, in source order (UUIDs,
emails, phone numbers), each replacing with `[REDACTED]`. -/
def scrubPhi (text : List Char) : List Char :=
  replaceAll phone2MatchAt redactedToken
    (replaceAll email2MatchAt redactedToken
      (replaceAll uuidMatchAt redactedToken text))

/-! ## Theorems -/

/-- Simplification rule for the accepted outcome's state. -/
@[simp]
theorem clinicAfter_accepted (c : Clinic) :
    (AiQuotaOutcome.accepted c).clinicAfter = c := rfl

/-- Simplification rule for the rate-limited outcome's state. -/
@[simp]
theorem clinicAfter_rateLimited (l : Nat) (c : Clinic) :
    (AiQuotaOutcome.rateLimited l c).clinicAfter = c := rfl

/-- A pass over match-free text copies it verbatim. -/
theorem replaceScan_of_no_match
    (m : Option Char → List Char → Option Nat) (repl : List Char) :
    ∀ (fuel : Nat) (prev : Option Char) (s : List Char),
      hasMatchFrom m prev s = false → s.length ≤ fuel →
      replaceScan m repl fuel prev s = s := by
  intro fuel
  induction fuel with
  | zero =>
      intro prev s _ hlen
      cases s with
      | nil => rfl
      | cons c rest => simp at hlen
  | succ fuel ih =>
      intro prev s hnm hlen
      cases s with
      | nil => rfl
      | cons c rest =>
          rw [hasMatchFrom] at hnm
          rw [Bool.or_eq_false_iff] at hnm
          obtain ⟨h1, h2⟩ := hnm
          rw [replaceScan]
          cases hm : m prev (c :: rest) with
          | some n => rw [hm] at h1; simp at h1
          | none =>
              have hlen2 : rest.length ≤ fuel := by
                simp only [List.length_cons] at hlen
                omega
              rw [ih (some c) rest h2 hlen2]

/-- A global replace over match-free text is the identity. -/
theorem replaceAll_of_no_match
    (m : Option Char → List Char → Option Nat) (repl : List Char)
    (s : List Char) (h : hasMatch m s = false) :
    replaceAll m repl s = s :=
  replaceScan_of_no_match m repl s.length none s h le_rfl

/-- The clinic state after one AI request keeps the subscription
plan. -/
theorem processAiRequest_plan (env : AiLimits) (clinic : Clinic)
    (now : UtcMonth) :
    ((processAiRequest env clinic now).clinicAfter).subscriptionPlan =
      clinic.subscriptionPlan := by
  by_cases h : isSameBillingMonth clinic.billingPeriodStart now <;>
    simp only [processAiRequest, getClinicUsageWindow, h, ite_true, ite_false,
      Bool.false_eq_true] <;>
    split <;> simp

/-- One AI request keeps the counter at or below the plan's monthly
limit whenever it started there, and establishes the bound on a month
rollover. -/
theorem processAiRequest_count_le (env : AiLimits) (clinic : Clinic)
    (now : UtcMonth)
    (h : clinic.aiCallCount ≤ resolveMonthlyLimit env clinic.subscriptionPlan) :
    ((processAiRequest env clinic now).clinicAfter).aiCallCount ≤
      resolveMonthlyLimit env clinic.subscriptionPlan := by
  by_cases hm : isSameBillingMonth clinic.billingPeriodStart now <;>
    simp only [processAiRequest, getClinicUsageWindow, hm, ite_true, ite_false,
      Bool.false_eq_true] <;>
    split <;> rename_i hc <;> simp_all <;> omega

/-- The billing window keeps the subscription plan. -/
theorem getClinicUsageWindow_plan (clinic : Clinic) (now : UtcMonth) :
    (getClinicUsageWindow clinic now).subscriptionPlan =
      clinic.subscriptionPlan := by
  unfold getClinicUsageWindow
  split <;> rfl

/-- The whole-trace version of `processAiRequest_count_le`. -/
theorem processAiTrace_count_le (env : AiLimits) (nows : List UtcMonth) :
    ∀ clinic : Clinic,
      clinic.aiCallCount ≤ resolveMonthlyLimit env clinic.subscriptionPlan →
      (processAiTrace env clinic nows).aiCallCount ≤
        resolveMonthlyLimit env clinic.subscriptionPlan := by
  induction nows with
  | nil => intro clinic h; exact h
  | cons now rest ih =>
      intro clinic h
      rw [processAiTrace]
      have hplan := processAiRequest_plan env clinic now
      have hcount := processAiRequest_count_le env clinic now h
      have := ih ((processAiRequest env clinic now).clinicAfter)
        (by rw [hplan]; exact hcount)
      rw [hplan] at this
      exact this

/-- C3: within a UTC billing month `aiCallCount` never exceeds the
plan's monthly limit.  On a request in a new UTC month the counter is
reset to 0 and `billingPeriodStart` set to `now` before the precheck;
the precheck rejects with a 429 echoing the monthly limit exactly when
`aiCallCount ≥ monthlyLimit`; the counter is incremented exactly on the
accepted path; and any sequence of requests preserves the bound. -/
theorem claim_C3_quota_invariant (env : AiLimits) (clinic : Clinic)
    (now : UtcMonth) (nows : List UtcMonth) :
    (isSameBillingMonth clinic.billingPeriodStart now = false →
      (getClinicUsageWindow clinic now).aiCallCount = 0 ∧
      (getClinicUsageWindow clinic now).billingPeriodStart = now) ∧
    (processAiRequest env clinic now =
        .rateLimited (resolveMonthlyLimit env clinic.subscriptionPlan)
          (getClinicUsageWindow clinic now) ↔
      resolveMonthlyLimit env clinic.subscriptionPlan ≤
        (getClinicUsageWindow clinic now).aiCallCount) ∧
    (∀ st : Clinic, processAiRequest env clinic now = .accepted st →
      st.aiCallCount = (getClinicUsageWindow clinic now).aiCallCount + 1 ∧
      (getClinicUsageWindow clinic now).aiCallCount <
        resolveMonthlyLimit env clinic.subscriptionPlan) ∧
    (clinic.aiCallCount ≤ resolveMonthlyLimit env clinic.subscriptionPlan →
      (processAiTrace env clinic (now :: nows)).aiCallCount ≤
        resolveMonthlyLimit env clinic.subscriptionPlan) ∧
    (isSameBillingMonth clinic.billingPeriodStart now = false →
      ((processAiRequest env clinic now).clinicAfter).aiCallCount ≤
        resolveMonthlyLimit env clinic.subscriptionPlan) := by
  have hplan := getClinicUsageWindow_plan clinic now
  refine ⟨?_, ?_, ?_, ?_, ?_⟩
  · intro h
    unfold getClinicUsageWindow
    simp [h]
  · simp only [processAiRequest]
    rw [hplan]
    by_cases hc : (getClinicUsageWindow clinic now).aiCallCount <
        resolveMonthlyLimit env clinic.subscriptionPlan
    · simp only [hc, ite_true]
      constructor
      · intro h; exact absurd h (by simp)
      · intro h; omega
    · simp only [hc, ite_false]
      constructor
      · intro _; omega
      · intro _; trivial
  · intro st hst
    simp only [processAiRequest] at hst
    rw [hplan] at hst
    by_cases hc : (getClinicUsageWindow clinic now).aiCallCount <
        resolveMonthlyLimit env clinic.subscriptionPlan
    · simp only [hc, ite_true] at hst
      cases hst
      exact ⟨rfl, hc⟩
    · simp only [hc, ite_false] at hst
      cases hst
  · intro h
    exact processAiTrace_count_le env (now :: nows) clinic h
  · intro h
    have h0 : (getClinicUsageWindow clinic now).aiCallCount = 0 := by
      unfold getClinicUsageWindow
      simp [h]
    simp only [processAiRequest]
    rw [hplan]
    by_cases hc : (getClinicUsageWindow clinic now).aiCallCount <
        resolveMonthlyLimit env clinic.subscriptionPlan
    · simp only [hc, ite_true, clinicAfter_accepted]
      omega
    · simp only [hc, ite_false, clinicAfter_rateLimited]
      omega

/-- Witness for `claim_C3_quota_invariant`: a free-plan clinic at its
limit is rejected with the limit echoed, and a month rollover resets
and admits the request. -/
theorem claim_C3_quota_invariant_witness :
    (processAiRequest ⟨100, 50, 5⟩
        ⟨"free".toList, 5, ⟨2025, 9⟩⟩ ⟨2025, 9⟩ =
      .rateLimited 5 ⟨"free".toList, 5, ⟨2025, 9⟩⟩) ∧
    (processAiTrace ⟨100, 50, 5⟩
        ⟨"free".toList, 5, ⟨2025, 9⟩⟩ [⟨2025, 9⟩]).aiCallCount ≤ 5 := by
  constructor
  · have h := (claim_C3_quota_invariant ⟨100, 50, 5⟩
      ⟨"free".toList, 5, ⟨2025, 9⟩⟩ ⟨2025, 9⟩ []).2.1
    have hlim : resolveMonthlyLimit ⟨100, 50, 5⟩ "free".toList = 5 := by decide
    have hw : getClinicUsageWindow ⟨"free".toList, 5, ⟨2025, 9⟩⟩ ⟨2025, 9⟩ =
        ⟨"free".toList, 5, ⟨2025, 9⟩⟩ := by decide
    rw [hlim, hw] at h
    exact h.mpr (by decide)
  · have h := (claim_C3_quota_invariant ⟨100, 50, 5⟩
      ⟨"free".toList, 5, ⟨2025, 9⟩⟩ ⟨2025, 9⟩ []).2.2.2.1
    have hlim : resolveMonthlyLimit ⟨100, 50, 5⟩ "free".toList = 5 := by decide
    rw [hlim] at h
    exact h (by decide)

/-- C9 counterexample: the auth middleware accepts a valid token given
only via `?token=` on a request to `/patients/:id`, an endpoint that is
not the push stream, instead of failing with 401 — the query-parameter
fallback is not restricted to the push-stream endpoint. -/
theorem claim_C9_counterexample :
    authMiddleware
      (fun t =>
        if t = "tok".toList then
          some { id := "user-1".toList, clinicId := "clinic-a".toList,
                 role := Role.doctor }
        else none)
      { path := "/patients/11111111-1111-1111-1111-111111111111".toList,
        authorization := none, queryToken := some "tok".toList } =
      .next { id := "user-1".toList, clinicId := "clinic-a".toList,
              role := Role.doctor } "clinic-a".toList := by
  decide

/-- C9 (amended): a request carrying a valid token only in the
`?token=` query parameter is accepted by the auth middleware on every
endpoint — the middleware never inspects the path, so the fallback is
not exclusive to `GET /ai/stream/:jobId`. -/
theorem claim_C9_query_token_accepted_everywhere
    (verify : List Char → Option AuthUser) (req : AuthRequest)
    (t : List Char) (u : AuthUser) (hh : req.authorization = none)
    (hq : req.queryToken = some t) (hne : t ≠ []) (hv : verify t = some u) :
    authMiddleware verify req = .next u u.clinicId := by
  unfold authMiddleware
  rw [hh, hq]
  have : t.isEmpty = false := by
    cases t with
    | nil => exact absurd rfl hne
    | cons a l => rfl
  simp [this, hv]

/-- Witness for `claim_C9_query_token_accepted_everywhere` at a request
to the audit endpoint. -/
theorem claim_C9_query_token_accepted_everywhere_witness :
    authMiddleware
      (fun t =>
        if t = "tok2".toList then
          some { id := "user-2".toList, clinicId := "clinic-b".toList,
                 role := Role.admin }
        else none)
      { path := "/audit".toList, authorization := none,
        queryToken := some "tok2".toList } =
      .next { id := "user-2".toList, clinicId := "clinic-b".toList,
              role := Role.admin } "clinic-b".toList :=
  claim_C9_query_token_accepted_everywhere _ _ "tok2".toList _ rfl rfl
    (by decide) (by decide)

/-- C1: `GET /ai/jobs/:jobId` returns the full job state — including
`summaryId` and `failedReason` — to an authenticated caller of a
different clinic: the handler never compares the caller's clinic with
the `clinicId` stored in the job data.  `GET /patients/:id` by
contrast answers 404 for a patient of another clinic. -/
theorem claim_C1_cross_tenant_job_leak :
    (aiJobsGetHandler
        { id := "user-b".toList, clinicId := "clinic-b".toList,
          role := Role.doctor }
        [{ jobId := "42".toList, clinicId := "clinic-a".toList,
           patientId := "11111111-1111-1111-1111-111111111111".toList,
           userId := "user-a".toList, state := JobState.completed,
           failedReason := none,
           summaryId := some "22222222-2222-2222-2222-222222222222".toList }]
        "42".toList =
      .ok { jobId := "42".toList, state := JobState.completed,
            failedReason := none,
            summaryId := some "22222222-2222-2222-2222-222222222222".toList }) ∧
    ("clinic-b".toList ≠ "clinic-a".toList) ∧
    (patientsGetByIdHandler (some "clinic-b".toList)
        [{ id := "11111111-1111-1111-1111-111111111111".toList,
           clinicId := "clinic-a".toList, isArchived := false }]
        "11111111-1111-1111-1111-111111111111".toList =
      .notFound) := by
  refine ⟨by decide, by decide, by decide⟩

/-- C5: `GET /vitals/:patientId` and `GET /consultations/:patientId`
return rows whose `deletedAt` is set — their queries have no
`deletedAt` filter — while `GET /labs/:patientId` excludes them. -/
theorem claim_C5_soft_deleted_rows_returned :
    (vitalsGetHandler (some "clinic-a".toList)
        [{ id := "11111111-1111-1111-1111-111111111111".toList,
           clinicId := "clinic-a".toList, isArchived := false }]
        [{ id := "33333333-3333-3333-3333-333333333333".toList,
           patientId := "11111111-1111-1111-1111-111111111111".toList,
           vtype := VitalType.BP, value := "120/80".toList, recordedAt := 5,
           deletedAt := some 9 }]
        "11111111-1111-1111-1111-111111111111".toList =
      .ok [{ id := "33333333-3333-3333-3333-333333333333".toList,
             patientId := "11111111-1111-1111-1111-111111111111".toList,
             vtype := VitalType.BP, value := "120/80".toList, recordedAt := 5,
             deletedAt := some 9 }]) ∧
    (consultationsGetHandler (some "clinic-a".toList)
        [{ id := "11111111-1111-1111-1111-111111111111".toList,
           clinicId := "clinic-a".toList, isArchived := false }]
        [{ id := "44444444-4444-4444-4444-444444444444".toList,
           patientId := "11111111-1111-1111-1111-111111111111".toList,
           doctorId := "user-a".toList, date := 7, deletedAt := some 9 }]
        "11111111-1111-1111-1111-111111111111".toList none 20 =
      .ok [{ id := "44444444-4444-4444-4444-444444444444".toList,
             patientId := "11111111-1111-1111-1111-111111111111".toList,
             doctorId := "user-a".toList, date := 7, deletedAt := some 9 }]) ∧
    (labsGetHandler (some "clinic-a".toList)
        [{ id := "11111111-1111-1111-1111-111111111111".toList,
           clinicId := "clinic-a".toList, isArchived := false }]
        [{ id := "55555555-5555-5555-5555-555555555555".toList,
           patientId := "11111111-1111-1111-1111-111111111111".toList,
           testName := "Glucose".toList, value := "150".toList,
           recordedAt := 5, deletedAt := some 9 }]
        "11111111-1111-1111-1111-111111111111".toList =
      .ok []) := by
  refine ⟨by decide, by decide, by decide⟩

/-- C6: a successful `POST /vitals` performs no cache operation at all,
so in particular it does not invalidate `ai:structured-input:{p}`; the
consultations write path by contrast does invalidate exactly that
key.  The universally quantified first conjunct shows the handler never
issues a cache operation on any input. -/
theorem claim_C6_vital_create_does_not_invalidate_cache :
    (∀ (clinicId userId : Option (List Char)) (patients : List Patient)
        (body : CreateVitalBody) (newId : List Char),
      (vitalsPostHandler clinicId userId patients body newId).cacheOps = []) ∧
    ((vitalsPostHandler (some "clinic-a".toList) (some "user-a".toList)
        [{ id := "11111111-1111-1111-1111-111111111111".toList,
           clinicId := "clinic-a".toList, isArchived := false }]
        { patientId := "11111111-1111-1111-1111-111111111111".toList,
          vtype := VitalType.BP, value := "120/80".toList, recordedAt := 5 }
        "33333333-3333-3333-3333-333333333333".toList).status = 201) ∧
    (¬ CacheOp.deleteKey
        (structuredInputCacheKey
          "11111111-1111-1111-1111-111111111111".toList) ∈
      (vitalsPostHandler (some "clinic-a".toList) (some "user-a".toList)
        [{ id := "11111111-1111-1111-1111-111111111111".toList,
           clinicId := "clinic-a".toList, isArchived := false }]
        { patientId := "11111111-1111-1111-1111-111111111111".toList,
          vtype := VitalType.BP, value := "120/80".toList, recordedAt := 5 }
        "33333333-3333-3333-3333-333333333333".toList).cacheOps) ∧
    ((consultationsPostHandler (some "clinic-a".toList)
        (some "user-a".toList)
        [{ id := "11111111-1111-1111-1111-111111111111".toList,
           clinicId := "clinic-a".toList, isArchived := false }]
        "11111111-1111-1111-1111-111111111111".toList).cacheOps =
      [CacheOp.deleteKey (structuredInputCacheKey
        "11111111-1111-1111-1111-111111111111".toList)]) := by
  refine ⟨?_, by decide, by decide, by decide⟩
  intro clinicId userId patients body newId
  unfold vitalsPostHandler
  cases clinicId with
  | none => cases userId <;> rfl
  | some cid =>
      cases userId with
      | none => rfl
      | some uid =>
          dsimp only
          split
          · rfl
          · cases ensurePatientInTenantVitals patients body.patientId cid <;> rfl

/-- The subscribed stream loop writes at most one terminal data
frame. -/
theorem streamLoop_terminal_count (occs : List StreamOccurrence) :
    (streamLoop occs).countP Frame.isTerminalData ≤ 1 := by
  induction occs with
  | nil => simp [streamLoop]
  | cons occ rest ih =>
      cases occ with
      | message e => simp [streamLoop, List.countP_cons, Frame.isTerminalData]
      | heartbeatTick =>
          rw [streamLoop]
          rw [List.countP_cons]
          simpa [Frame.isTerminalData] using ih
      | timeoutFire => simp [streamLoop, List.countP_cons, Frame.isTerminalData]
      | clientClose => simp [streamLoop]

/-- C8: for an existing job the push-stream client observes at most one
terminal (`completed`/`failed`) data frame; it always observes at least
one data frame (the initial state, with the 2-minute timer additionally
producing a `timeout` frame, modelled by the `timeoutFire`
occurrence); and when the job is already terminal at connection time
the endpoint writes exactly one data frame and closes without
subscribing. -/
theorem claim_C8_stream_terminal_events (st : JobStatusView)
    (occs : List StreamOccurrence) :
    ((streamHandler (some st) occs).frames.countP Frame.isTerminalData ≤ 1) ∧
    (∃ f ∈ (streamHandler (some st) occs).frames, f.isData = true) ∧
    ((streamHandler (some st) occs).frames.head? =
      some (Frame.dataStatus st.state st.summaryId st.failedReason)) ∧
    (streamLoop (StreamOccurrence.timeoutFire :: occs) =
      [Frame.dataTimeout]) ∧
    (st.state.isTerminal = true →
      (streamHandler (some st) occs).frames =
        [Frame.dataStatus st.state st.summaryId st.failedReason] ∧
      (streamHandler (some st) occs).subscribed = false) := by
  by_cases hterm : st.state.isTerminal = true
  · have hrun : streamHandler (some st) occs =
        { frames := [Frame.dataStatus st.state st.summaryId st.failedReason],
          subscribed := false } := by
      simp [streamHandler, hterm]
    rw [hrun]
    refine ⟨?_, ?_, rfl, rfl, fun _ => ⟨rfl, rfl⟩⟩
    · simp [List.countP_cons, Frame.isTerminalData, hterm]
    · exact ⟨Frame.dataStatus st.state st.summaryId st.failedReason,
        List.mem_cons_self _ _, rfl⟩
  · have hfalse : st.state.isTerminal = false := by
      simpa using hterm
    have hrun : streamHandler (some st) occs =
        { frames := Frame.dataStatus st.state st.summaryId st.failedReason ::
            streamLoop occs,
          subscribed := true } := by
      simp [streamHandler, hfalse]
    rw [hrun]
    refine ⟨?_, ?_, rfl, rfl, fun h => absurd h hterm⟩
    · rw [List.countP_cons]
      have hnt : (Frame.dataStatus st.state st.summaryId
          st.failedReason).isTerminalData = false := by
        simp [Frame.isTerminalData, hfalse]
      rw [hnt]
      simpa using streamLoop_terminal_count occs
    · exact ⟨Frame.dataStatus st.state st.summaryId st.failedReason,
        List.mem_cons_self _ _, rfl⟩

/-- Witness for `claim_C8_stream_terminal_events`: a completed job
yields exactly its single status frame and no subscription. -/
theorem claim_C8_stream_terminal_events_witness :
    (streamHandler
        (some { jobId := "42".toList, state := JobState.completed,
                failedReason := none,
                summaryId := some "22222222-2222-2222-2222-222222222222".toList })
        [StreamOccurrence.heartbeatTick]).frames =
      [Frame.dataStatus JobState.completed
        (some "22222222-2222-2222-2222-222222222222".toList) none] ∧
    (streamHandler
        (some { jobId := "42".toList, state := JobState.completed,
                failedReason := none,
                summaryId := some "22222222-2222-2222-2222-222222222222".toList })
        [StreamOccurrence.heartbeatTick]).subscribed = false :=
  (claim_C8_stream_terminal_events
    { jobId := "42".toList, state := JobState.completed, failedReason := none,
      summaryId := some "22222222-2222-2222-2222-222222222222".toList }
    [StreamOccurrence.heartbeatTick]).2.2.2.2 (by decide)

/-- Rounding to two decimals is the identity on integers. -/
theorem jsRound2_intCast (n : ℤ) : jsRound2 (n : ℝ) = n := by
  unfold jsRound2
  rcases le_or_lt 0 (n : ℝ) with h | h
  · rw [if_pos h]
    have hf : ⌊(n : ℝ) * 100 + 1 / 2⌋ = 100 * n := by
      rw [Int.floor_eq_iff]
      constructor
      · push_cast; nlinarith
      · push_cast; nlinarith
    rw [hf]
    push_cast
    ring
  · rw [if_neg (by linarith)]
    have hf : ⌊-(n : ℝ) * 100 + 1 / 2⌋ = -(100 * n) := by
      rw [Int.floor_eq_iff]
      constructor
      · push_cast; nlinarith
      · push_cast; nlinarith
    rw [hf]
    push_cast
    ring

/-- C7: for every numeric series and threshold, the anomaly report is
empty when the series has fewer than three points or zero population
standard deviation; otherwise it consists exactly of the `{index,
value, z}` entries of the points whose z-score against the full-series
mean and standard deviation has absolute value at least the threshold,
with the reported z rounded to two decimals; and every reported entry's
z-score meets the threshold. -/
theorem claim_C7_zscore_anomalies (values : List ℝ) (t : ℝ) :
    (values.length < 3 → calculateZScoreAnomalies values t = []) ∧
    (listStdDev values = 0 → calculateZScoreAnomalies values t = []) ∧
    (¬ values.length < 3 → listStdDev values ≠ 0 →
      ∀ e : ZScoreAnomaly, e ∈ calculateZScoreAnomalies values t ↔
        (values.get? e.index = some e.value ∧
         t ≤ |(e.value - listMean values) / listStdDev values| ∧
         e.zScore = jsRound2 ((e.value - listMean values) /
           listStdDev values))) ∧
    (∀ e ∈ calculateZScoreAnomalies values t,
      t ≤ |(e.value - listMean values) / listStdDev values|) := by
  have key : ¬ values.length < 3 → listStdDev values ≠ 0 →
      ∀ e : ZScoreAnomaly, e ∈ calculateZScoreAnomalies values t ↔
        (values.get? e.index = some e.value ∧
         t ≤ |(e.value - listMean values) / listStdDev values| ∧
         e.zScore = jsRound2 ((e.value - listMean values) /
           listStdDev values)) := by
    intro hn hσ e
    unfold calculateZScoreAnomalies
    rw [if_neg hn, if_neg hσ]
    constructor
    · intro hmem
      rw [List.mem_map] at hmem
      obtain ⟨e', he', hge⟩ := hmem
      rw [List.mem_filter] at he'
      obtain ⟨he2, hpred⟩ := he'
      rw [List.mem_map] at he2
      obtain ⟨p, hp, hfp⟩ := he2
      obtain ⟨i, v⟩ := p
      rw [List.mem_enum_iff_getElem?] at hp
      subst hfp
      subst hge
      rw [decide_eq_true_iff] at hpred
      dsimp only at hpred ⊢
      refine ⟨?_, hpred, rfl⟩
      rw [List.get?_eq_getElem?]
      exact hp
    · rintro ⟨hget, hpred, hz⟩
      rw [List.mem_map]
      refine ⟨⟨e.index, e.value,
        (e.value - listMean values) / listStdDev values⟩, ?_, ?_⟩
      · rw [List.mem_filter]
        constructor
        · rw [List.mem_map]
          refine ⟨(e.index, e.value), ?_, rfl⟩
          rw [List.mem_enum_iff_getElem?]
          rw [List.get?_eq_getElem?] at hget
          exact hget
        · rw [decide_eq_true_iff]
          exact hpred
      · cases e with
        | mk i v z =>
            dsimp only at hz ⊢
            rw [hz]
  refine ⟨?_, ?_, key, ?_⟩
  · intro hn
    unfold calculateZScoreAnomalies
    rw [if_pos hn]
  · intro hσ
    unfold calculateZScoreAnomalies
    by_cases hn : values.length < 3
    · rw [if_pos hn]
    · rw [if_neg hn, if_pos hσ]
  · intro e he
    by_cases hn : values.length < 3
    · unfold calculateZScoreAnomalies at he
      rw [if_pos hn] at he
      cases he
    · by_cases hσ : listStdDev values = 0
      · unfold calculateZScoreAnomalies at he
        rw [if_neg hn, if_pos hσ] at he
        cases he
      · exact ((key hn hσ e).mp he).2.1

/-- Witness for `claim_C7_zscore_anomalies`: a two-point series yields
an empty report, and in the five-point series `[1, 1, 1, 1, -4]` (mean
0, standard deviation 2) the last point is reported with z-score
`-2`. -/
theorem claim_C7_zscore_anomalies_witness :
    calculateZScoreAnomalies [0, 0] 2 = [] ∧
    ({ index := 4, value := -4, zScore := -2 } : ZScoreAnomaly) ∈
      calculateZScoreAnomalies [1, 1, 1, 1, -4] 2 := by
  constructor
  · exact (claim_C7_zscore_anomalies [0, 0] 2).1 (by norm_num)
  · have hvar : listVariance [1, 1, 1, 1, -4] = 4 := by
      have hmean : listMean [1, 1, 1, 1, -4] = 0 := by
        unfold listMean listSumR
        norm_num
      unfold listVariance listSumR
      rw [hmean]
      norm_num
    have hσ : listStdDev [1, 1, 1, 1, -4] = 2 := by
      unfold listStdDev
      rw [hvar, show (4 : ℝ) = 2 ^ 2 by norm_num, Real.sqrt_sq (by norm_num)]
    have hmean : listMean [1, 1, 1, 1, -4] = 0 := by
      unfold listMean listSumR
      norm_num
    refine ((claim_C7_zscore_anomalies [1, 1, 1, 1, -4] 2).2.2.1
      (by norm_num) (by rw [hσ]; norm_num)
      { index := 4, value := -4, zScore := -2 }).mpr ⟨rfl, ?_, ?_⟩
    · rw [hσ, hmean]
      norm_num
    · rw [hσ, hmean]
      have harg : ((-4 : ℝ) - 0) / 2 = ((-2 : ℤ) : ℝ) := by norm_num
      dsimp only
      rw [harg, jsRound2_intCast]
      push_cast
      norm_num

/-- C4: the risk flags are driven by the z-score of the *oldest* entry
of each trend, not the chronologically latest one.  The trends handed
to `buildRiskFlags` are most-recent-first (vitals are fetched in
`recordedAt`-descending order), and `calculateLatestZScore` takes
`values[values.length - 1]` — the last array element, which is the
chronologically oldest reading.  For the blood-pressure trend
`[130, 110, 130, 110, 160]` (latest reading 130, oldest 160) the code
sets `highBloodPressureTrend` although the chronologically latest
reading's z-score against the prior baseline is below 2. -/
theorem claim_C4_risk_flag_uses_oldest_reading :
    ((buildRiskFlags
        { age := none, bpTrend := [130, 110, 130, 110, 160],
          glucoseTrend := [], heartRateTrend := [], weightTrend := [],
          recentSymptoms := [], recentLabValues := [] }).highBloodPressureTrend
      = true) ∧
    (|((130 : ℝ) - listMean [110, 130, 110, 160]) /
        listStdDev [110, 130, 110, 160]| < 2) := by
  constructor
  · have hbase : ([130, 110, 130, 110, 160] : List ℝ).dropLast =
        [130, 110, 130, 110] := rfl
    have hmean : listMean [130, 110, 130, 110] = 120 := by
      unfold listMean listSumR
      norm_num
    have hvar : listVariance [130, 110, 130, 110] = 100 := by
      unfold listVariance listSumR
      rw [hmean]
      norm_num
    have hσ : listStdDev [130, 110, 130, 110] = 10 := by
      unfold listStdDev
      rw [hvar, show (100 : ℝ) = 10 ^ 2 by norm_num,
        Real.sqrt_sq (by norm_num)]
    have hz : calculateLatestZScore [130, 110, 130, 110, 160] = some 4 := by
      unfold calculateLatestZScore
      rw [if_neg (by norm_num)]
      simp only [hbase, hmean, hσ]
      rw [if_neg (by norm_num)]
      have hget : ([130, 110, 130, 110, 160] : List ℝ).getD
          (([130, 110, 130, 110, 160] : List ℝ).length - 1) 0 = 160 := rfl
      rw [hget]
      have harg : ((160 : ℝ) - 120) / 10 = ((4 : ℤ) : ℝ) := by norm_num
      rw [harg, jsRound2_intCast]
      push_cast
      norm_num
    unfold buildRiskFlags
    rw [hz]
    exact decide_eq_true (by norm_num)
  · have hmean : listMean [110, 130, 110, 160] = 255 / 2 := by
      unfold listMean listSumR
      norm_num
    have hvar : listVariance [110, 130, 110, 160] = 1675 / 4 := by
      unfold listVariance listSumR
      rw [hmean]
      norm_num
    have hσpos : 0 < listStdDev [110, 130, 110, 160] := by
      unfold listStdDev
      rw [hvar]
      exact Real.sqrt_pos.mpr (by norm_num)
    have hσgt : 5 / 4 < listStdDev [110, 130, 110, 160] := by
      unfold listStdDev
      rw [hvar]
      rw [show (5 : ℝ) / 4 = Real.sqrt ((5 / 4) ^ 2) by
        rw [Real.sqrt_sq (by norm_num)]]
      exact Real.sqrt_lt_sqrt (by norm_num) (by norm_num)
    rw [hmean, abs_div, abs_of_pos hσpos]
    rw [div_lt_iff₀ hσpos]
    have : |(130 : ℝ) - 255 / 2| = 5 / 2 := by
      rw [abs_of_pos] <;> norm_num
    rw [this]
    nlinarith

/-- C10 counterexample: `scrubPhi` is not idempotent.  In
`"1234567890aaaaaaaa-bbbb-cccc-dddd-eeeeeeeeeeee"` the first scrub
replaces only the ten digits (a phone-pattern match); the second scrub
then sees a word boundary after the inserted `]` and redacts the
remaining 8-4-4-4-12 hex shape as a UUID-pattern match, so re-scrubbing
changes the already-scrubbed text. -/
theorem claim_C10_counterexample :
    scrubPhi (scrubPhi
        "1234567890aaaaaaaa-bbbb-cccc-dddd-eeeeeeeeeeee".toList) ≠
      scrubPhi "1234567890aaaaaaaa-bbbb-cccc-dddd-eeeeeeeeeeee".toList := by
  decide

/-! ### Run, parse and context lemmas for the anonymizer proof -/

theorem takeRun_nil (p : Char → Bool) : takeRun p [] = 0 := rfl

theorem takeRun_cons (p : Char → Bool) (c : Char) (rest : List Char) :
    takeRun p (c :: rest) =
      if p c then takeRun p rest + 1 else 0 := by
  unfold takeRun
  rw [List.takeWhile_cons]
  split <;> simp

theorem takeRun_le (p : Char → Bool) (s : List Char) :
    takeRun p s ≤ s.length := by
  induction s with
  | nil => simp [takeRun_nil]
  | cons c rest ih =>
      rw [takeRun_cons]
      split
      · simp only [List.length_cons]
        omega
      · simp

/-- Taking the greedy run's length recovers `takeWhile`. -/
theorem take_takeRun (p : Char → Bool) (s : List Char) :
    s.take (takeRun p s) = s.takeWhile p := by
  induction s with
  | nil => rfl
  | cons c rest ih =>
      rw [takeRun_cons, List.takeWhile_cons]
      by_cases h : p c
      · simp only [h, if_true, List.take_succ_cons, ih]
      · simp [h]

/-- Characters inside the greedy run satisfy the predicate. -/
theorem takeRun_mem (p : Char → Bool) (s : List Char) :
    ∀ d ∈ s.take (takeRun p s), p d = true := by
  rw [take_takeRun]
  intro d hd
  exact List.mem_takeWhile_imp hd

/-- The character right after the greedy run fails the predicate. -/
theorem takeRun_stopper (p : Char → Bool) (s : List Char) (d : Char)
    (h : s.get? (takeRun p s) = some d) : p d = false := by
  induction s generalizing d with
  | nil => simp at h
  | cons c rest ih =>
      rw [takeRun_cons] at h
      by_cases hc : p c
      · rw [if_pos hc] at h
        exact ih d (by simpa using h)
      · rw [if_neg hc] at h
        simp only [List.get?] at h
        cases h
        simpa using hc

/-- A greedy run that stops inside `w` is unchanged by appending. -/
theorem takeRun_append_lt (p : Char → Bool) (w t : List Char)
    (h : takeRun p w < w.length) : takeRun p (w ++ t) = takeRun p w := by
  induction w with
  | nil => simp at h
  | cons c rest ih =>
      rw [List.cons_append, takeRun_cons, takeRun_cons]
      by_cases hc : p c
      · rw [if_pos hc, if_pos hc]
        rw [takeRun_cons, if_pos hc] at h
        simp only [List.length_cons] at h
        rw [ih (by omega)]
      · rw [if_neg hc, if_neg hc]

/-- A greedy run exhausting `w` continues into the appended part. -/
theorem takeRun_append_full (p : Char → Bool) (w t : List Char)
    (h : takeRun p w = w.length) : takeRun p (w ++ t) = w.length + takeRun p t := by
  induction w with
  | nil => simp
  | cons c rest ih =>
      rw [takeRun_cons] at h
      by_cases hc : p c
      · rw [if_pos hc] at h
        simp only [List.length_cons] at h
        rw [List.cons_append, takeRun_cons, if_pos hc, ih (by omega)]
        simp only [List.length_cons]
        omega
      · rw [if_neg hc] at h
        simp at h

/-- Specification of the rigid digit parser. -/
theorem parseDigits_some_iff (k : Nat) (s r : List Char) :
    parseDigits k s = some r ↔
      k ≤ s.length ∧ (∀ d ∈ s.take k, isDigitCh d = true) ∧ r = s.drop k := by
  induction k generalizing s with
  | zero =>
      rw [parseDigits]
      simp only [Nat.zero_le, true_and, List.take_zero, List.drop_zero,
        List.not_mem_nil, false_implies, implies_true]
      constructor
      · intro h
        cases h
        rfl
      · intro h
        rw [h]
  | succ k ih =>
      cases s with
      | nil => simp [parseDigits]
      | cons c rest =>
          rw [parseDigits]
          by_cases hc : isDigitCh c
          · rw [if_pos hc, ih]
            constructor
            · rintro ⟨h1, h2, h3⟩
              refine ⟨by simpa using h1, ?_, by simpa using h3⟩
              intro d hd
              rw [List.take_succ_cons] at hd
              rcases List.mem_cons.mp hd with h | h
              · rw [h]; exact hc
              · exact h2 d h
            · rintro ⟨h1, h2, h3⟩
              refine ⟨by simpa using h1, ?_, by simpa using h3⟩
              intro d hd
              exact h2 d (by rw [List.take_succ_cons]; exact List.mem_cons_of_mem c hd)
          · rw [if_neg hc]
            constructor
            · intro h; cases h
            · rintro ⟨h1, h2, h3⟩
              exact absurd (h2 c (by rw [List.take_succ_cons]; exact List.mem_cons_self c _)) (by simpa using hc)

/-- `dropTrailingDots` splits the run into the kept part and a dotted
tail. -/
theorem dropTrailingDots_spec (l : List Char) :
    ∃ z, l = dropTrailingDots l ++ z ∧ ∀ d ∈ z, d = '.' := by
  unfold dropTrailingDots
  refine ⟨(l.reverse.takeWhile fun c => c = '.').reverse, ?_, ?_⟩
  · rw [← List.reverse_append, List.takeWhile_append_dropWhile,
      List.reverse_reverse]
  · intro d hd
    rw [List.mem_reverse] at hd
    have := List.mem_takeWhile_imp hd
    simpa using this

/-- The head of a `dropWhile` result fails the predicate. -/
theorem head_dropWhile_false (q : Char → Bool) (l : List Char) (c : Char)
    (rest : List Char) (h : l.dropWhile q = c :: rest) : q c = false := by
  induction l with
  | nil => simp at h
  | cons a as ih =>
      rw [List.dropWhile_cons] at h
      by_cases ha : q a
      · rw [if_pos ha] at h
        exact ih h
      · rw [if_neg ha] at h
        cases h
        simpa using ha

/-- A non-empty kept part does not end in a dot. -/
theorem dropTrailingDots_last (l : List Char)
    (h : dropTrailingDots l ≠ []) :
    ∃ d, (dropTrailingDots l).getLast? = some d ∧ d ≠ '.' := by
  unfold dropTrailingDots at h ⊢
  rw [List.getLast?_reverse]
  cases hd : l.reverse.dropWhile fun c => c = '.' with
  | nil => rw [hd] at h; simp at h
  | cons c rest =>
      refine ⟨c, ?_, ?_⟩
      · rfl
      · have := head_dropWhile_false _ _ _ _ hd
        simpa using this

theorem dropTrailingDots_length_le (l : List Char) :
    (dropTrailingDots l).length ≤ l.length := by
  obtain ⟨z, hz, _⟩ := dropTrailingDots_spec l
  conv_rhs => rw [hz]
  simp

/-- Appending can only enlarge the kept part of a run. -/
theorem dropTrailingDots_append_mono (a b : List Char) :
    (dropTrailingDots a).length ≤ (dropTrailingDots (a ++ b)).length := by
  unfold dropTrailingDots
  rw [List.reverse_append, List.dropWhile_append]
  by_cases hb : ((b.reverse.dropWhile fun c => c = '.')).isEmpty = true
  · rw [if_pos hb]
  · rw [if_neg hb]
    simp only [List.length_reverse, List.length_append]
    have h1 : ((a.reverse.dropWhile fun c => c = '.')).length ≤
        a.reverse.length := (List.dropWhile_sublist _).length_le
    simp only [List.length_reverse] at h1
    omega

/-- `hasMatchFrom` only depends on the word-character status of the
incoming context, provided the matcher does. -/
theorem hasMatchFrom_ctx (ms : Option Char → List Char → Option Nat)
    (Hctx : ∀ p q s, isWordOpt p = isWordOpt q → ms p s = ms q s)
    (p q : Option Char) (s : List Char) (h : isWordOpt p = isWordOpt q) :
    hasMatchFrom ms p s = hasMatchFrom ms q s := by
  cases s with
  | nil => rfl
  | cons c rest =>
      rw [hasMatchFrom, hasMatchFrom, Hctx p q _ h]

/-- Searching a concatenation: a match-free result is match-free from
any suffix onwards, with the context the scan would carry there. -/
theorem hasMatchFrom_append_false
    (ms : Option Char → List Char → Option Nat) :
    ∀ (x : List Char) (prev : Option Char) (y : List Char),
      hasMatchFrom ms prev (x ++ y) = false →
      hasMatchFrom ms (ctxAfter prev x) y = false := by
  intro x
  induction x with
  | nil => intro prev y h; simpa [ctxAfter] using h
  | cons c rest ih =>
      intro prev y h
      rw [List.cons_append, hasMatchFrom, Bool.or_eq_false_iff] at h
      have h2 := ih (some c) y h.2
      have hctx : ctxAfter prev (c :: rest) = ctxAfter (some c) rest := by
        cases rest with
        | nil => simp [ctxAfter]
        | cons b l =>
            unfold ctxAfter
            rw [List.getLast?_cons_cons]
            cases hg : (b :: l).getLast? with
            | some d => rfl
            | none => simp at hg
      rw [hctx]
      exact h2

/-- Pushing one character into the context accumulator. -/
theorem ctxAfter_cons (prev : Option Char) (c : Char) (rest : List Char) :
    ctxAfter prev (c :: rest) = ctxAfter (some c) rest := by
  cases rest with
  | nil => simp [ctxAfter]
  | cons b l =>
      unfold ctxAfter
      rw [List.getLast?_cons_cons]
      cases hg : (b :: l).getLast? with
      | some d => rfl
      | none => simp at hg

/-- Searching through a replacement token: when every non-empty suffix
of the token fails the search matcher whatever follows it, searching
`r2 ++ y` reduces to searching `y` with the token's last character as
context. -/
theorem hasMatchFrom_token_append
    (ms : Option Char → List Char → Option Nat) (R : List Char) :
    ∀ (r2 : List Char) (pout : Option Char) (y : List Char), r2 ≠ [] →
      (∀ r2t t p, (∃ r1, R = r1 ++ r2t) → r2t ≠ [] → ms p (r2t ++ t) = none) →
      (∃ r1, R = r1 ++ r2) →
      hasMatchFrom ms (ctxAfter pout r2) y = false →
      hasMatchFrom ms pout (r2 ++ y) = false := by
  intro r2
  induction r2 with
  | nil => intro pout y h; cases h rfl
  | cons c rest ih =>
      intro pout y _ H hsub hy
      rw [List.cons_append, hasMatchFrom, Bool.or_eq_false_iff]
      rw [ctxAfter_cons] at hy
      constructor
      · have := H (c :: rest) y pout hsub (by simp)
        rw [List.cons_append] at this
        rw [this]
        rfl
      · cases hrest : rest with
        | nil =>
            subst hrest
            simpa [ctxAfter] using hy
        | cons b l =>
            subst hrest
            obtain ⟨r1, hr1⟩ := hsub
            refine ih (some c) y (by simp) H ⟨r1 ++ [c], ?_⟩ hy
            rw [hr1, List.append_assoc]
            rfl

/-- Structure of one global-replace pass: either the text is copied
verbatim (and is match-free under the scan contexts), or it splits at
the first replacement. -/
theorem replaceScan_decomp (m : Option Char → List Char → Option Nat)
    (R : List Char) :
    ∀ (fuel : Nat) (prev : Option Char) (s : List Char), s.length ≤ fuel →
      (replaceScan m R fuel prev s = s ∧ hasMatchFrom m prev s = false) ∨
      ∃ (u v : List Char) (n fuel2 : Nat),
        s = u ++ v ∧ m (ctxAfter prev u) v = some n ∧
        (∀ u1 u2, u = u1 ++ u2 → u2 ≠ [] →
          m (ctxAfter prev u1) (u2 ++ v) = none) ∧
        replaceScan m R fuel prev s =
          u ++ R ++ replaceScan m R fuel2 ((v.take (max n 1)).getLast?)
            (v.drop (max n 1)) ∧
        (v.drop (max n 1)).length ≤ fuel2 := by
  intro fuel
  induction fuel with
  | zero =>
      intro prev s hlen
      cases s with
      | nil => exact Or.inl ⟨rfl, rfl⟩
      | cons c rest => simp at hlen
  | succ fuel ih =>
      intro prev s hlen
      cases s with
      | nil => exact Or.inl ⟨rfl, rfl⟩
      | cons c rest =>
          cases hm : m prev (c :: rest) with
          | some n =>
              right
              refine ⟨[], c :: rest, n, fuel, by simp, ?_, ?_, ?_, ?_⟩
              · simpa [ctxAfter] using hm
              · intro u1 u2 hu hne
                rcases List.append_eq_nil.mp hu.symm with ⟨-, h2⟩
                exact absurd h2 hne
              · rw [replaceScan, hm]
                simp
              · rw [List.length_drop]
                have hmax : 1 ≤ max n 1 := le_max_right n 1
                simp only [List.length_cons] at hlen ⊢
                omega
          | none =>
              have hlen2 : rest.length ≤ fuel := by
                simp only [List.length_cons] at hlen
                omega
              rcases ih (some c) rest hlen2 with
                ⟨heq, hnm⟩ | ⟨u, v, n, fuel2, hsplit, hmatch, hufree, hout, hl2⟩
              · left
                constructor
                · rw [replaceScan, hm, heq]
                · rw [hasMatchFrom, hm, hnm]
                  rfl
              · right
                refine ⟨c :: u, v, n, fuel2, by rw [hsplit]; rfl, ?_, ?_, ?_, hl2⟩
                · rw [ctxAfter_cons]
                  exact hmatch
                · intro u1 u2 hu hne
                  cases u1 with
                  | nil =>
                      simp only [List.nil_append] at hu
                      subst hu
                      rw [List.cons_append, ← hsplit]
                      simpa [ctxAfter] using hm
                  | cons e u1t =>
                      simp only [List.cons_append, List.cons.injEq] at hu
                      rw [← hu.1, ctxAfter_cons]
                      exact hufree u1t u2 hu.2 hne
                · rw [replaceScan, hm, hout]
                  simp

/-! ### Segment-chain lemmas -/

theorem parseDigits_seg (k : Nat) (s r : List Char) :
    parseDigits k s = some r ↔ SegStep isDigitCh k s r := by
  rw [parseDigits_some_iff]
  rfl

theorem parseSep_seg (use : Bool) (t r : List Char) :
    parseSep use t = some r ↔ SegStep isSepCh (cond use 1 0) t r := by
  cases use with
  | false =>
      simp only [parseSep, cond]
      constructor
      · intro h
        cases h
        exact ⟨Nat.zero_le _, by simp, by simp⟩
      · rintro ⟨_, _, h⟩
        rw [h]
        simp
  | true =>
      cases t with
      | nil =>
          simp only [parseSep, cond]
          constructor
          · intro h; cases h
          · rintro ⟨h, _, _⟩; simp at h
      | cons c t1 =>
          simp only [parseSep, cond]
          by_cases hc : isSepCh c
          · rw [if_pos hc]
            constructor
            · intro h
              cases h
              refine ⟨by simp, ?_, by simp⟩
              intro d hd
              simp only [List.take_succ_cons, List.take_zero] at hd
              rcases List.mem_cons.mp hd with h | h
              · rw [h]; exact hc
              · simp at h
            · rintro ⟨_, _, h⟩
              simp only [List.drop_succ_cons, List.drop_zero] at h
              rw [h]
          · rw [if_neg hc]
            constructor
            · intro h; cases h
            · rintro ⟨_, hmem, _⟩
              exact absurd (hmem c (by simp)) (by simpa using hc)

theorem segChain_len_drop :
    ∀ (L : List ((Char → Bool) × Nat)) (s r : List Char), SegChain L s r →
      (L.map Prod.snd).sum ≤ s.length ∧ r = s.drop ((L.map Prod.snd).sum) := by
  intro L
  induction L with
  | nil =>
      intro s r h
      exact ⟨Nat.zero_le _, by simpa [SegChain] using h⟩
  | cons pk rest ih =>
      intro s r h
      obtain ⟨P, k⟩ := pk
      obtain ⟨m, ⟨hk, _, hmeq⟩, hchain⟩ := h
      obtain ⟨hlen, hdrop⟩ := ih m r hchain
      subst hmeq
      rw [List.length_drop] at hlen
      constructor
      · simp only [List.map_cons, List.sum_cons]
        omega
      · rw [hdrop, List.drop_drop]
        congr 1

theorem segChain_mem :
    ∀ (L : List ((Char → Bool) × Nat)) (s r : List Char), SegChain L s r →
      ∀ d ∈ s.take ((L.map Prod.snd).sum), ∃ p ∈ L, p.1 d = true := by
  intro L
  induction L with
  | nil => intro s r _ d hd; simp at hd
  | cons pk rest ih =>
      intro s r h d hd
      obtain ⟨P, k⟩ := pk
      obtain ⟨m, ⟨hk, hmem, hmeq⟩, hchain⟩ := h
      simp only [List.map_cons, List.sum_cons] at hd
      rw [List.take_add, List.mem_append] at hd
      rcases hd with hd | hd
      · exact ⟨(P, k), by simp, hmem d hd⟩
      · rw [← hmeq] at hd
        obtain ⟨p, hp, hpd⟩ := ih m r hchain d hd
        exact ⟨p, List.mem_cons_of_mem _ hp, hpd⟩

/-- Commuting a drop with a take. -/
theorem drop_take_comm (l : List Char) (a b : Nat) :
    (l.drop a).take b = (l.take (a + b)).drop a := by
  rw [List.drop_take]
  congr 1
  omega

theorem segChain_transfer :
    ∀ (L : List ((Char → Bool) × Nat)) (s r t : List Char), SegChain L s r →
      s.take ((L.map Prod.snd).sum) = t.take ((L.map Prod.snd).sum) →
      (L.map Prod.snd).sum ≤ t.length →
      SegChain L t (t.drop ((L.map Prod.snd).sum)) := by
  intro L
  induction L with
  | nil =>
      intro s r t _ _ _
      simp [SegChain]
  | cons pk rest ih =>
      intro s r t h htake hlen
      obtain ⟨P, k⟩ := pk
      obtain ⟨m, ⟨hk, hmem, hmeq⟩, hchain⟩ := h
      simp only [List.map_cons, List.sum_cons] at htake hlen ⊢
      have hkt : k ≤ t.length := by omega
      have htk : s.take k = t.take k := by
        have := congrArg (fun l => List.take k l) htake
        simpa [List.take_take, Nat.le_add_right, Nat.min_eq_left
          (Nat.le_add_right k ((rest.map Prod.snd).sum))] using this
      subst hmeq
      refine ⟨t.drop k, ⟨hkt, ?_, rfl⟩, ?_⟩
      · intro d hd
        rw [← htk] at hd
        exact hmem d hd
      · have hsub : (s.drop k).take ((rest.map Prod.snd).sum) =
            (t.drop k).take ((rest.map Prod.snd).sum) := by
          rw [drop_take_comm, drop_take_comm, htake]
        have hlen2 : ((rest.map Prod.snd).sum) ≤ (t.drop k).length := by
          rw [List.length_drop]
          omega
        have h3 := ih (s.drop k) r (t.drop k) hchain hsub hlen2
        rw [List.drop_drop] at h3
        exact h3

theorem segChain_last :
    ∀ (L' : List ((Char → Bool) × Nat)) (P : Char → Bool) (k : Nat)
      (s r : List Char), SegChain (L' ++ [(P, k)]) s r → 1 ≤ k →
      ∃ d, (s.take (((L' ++ [(P, k)]).map Prod.snd).sum)).getLast? = some d ∧
        P d = true := by
  intro L'
  induction L' with
  | nil =>
      intro P k s r h hk
      obtain ⟨m, ⟨hkl, hmem, _⟩, _⟩ := h
      simp only [List.nil_append, List.map_cons, List.map_nil, List.sum_cons,
        List.sum_nil, Nat.add_zero]
      have hlen : (s.take k).length = k := by
        rw [List.length_take]
        omega
      cases hg : (s.take k).getLast? with
      | none =>
          rw [List.getLast?_eq_none_iff] at hg
          rw [hg] at hlen
          simp at hlen
          omega
      | some d =>
          refine ⟨d, rfl, ?_⟩
          have hdmem : d ∈ s.take k := by
            cases hsk : s.take k with
            | nil => rw [hsk] at hg; simp at hg
            | cons a as =>
                rw [hsk] at hg
                rw [List.getLast?_eq_getLast _ (by simp)] at hg
                cases hg
                exact List.getLast_mem _
          exact hmem d hdmem
  | cons pk L ih =>
      intro P k s r h hk
      obtain ⟨Q, j⟩ := pk
      obtain ⟨m, ⟨hj, _, hmeq⟩, hchain⟩ := h
      obtain ⟨d, hd, hPd⟩ := ih P k m r hchain hk
      refine ⟨d, ?_, hPd⟩
      simp only [List.cons_append, List.map_cons, List.sum_cons]
      rw [List.take_add, ← hmeq]
      rw [List.getLast?_append_of_ne_nil]
      · exact hd
      · intro habs
        obtain ⟨hle, _⟩ := segChain_len_drop _ _ _ hchain
        rw [List.append_eq] at hle
        have hlen := congrArg List.length habs
        rw [List.length_take] at hlen
        simp only [List.length_nil] at hlen
        have h1 : 1 ≤ (((L ++ [(P, k)]).map Prod.snd).sum) := by
          simp only [List.map_append, List.sum_append, List.map_cons,
            List.sum_cons, List.map_nil, List.sum_nil]
          omega
        omega

/-! ### Phone-pattern lemmas -/

theorem digit_isWord (c : Char) (h : isDigitCh c = true) :
    isWordCh c = true := by
  unfold isDigitCh at h
  unfold isWordCh
  simp only [Bool.and_eq_true, decide_eq_true_eq, Bool.or_eq_true] at h ⊢
  omega

theorem sep_not_word (c : Char) (h : isSepCh c = true) :
    isWordCh c = false := by
  unfold isSepCh at h
  simp only [Bool.or_eq_true, decide_eq_true_eq] at h
  rcases h with rfl | rfl <;> decide

/-- `nextOk` only looks at the head. -/
theorem nextOk_congr (x y : List Char) (h : x.head? = y.head?) :
    nextOk x = nextOk y := by
  cases x with
  | nil =>
      cases y with
      | nil => rfl
      | cons b bs => simp at h
  | cons a as =>
      cases y with
      | nil => simp at h
      | cons b bs =>
          simp only [List.head?] at h
          cases h
          rfl

/-- Characterisation of one phone alternative as a segment chain. -/
theorem phoneTry_some_iff (u1 u2 : Bool) (s : List Char) (n : Nat) :
    phoneTry u1 u2 s = some n ↔
      (n = ((phoneSegs u1 u2).map Prod.snd).sum ∧ n ≤ s.length ∧
       SegChain (phoneSegs u1 u2) s (s.drop n) ∧
       nextOk (s.drop n) = true) := by
  constructor
  · intro h
    unfold phoneTry at h
    cases h3 : parseDigits 3 s with
    | none => simp only [h3] at h; cases h
    | some s1 =>
    simp only [h3] at h
    cases hsep1 : parseSep u1 s1 with
    | none => simp only [hsep1] at h; cases h
    | some s2 =>
    simp only [hsep1] at h
    cases h4 : parseDigits 3 s2 with
    | none => simp only [h4] at h; cases h
    | some s3 =>
    simp only [h4] at h
    cases hsep2 : parseSep u2 s3 with
    | none => simp only [hsep2] at h; cases h
    | some s4 =>
    simp only [hsep2] at h
    cases h5 : parseDigits 4 s4 with
    | none => simp only [h5] at h; cases h
    | some s5 =>
    simp only [h5] at h
    cases hok : nextOk s5 with
    | false => rw [hok] at h; simp at h
    | true =>
    rw [hok, if_pos rfl] at h
    have hchain : SegChain (phoneSegs u1 u2) s s5 :=
      ⟨s1, (parseDigits_seg 3 s s1).mp h3,
       s2, (parseSep_seg u1 s1 s2).mp hsep1,
       s3, (parseDigits_seg 3 s2 s3).mp h4,
       s4, (parseSep_seg u2 s3 s4).mp hsep2,
       s5, (parseDigits_seg 4 s4 s5).mp h5, rfl⟩
    obtain ⟨hle, hdrop⟩ := segChain_len_drop _ _ _ hchain
    have hlen5 : s5.length = s.length - ((phoneSegs u1 u2).map Prod.snd).sum := by
      rw [hdrop, List.length_drop]
    have hn : n = ((phoneSegs u1 u2).map Prod.snd).sum := by
      cases h
      omega
    subst hn
    rw [← hdrop]
    exact ⟨rfl, hle, hchain, hok⟩
  · rintro ⟨hn, hle, hchain, hok⟩
    obtain ⟨s1, st1, s2, st2, s3, st3, s4, st4, s5, st5, hr⟩ := hchain
    have h1 := (parseDigits_seg 3 s s1).mpr st1
    have h2 := (parseSep_seg u1 s1 s2).mpr st2
    have h3 := (parseDigits_seg 3 s2 s3).mpr st3
    have h4 := (parseSep_seg u2 s3 s4).mpr st4
    have h5 := (parseDigits_seg 4 s4 s5).mpr st5
    have hr2 : List.drop n s = s5 := hr
    rw [hr2] at hok
    simp only [phoneTry, h1, h2, h3, h4, h5, hok, if_true, Option.some.injEq]
    rw [← hr2, List.length_drop]
    omega

/-- The padded total length of one phone alternative is at least
ten. -/
theorem phoneSegs_sum_ge (u1 u2 : Bool) :
    10 ≤ ((phoneSegs u1 u2).map Prod.snd).sum := by
  cases u1 <;> cases u2 <;> decide

/-- Deconstruction of a `phoneMatchAt` match. -/
theorem phoneMatchAt_some (p : Option Char) (s : List Char) (n : Nat)
    (h : phoneMatchAt p s = some n) :
    isWordOpt p = false ∧
    (∃ c r, s = c :: r ∧ isDigitCh c = true) ∧
    ∃ u1 u2, phoneTry u1 u2 s = some n := by
  cases s with
  | nil => cases h
  | cons c r =>
      rw [phoneMatchAt] at h
      by_cases hg : (!isDigitCh c || isWordOpt p) = true
      · rw [if_pos hg] at h; cases h
      · rw [if_neg hg] at h
        simp only [Bool.or_eq_true, not_or, Bool.not_eq_true, Bool.not_eq_true',
          Bool.not_eq_false] at hg
        refine ⟨hg.2, ⟨c, r, rfl, hg.1⟩, ?_⟩
        cases h1 : phoneTry true true (c :: r) with
        | some m =>
            rw [h1] at h
            simp only [Option.orElse] at h
            cases h
            exact ⟨true, true, h1⟩
        | none =>
            rw [h1] at h
            simp only [Option.orElse] at h
            cases h2 : phoneTry true false (c :: r) with
            | some m =>
                rw [h2] at h
                simp only [Option.orElse] at h
                cases h
                exact ⟨true, false, h2⟩
            | none =>
                rw [h2] at h
                simp only [Option.orElse] at h
                cases h3 : phoneTry false true (c :: r) with
                | some m =>
                    rw [h3] at h
                    simp only [Option.orElse] at h
                    cases h
                    exact ⟨false, true, h3⟩
                | none =>
                    rw [h3] at h
                    simp only [Option.orElse] at h
                    exact ⟨false, false, h⟩

/-- `phoneMatchAt` only reads the word-status of the previous
character. -/
theorem phoneMatchAt_ctx (p q : Option Char) (s : List Char)
    (h : isWordOpt p = isWordOpt q) :
    phoneMatchAt p s = phoneMatchAt q s := by
  cases s with
  | nil => rfl
  | cons c r => rw [phoneMatchAt, phoneMatchAt, h]

/-- A phone match never starts at a non-word character. -/
theorem phoneMatchAt_nonword_start (p : Option Char) (c : Char)
    (r : List Char) (hc : isWordCh c = false) :
    phoneMatchAt p (c :: r) = none := by
  have hd : isDigitCh c = false := by
    cases hdc : isDigitCh c with
    | false => rfl
    | true => rw [digit_isWord c hdc] at hc; cases hc
  simp [phoneMatchAt, hd]

/-- No phone match directly after a word character (the leading
boundary). -/
theorem phoneMatchAt_word_prev (p : Option Char) (s : List Char)
    (hp : isWordOpt p = true) :
    phoneMatchAt p s = none := by
  cases s with
  | nil => rfl
  | cons c r => simp [phoneMatchAt, hp]

/-- A phone match is at least ten characters and fits in the string. -/
theorem phoneMatchAt_bounds (p : Option Char) (s : List Char) (n : Nat)
    (h : phoneMatchAt p s = some n) :
    10 ≤ n ∧ n ≤ s.length := by
  obtain ⟨-, -, u1, u2, ht⟩ := phoneMatchAt_some p s n h
  obtain ⟨hn, hle, -, -⟩ := (phoneTry_some_iff u1 u2 s n).mp ht
  exact ⟨hn ▸ phoneSegs_sum_ge u1 u2, hle⟩

/-- The trailing `\b` of the phone pattern. -/
theorem phoneMatchAt_after (p : Option Char) (s : List Char) (n : Nat)
    (h : phoneMatchAt p s = some n) :
    nextOk (s.drop n) = true := by
  obtain ⟨-, -, u1, u2, ht⟩ := phoneMatchAt_some p s n h
  exact ((phoneTry_some_iff u1 u2 s n).mp ht).2.2.2

/-- Every character of a phone match is a digit or a separator. -/
theorem phoneMatchAt_charset (p : Option Char) (s : List Char) (n : Nat)
    (h : phoneMatchAt p s = some n) :
    ∀ d ∈ s.take n, (isDigitCh d || isSepCh d) = true := by
  obtain ⟨-, -, u1, u2, ht⟩ := phoneMatchAt_some p s n h
  obtain ⟨hn, -, hchain, -⟩ := (phoneTry_some_iff u1 u2 s n).mp ht
  intro d hd
  rw [hn] at hd
  obtain ⟨pk, hpk, hpd⟩ := segChain_mem _ _ _ hchain d hd
  simp only [phoneSegs, List.mem_cons, List.not_mem_nil, or_false] at hpk
  rcases hpk with rfl | rfl | rfl | rfl | rfl <;> simp at hpd <;> simp [hpd]

/-- The last character of a phone match is a digit. -/
theorem phoneMatchAt_last (p : Option Char) (s : List Char) (n : Nat)
    (h : phoneMatchAt p s = some n) :
    ∃ d, (s.take n).getLast? = some d ∧ isDigitCh d = true := by
  obtain ⟨-, -, u1, u2, ht⟩ := phoneMatchAt_some p s n h
  obtain ⟨hn, -, hchain, -⟩ := (phoneTry_some_iff u1 u2 s n).mp ht
  have hsplit : phoneSegs u1 u2 =
      [(isDigitCh, 3), (isSepCh, cond u1 1 0), (isDigitCh, 3),
        (isSepCh, cond u2 1 0)] ++ [(isDigitCh, 4)] := rfl
  rw [hsplit] at hchain
  obtain ⟨d, hg, hd⟩ :=
    segChain_last _ isDigitCh 4 _ _ hchain (by omega)
  refine ⟨d, ?_, hd⟩
  rw [hn, hsplit]
  exact hg

/-- If one alternative matches a digit-headed string, the whole
cascade matches. -/
theorem phoneMatchAt_isSome (p : Option Char) (c : Char) (r : List Char)
    (hp : isWordOpt p = false) (hc : isDigitCh c = true)
    (u1 u2 : Bool) (k : Nat) (ht : phoneTry u1 u2 (c :: r) = some k) :
    phoneMatchAt p (c :: r) ≠ none := by
  rw [phoneMatchAt]
  rw [if_neg (by rw [hp, hc]; simp)]
  cases h1 : phoneTry true true (c :: r) with
  | some m => simp [h1, Option.orElse]
  | none =>
  cases h2 : phoneTry true false (c :: r) with
  | some m => simp [h1, h2, Option.orElse]
  | none =>
  cases h3 : phoneTry false true (c :: r) with
  | some m => simp [h1, h2, h3, Option.orElse]
  | none =>
  cases h4 : phoneTry false false (c :: r) with
  | some m => simp [h1, h2, h3, h4, Option.orElse]
  | none =>
      cases u1 <;> cases u2 <;> simp [h1, h2, h3, h4] at ht

/-- Transferring a phone match across a change of suffix: if the match
fits inside the kept window and the boundary after the window is
honoured, some phone match survives. -/
theorem phoneMatchAt_agree (p : Option Char) (w t t1 : List Char)
    (k : Nat) (h : phoneMatchAt p (w ++ t) = some k) (hk : k ≤ w.length)
    (hnext : k = w.length → nextOk t1 = true) :
    phoneMatchAt p (w ++ t1) ≠ none := by
  obtain ⟨hp, ⟨c, r, hcr, hdig⟩, u1, u2, ht⟩ := phoneMatchAt_some p (w ++ t) k h
  obtain ⟨hn, hle, hchain, hok⟩ := (phoneTry_some_iff u1 u2 (w ++ t) k).mp ht
  have h10 : 10 ≤ k := hn ▸ phoneSegs_sum_ge u1 u2
  have htake : (w ++ t).take k = (w ++ t1).take k := by
    rw [List.take_append_of_le_length hk, List.take_append_of_le_length hk]
  have hlen1 : k ≤ (w ++ t1).length := by
    rw [List.length_append]
    omega
  have hchain1 : SegChain (phoneSegs u1 u2) (w ++ t1) ((w ++ t1).drop k) := by
    rw [hn] at htake hlen1 ⊢
    exact segChain_transfer _ _ _ _ hchain htake hlen1
  have hok1 : nextOk ((w ++ t1).drop k) = true := by
    rcases Nat.lt_or_ge k w.length with hlt | hge
    · have hw : w.drop k ≠ [] := by
        intro hnil
        have := congrArg List.length hnil
        rw [List.length_drop] at this
        simp at this
        omega
      cases hwk : w.drop k with
      | nil => exact absurd hwk hw
      | cons x xs =>
          have e1 : (w ++ t).drop k = x :: (xs ++ t) := by
            rw [List.drop_append_of_le_length hk, hwk]
            rfl
          have e2 : (w ++ t1).drop k = x :: (xs ++ t1) := by
            rw [List.drop_append_of_le_length hk, hwk]
            rfl
          rw [e1] at hok
          rw [e2]
          simpa [nextOk] using hok
    · have hkw : k = w.length := le_antisymm hk hge
      have e3 : (w ++ t1).drop k = t1 := by
        rw [hkw, List.drop_left]
      rw [e3]
      exact hnext hkw
  have ht1 : phoneTry u1 u2 (w ++ t1) = some k :=
    (phoneTry_some_iff u1 u2 (w ++ t1) k).mpr ⟨hn, hlen1, hchain1, hok1⟩
  cases w with
  | nil => simp at hk; omega
  | cons a w2 =>
      simp only [List.cons_append, List.cons.injEq] at hcr
      have ha : isDigitCh a = true := by
        rw [hcr.1]
        exact hdig
      have hres := phoneMatchAt_isSome p a (w2 ++ t1) hp ha u1 u2 k
        (by simpa using ht1)
      simpa using hres

/-! ### Generic search and stitching lemmas -/

/-- Past a non-empty block the scan context is its last character,
whatever came before. -/
theorem ctxAfter_ne_nil (p : Option Char) (x : List Char) (h : x ≠ []) :
    ctxAfter p x = x.getLast? := by
  unfold ctxAfter
  cases hg : x.getLast? with
  | some d => rfl
  | none =>
      rw [List.getLast?_eq_none_iff] at hg
      exact absurd hg h

/-- A failed search means the matcher fails at every position, under
the running context. -/
theorem hasMatchFrom_false_iff
    (ms : Option Char → List Char → Option Nat) :
    ∀ (s : List Char) (p : Option Char),
      hasMatchFrom ms p s = false ↔
        ∀ u1 u2, s = u1 ++ u2 → u2 ≠ [] → ms (ctxAfter p u1) u2 = none := by
  intro s
  induction s with
  | nil =>
      intro p
      constructor
      · intro _ u1 u2 hu hne
        rcases List.append_eq_nil.mp hu.symm with ⟨-, h2⟩
        exact absurd h2 hne
      · intro _
        rfl
  | cons c rest ih =>
      intro p
      constructor
      · intro h u1 u2 hu hne
        rw [hasMatchFrom, Bool.or_eq_false_iff] at h
        cases u1 with
        | nil =>
            simp only [List.nil_append] at hu
            subst hu
            cases hm : ms (ctxAfter p []) (c :: rest) with
            | none => rfl
            | some k =>
                simp only [ctxAfter, List.getLast?_nil] at hm
                rw [hm] at h
                simp at h
        | cons e u1t =>
            simp only [List.cons_append, List.cons.injEq] at hu
            rw [← hu.1, ctxAfter_cons]
            exact (ih (some c)).mp h.2 u1t u2 hu.2 hne
      · intro hAll
        rw [hasMatchFrom, Bool.or_eq_false_iff]
        constructor
        · have := hAll [] (c :: rest) rfl (by simp)
          simp only [ctxAfter, List.getLast?_nil] at this
          rw [this]
          rfl
        · refine (ih (some c)).mpr ?_
          intro u1 u2 hu hne
          have := hAll (c :: u1) u2 (by rw [hu]; rfl) hne
          rw [ctxAfter_cons] at this
          exact this

/-- Building a failed search over a concatenation from pointwise
failure in the left part and a failed search of the right part. -/
theorem hasMatchFrom_append_build
    (ms : Option Char → List Char → Option Nat) :
    ∀ (u : List Char) (pout : Option Char) (y : List Char),
      (∀ u1 c u2, u = u1 ++ c :: u2 →
        ms (ctxAfter pout u1) (c :: (u2 ++ y)) = none) →
      hasMatchFrom ms (ctxAfter pout u) y = false →
      hasMatchFrom ms pout (u ++ y) = false := by
  intro u
  induction u with
  | nil =>
      intro pout y _ hy
      simpa [ctxAfter] using hy
  | cons c ut ih =>
      intro pout y hA hy
      rw [List.cons_append, hasMatchFrom, Bool.or_eq_false_iff]
      constructor
      · have := hA [] c ut rfl
        simp only [ctxAfter, List.getLast?_nil] at this
        rw [this]
        rfl
      · rw [ctxAfter_cons] at hy
        refine ih (some c) y ?_ hy
        intro u1 d u2 hu
        have := hA (c :: u1) d u2 (by rw [hu]; rfl)
        rw [ctxAfter_cons] at this
        exact this

/-- Transporting a failed search to the output-side context allowed by
`scOk`. -/
theorem hasMatchFrom_sc
    (ms : Option Char → List Char → Option Nat)
    (Hctx : ∀ p q z, isWordOpt p = isWordOpt q → ms p z = ms q z)
    (Hws : ∀ p c z, isWordOpt p = false → isWordCh c = false →
      ms p (c :: z) = none)
    (pout prev : Option Char) (s : List Char) (hsc : scOk pout prev s)
    (h : hasMatchFrom ms prev s = false) :
    hasMatchFrom ms pout s = false := by
  rcases hsc with heq | ⟨hpo, hhead⟩
  · rw [hasMatchFrom_ctx ms Hctx pout prev s heq]
    exact h
  · cases s with
    | nil => rfl
    | cons c rest =>
        rw [hasMatchFrom, Bool.or_eq_false_iff] at h ⊢
        refine ⟨?_, h.2⟩
        rw [Hws pout c rest hpo (hhead c rfl)]
        rfl

/-- Central stitching step: one replacement block `u ++ R ++ out2`
contains no match of a pattern `ms` when the copied part was match-free
in the input, the token is inert for `ms`, and the rest of the output
is already known match-free. -/
theorem stitch
    (ms : Option Char → List Char → Option Nat)
    (cs : Char → Bool) (R : List Char) (hRne : R ≠ [])
    (Hctx : ∀ p q z, isWordOpt p = isWordOpt q → ms p z = ms q z)
    (Hws : ∀ p c z, isWordOpt p = false → isWordCh c = false →
      ms p (c :: z) = none)
    (Hcs : ∀ q z k, ms q z = some k → ∀ d ∈ z.take k, cs d = true)
    (HcsR : ∀ c, R.head? = some c → cs c = false)
    (Hlast : ∀ q z k, ms q z = some k →
      ∃ d, (z.take k).getLast? = some d ∧ isWordCh d = true)
    (Hagree : ∀ p w t t1 k, ms p (w ++ t) = some k → k ≤ w.length →
      (k = w.length → nextOk t1 = true) → ms p (w ++ t1) ≠ none)
    (HstartR : ∀ r2 z p, (∃ r1, R = r1 ++ r2) → r2 ≠ [] →
      ms p (r2 ++ z) = none)
    (u v out2 : List Char) (prev pout : Option Char)
    (Hbnd : ∀ d, ctxAfter prev u = some d → isWordCh d = true →
      nextOk v = true)
    (Hfreeu : ∀ u1 u2, u = u1 ++ u2 → u2 ≠ [] →
      ms (ctxAfter prev u1) (u2 ++ v) = none)
    (hsc : scOk pout prev (u ++ v))
    (hout2 : hasMatchFrom ms (ctxAfter (ctxAfter pout u) R) out2 = false) :
    hasMatchFrom ms pout (u ++ (R ++ out2)) = false := by
  refine hasMatchFrom_append_build ms u pout (R ++ out2) ?_ ?_
  · intro u1 c u2 hu
    have hwne : (c :: u2 : List Char) ≠ [] := by simp
    have hune : u ≠ [] := by
      rw [hu]
      simp
    -- align the output-scan context with the input-scan context
    cases hq : ms (ctxAfter pout u1) (c :: (u2 ++ (R ++ out2))) with
    | none => rfl
    | some k =>
        exfalso
        have key : ∀ p, ctxAfter prev u1 = p →
            ms p (c :: (u2 ++ (R ++ out2))) = some k → False := by
          intro p hpeq hk
          have hk2 : ms p ((c :: u2) ++ (R ++ out2)) = some k := by
            rw [List.cons_append]
            exact hk
          have hfree : ms p ((c :: u2) ++ v) = none := by
            rw [← hpeq]
            exact Hfreeu u1 (c :: u2) hu hwne
          -- the match cannot reach into the token
          have hkle : k ≤ (c :: u2 : List Char).length := by
            by_contra hkg
            push_neg at hkg
            cases hR : R with
            | nil => exact hRne hR
            | cons Rh Rt =>
                have hget : ((c :: u2) ++ (R ++ out2)).get?
                    (c :: u2 : List Char).length = some Rh := by
                  rw [List.get?_append_right (le_refl _)]
                  simp [hR]
                have hmem : Rh ∈ ((c :: u2) ++ (R ++ out2)).take k := by
                  have h2 : (((c :: u2) ++ (R ++ out2)).take k).get?
                      (c :: u2 : List Char).length = some Rh := by
                    rw [List.get?_take hkg]
                    exact hget
                  exact List.get?_mem h2
                have := Hcs p _ k hk2 Rh hmem
                rw [HcsR Rh (by rw [hR]; rfl)] at this
                cases this
          have hnext : k = (c :: u2 : List Char).length → nextOk v = true := by
            intro hkw
            obtain ⟨d, hgl, hword⟩ := Hlast p _ k hk2
            rw [hkw, List.take_left] at hgl
            have hul : ctxAfter prev u = some d := by
              rw [ctxAfter_ne_nil prev u hune, hu,
                List.getLast?_append_of_ne_nil _ hwne]
              exact hgl
            exact Hbnd d hul hword
          exact Hagree p (c :: u2) (R ++ out2) v k hk2 hkle hnext hfree
        cases u1 with
        | nil =>
            rcases hsc with heq | ⟨hpo, hhead⟩
            · refine key prev ?_ ?_
              · simp [ctxAfter, List.getLast?_nil]
              · rw [← hq]
                refine Hctx _ _ _ ?_
                simp only [ctxAfter, List.getLast?_nil]
                exact heq.symm
            · have hhc : isWordCh c = false := by
                refine hhead c ?_
                rw [hu]
                simp
              have : ms (ctxAfter pout []) (c :: (u2 ++ (R ++ out2))) =
                  none := by
                refine Hws _ c _ ?_ hhc
                simpa [ctxAfter, List.getLast?_nil] using hpo
              rw [this] at hq
              cases hq
        | cons e u1t =>
            refine key (ctxAfter pout (e :: u1t)) ?_ hq
            have h1ne : (e :: u1t : List Char) ≠ [] := by simp
            rw [ctxAfter_ne_nil prev _ h1ne, ctxAfter_ne_nil pout _ h1ne]
  · refine hasMatchFrom_token_append ms R R (ctxAfter pout u) out2 hRne
      HstartR ⟨[], rfl⟩ hout2

theorem mem_of_getLast?_eq (l : List Char) (d : Char)
    (h : l.getLast? = some d) : d ∈ l := by
  cases l with
  | nil => cases h
  | cons a as =>
      rw [List.getLast?_eq_getLast _ (by simp)] at h
      cases h
      exact List.getLast_mem _

theorem take_ne_nil_of_ne_nil (v : List Char) (j : Nat) (hv : v ≠ [])
    (hj : 1 ≤ j) : v.take j ≠ [] := by
  cases v with
  | nil => exact absurd rfl hv
  | cons c t =>
      cases j with
      | zero => omega
      | succ j => simp

/-- After one global-replace pass of a pattern over any input, no match
of that pattern remains anywhere in the output. -/
theorem selfResidualFree
    (m : Option Char → List Char → Option Nat)
    (cs : Char → Bool) (R : List Char) (hRne : R ≠ [])
    (Hctx : ∀ p q z, isWordOpt p = isWordOpt q → m p z = m q z)
    (Hws : ∀ p c z, isWordOpt p = false → isWordCh c = false →
      m p (c :: z) = none)
    (Hcs : ∀ q z k, m q z = some k → ∀ d ∈ z.take k, cs d = true)
    (HcsR : ∀ c, R.head? = some c → cs c = false)
    (Hlast : ∀ q z k, m q z = some k →
      ∃ d, (z.take k).getLast? = some d ∧ isWordCh d = true)
    (Hagree : ∀ p w t t1 k, m p (w ++ t) = some k → k ≤ w.length →
      (k = w.length → nextOk t1 = true) → m p (w ++ t1) ≠ none)
    (HstartR : ∀ r2 z p, (∃ r1, R = r1 ++ r2) → r2 ≠ [] →
      m p (r2 ++ z) = none)
    (Hnil : ∀ p, m p [] = none)
    (Hval : ∀ d v n, m (some d) v = some n → isWordCh d = true →
      nextOk v = true)
    (Hafter : ∀ p v n, m p v = some n →
      nextOk (v.drop (max n 1)) = true ∨
      ∀ d ∈ v.take (max n 1), isWordCh d = false)
    (HRlast : ∃ rl, R.getLast? = some rl ∧ isWordCh rl = false) :
    ∀ (N : Nat) (s : List Char) (fuel : Nat) (prev pout : Option Char),
      s.length ≤ N → s.length ≤ fuel → scOk pout prev s →
      hasMatchFrom m pout (replaceScan m R fuel prev s) = false := by
  intro N
  induction N with
  | zero =>
      intro s fuel prev pout hN _ _
      have hs : s = [] := List.eq_nil_of_length_eq_zero (Nat.le_zero.mp hN)
      subst hs
      cases fuel <;> rfl
  | succ N ih =>
      intro s fuel prev pout hN hfuel hsc
      rcases replaceScan_decomp m R fuel prev s hfuel with
        ⟨heq, hfree⟩ | ⟨u, v, n, fuel2, hsplit, hmatch, hufree, hout, hl2⟩
      · rw [heq]
        exact hasMatchFrom_sc m Hctx Hws pout prev s hsc hfree
      · rw [hout]
        have hvne : v ≠ [] := by
          intro hv
          rw [hv, Hnil] at hmatch
          cases hmatch
        obtain ⟨rl, hrl, hrlw⟩ := HRlast
        have hpRe : ctxAfter (ctxAfter pout u) R = some rl := by
          rw [ctxAfter_ne_nil _ R hRne, hrl]
        have hpo2 : isWordOpt (ctxAfter (ctxAfter pout u) R) = false := by
          rw [hpRe]
          exact hrlw
        have hrec : hasMatchFrom m (ctxAfter (ctxAfter pout u) R)
            (replaceScan m R fuel2 ((v.take (max n 1)).getLast?)
              (v.drop (max n 1))) = false := by
          apply ih
          · rw [List.length_drop]
            have h1 : 1 ≤ max n 1 := le_max_right n 1
            have hvlen : 1 ≤ v.length := by
              cases v with
              | nil => exact absurd rfl hvne
              | cons c t => simp
            have hslen : s.length = u.length + v.length := by
              rw [hsplit]
              simp
            omega
          · exact hl2
          · rcases Hafter (ctxAfter prev u) v n hmatch with hnx | hall
            · right
              refine ⟨hpo2, ?_⟩
              intro c hc
              cases hd : v.drop (max n 1) with
              | nil => rw [hd] at hc; cases hc
              | cons e t =>
                  rw [hd] at hc hnx
                  cases hc
                  simpa [nextOk] using hnx
            · left
              rw [hpo2]
              cases hg : (v.take (max n 1)).getLast? with
              | none => rfl
              | some d =>
                  have hd := mem_of_getLast?_eq _ _ hg
                  have := hall d hd
                  simp [isWordOpt, this]
        rw [List.append_assoc]
        refine stitch m cs R hRne Hctx Hws Hcs HcsR Hlast Hagree HstartR
          u v _ prev pout ?_ hufree (hsplit ▸ hsc) hrec
        intro d hd hw
        rw [hd] at hmatch
        exact Hval d v n hmatch hw

/-- One global-replace pass of one pattern cannot create a match of
another pattern that the input did not contain. -/
theorem presResidualFree
    (ms mr : Option Char → List Char → Option Nat)
    (cs : Char → Bool) (R : List Char) (hRne : R ≠ [])
    (Hctx : ∀ p q z, isWordOpt p = isWordOpt q → ms p z = ms q z)
    (Hws : ∀ p c z, isWordOpt p = false → isWordCh c = false →
      ms p (c :: z) = none)
    (Hcs : ∀ q z k, ms q z = some k → ∀ d ∈ z.take k, cs d = true)
    (HcsR : ∀ c, R.head? = some c → cs c = false)
    (Hlast : ∀ q z k, ms q z = some k →
      ∃ d, (z.take k).getLast? = some d ∧ isWordCh d = true)
    (Hagree : ∀ p w t t1 k, ms p (w ++ t) = some k → k ≤ w.length →
      (k = w.length → nextOk t1 = true) → ms p (w ++ t1) ≠ none)
    (HstartR : ∀ r2 z p, (∃ r1, R = r1 ++ r2) → r2 ≠ [] →
      ms p (r2 ++ z) = none)
    (HnilR : ∀ p, mr p [] = none)
    (Hval : ∀ d v n, mr (some d) v = some n → isWordCh d = true →
      nextOk v = true)
    (Hafter : ∀ p v n, mr p v = some n →
      nextOk (v.drop (max n 1)) = true ∨
      ∀ d ∈ v.take (max n 1), isWordCh d = false)
    (HRlast : ∃ rl, R.getLast? = some rl ∧ isWordCh rl = false) :
    ∀ (N : Nat) (s : List Char) (fuel : Nat) (prev pout : Option Char),
      s.length ≤ N → s.length ≤ fuel → scOk pout prev s →
      hasMatchFrom ms prev s = false →
      hasMatchFrom ms pout (replaceScan mr R fuel prev s) = false := by
  intro N
  induction N with
  | zero =>
      intro s fuel prev pout hN _ _ _
      have hs : s = [] := List.eq_nil_of_length_eq_zero (Nat.le_zero.mp hN)
      subst hs
      cases fuel <;> rfl
  | succ N ih =>
      intro s fuel prev pout hN hfuel hsc hms
      rcases replaceScan_decomp mr R fuel prev s hfuel with
        ⟨heq, -⟩ | ⟨u, v, n, fuel2, hsplit, hmatch, -, hout, hl2⟩
      · rw [heq]
        exact hasMatchFrom_sc ms Hctx Hws pout prev s hsc hms
      · rw [hout]
        have hvne : v ≠ [] := by
          intro hv
          rw [hv, HnilR] at hmatch
          cases hmatch
        obtain ⟨rl, hrl, hrlw⟩ := HRlast
        have hpRe : ctxAfter (ctxAfter pout u) R = some rl := by
          rw [ctxAfter_ne_nil _ R hRne, hrl]
        have hpo2 : isWordOpt (ctxAfter (ctxAfter pout u) R) = false := by
          rw [hpRe]
          exact hrlw
        have htne : v.take (max n 1) ≠ [] :=
          take_ne_nil_of_ne_nil v _ hvne (le_max_right n 1)
        have hms2 : hasMatchFrom ms ((v.take (max n 1)).getLast?)
            (v.drop (max n 1)) = false := by
          have hsplit2 : s = (u ++ v.take (max n 1)) ++ v.drop (max n 1) := by
            rw [hsplit, List.append_assoc, List.take_append_drop]
          rw [hsplit2] at hms
          have h2 := hasMatchFrom_append_false ms _ prev _ hms
          have hctx2 : ctxAfter prev (u ++ v.take (max n 1)) =
              (v.take (max n 1)).getLast? := by
            rw [ctxAfter_ne_nil prev _ (by
              intro habs
              exact htne (List.append_eq_nil.mp habs).2),
              List.getLast?_append_of_ne_nil _ htne]
          rw [hctx2] at h2
          exact h2
        have hrec : hasMatchFrom ms (ctxAfter (ctxAfter pout u) R)
            (replaceScan mr R fuel2 ((v.take (max n 1)).getLast?)
              (v.drop (max n 1))) = false := by
          apply ih
          · rw [List.length_drop]
            have h1 : 1 ≤ max n 1 := le_max_right n 1
            have hvlen : 1 ≤ v.length := by
              cases v with
              | nil => exact absurd rfl hvne
              | cons c t => simp
            have hslen : s.length = u.length + v.length := by
              rw [hsplit]
              simp
            omega
          · exact hl2
          · rcases Hafter (ctxAfter prev u) v n hmatch with hnx | hall
            · right
              refine ⟨hpo2, ?_⟩
              intro c hc
              cases hd : v.drop (max n 1) with
              | nil => rw [hd] at hc; cases hc
              | cons e t =>
                  rw [hd] at hc hnx
                  cases hc
                  simpa [nextOk] using hnx
            · left
              rw [hpo2]
              cases hg : (v.take (max n 1)).getLast? with
              | none => rfl
              | some d =>
                  have hd := mem_of_getLast?_eq _ _ hg
                  have := hall d hd
                  simp [isWordOpt, this]
          · exact hms2
        rw [List.append_assoc]
        refine stitch ms cs R hRne Hctx Hws Hcs HcsR Hlast Hagree HstartR
          u v _ prev pout ?_ ?_ (hsplit ▸ hsc) hrec
        · intro d hd hw
          rw [hd] at hmatch
          exact Hval d v n hmatch hw
        · intro u1 u2 hu hne
          have := (hasMatchFrom_false_iff ms s prev).mp hms u1 (u2 ++ v)
            (by rw [hsplit, hu, List.append_assoc])
            (by
              intro habs
              exact hne (List.append_eq_nil.mp habs).1)
          exact this

/-! ### Instantiation of the residual-freeness machinery: phone -/

theorem phoneMatchAt_nondigit_start (p : Option Char) (c : Char)
    (r : List Char) (hc : isDigitCh c = false) :
    phoneMatchAt p (c :: r) = none := by
  simp [phoneMatchAt, hc]

theorem phoneMatchAt_token_start (R : List Char)
    (hR : ∀ c ∈ R, isDigitCh c = false) :
    ∀ r2 z p, (∃ r1, R = r1 ++ r2) → r2 ≠ [] →
      phoneMatchAt p (r2 ++ z) = none := by
  intro r2 z p hsub hne
  cases r2 with
  | nil => exact absurd rfl hne
  | cons c r2t =>
      obtain ⟨r1, hr1⟩ := hsub
      have hc : c ∈ R := by
        rw [hr1]
        exact List.mem_append_right _ (by simp)
      rw [List.cons_append]
      exact phoneMatchAt_nondigit_start p c _ (hR c hc)

theorem phoneMatchAt_val (d : Char) (v : List Char) (n : Nat)
    (h : phoneMatchAt (some d) v = some n) (hw : isWordCh d = true) :
    nextOk v = true := by
  rw [phoneMatchAt_word_prev (some d) v hw] at h
  cases h

theorem phoneMatchAt_afterMax (p : Option Char) (v : List Char) (n : Nat)
    (h : phoneMatchAt p v = some n) :
    nextOk (v.drop (max n 1)) = true := by
  have hb := phoneMatchAt_bounds p v n h
  have hm : max n 1 = n := by omega
  rw [hm]
  exact phoneMatchAt_after p v n h

/-- The phone pass leaves no phone-pattern match in its output. -/
theorem phonePassFree (s : List Char) :
    hasMatch phoneMatchAt
      (replaceAll phoneMatchAt "[PHONE]".toList s) = false := by
  unfold hasMatch replaceAll
  refine selfResidualFree phoneMatchAt phoneCs "[PHONE]".toList
    (by decide)
    phoneMatchAt_ctx
    (fun p c z _ hc => phoneMatchAt_nonword_start p c z hc)
    (fun q z k h => phoneMatchAt_charset q z k h)
    ?_
    (fun q z k h => by
      obtain ⟨d, hg, hd⟩ := phoneMatchAt_last q z k h
      exact ⟨d, hg, digit_isWord d hd⟩)
    phoneMatchAt_agree
    (phoneMatchAt_token_start _ (by decide))
    (fun p => rfl)
    phoneMatchAt_val
    (fun p v n h => Or.inl (phoneMatchAt_afterMax p v n h))
    ⟨']', by decide, by decide⟩
    s.length s s.length none none (le_refl _) (le_refl _) (Or.inl rfl)
  intro c hc
  have hc2 : c = '[' := by
    have : ("[PHONE]".toList.head? : Option Char) = some '[' := by decide
    rw [this] at hc
    cases hc
    rfl
  subst hc2
  decide

/-! ### Email-pattern lemmas -/

/-- Characterisation of an email match starting at `c`. -/
theorem emailMatchAt_cons_iff (p : Option Char) (c : Char) (r : List Char)
    (n : Nat) :
    emailMatchAt p (c :: r) = some n ↔
      (isLocalCh c = true ∧ wordBoundary p c = true ∧
       ∃ s2 s3, (c :: r).drop (takeRun isLocalCh (c :: r)) = '@' :: s2 ∧
         takeRun isDomCh s2 ≠ 0 ∧
         s2.drop (takeRun isDomCh s2) = '.' :: s3 ∧
         (dropTrailingDots (s3.takeWhile isTailCh)).length ≠ 0 ∧
         n = takeRun isLocalCh (c :: r) + 1 + takeRun isDomCh s2 + 1 +
           (dropTrailingDots (s3.takeWhile isTailCh)).length) := by
  constructor
  · intro h
    simp only [emailMatchAt] at h
    by_cases hg : (!isLocalCh c || !wordBoundary p c) = true
    · rw [if_pos hg] at h
      cases h
    · rw [if_neg hg] at h
      simp only [Bool.or_eq_true, not_or, Bool.not_eq_true, Bool.not_eq_true',
        Bool.not_eq_false] at hg
      refine ⟨hg.1, hg.2, ?_⟩
      split at h
      · rename_i s2 heq
        split at h
        · cases h
        · rename_i hdom
          split at h
          · rename_i s3 heq2
            split at h
            · cases h
            · rename_i hkept
              injection h with hn
              exact ⟨s2, s3, heq, hdom, heq2, hkept, hn.symm⟩
          · cases h
      · cases h
  · rintro ⟨hc, hb, s2, s3, hd1, hdom, hd2, hkept, hn⟩
    subst hn
    simp only [emailMatchAt]
    rw [if_neg (by rw [hc, hb]; simp)]
    simp only [hd1, hd2]
    rw [if_neg hdom, if_neg hkept]

/-- A greedy run that stops strictly inside `w` is insensitive to the
appended part. -/
theorem takeRun_congr_append (p : Char → Bool) (w t t1 : List Char)
    (h : takeRun p (w ++ t) < w.length) :
    takeRun p (w ++ t1) = takeRun p (w ++ t) := by
  rcases Nat.lt_or_ge (takeRun p w) w.length with hw | hw
  · rw [takeRun_append_lt p w t1 hw, takeRun_append_lt p w t hw]
  · have heq : takeRun p w = w.length := le_antisymm (takeRun_le p w) hw
    rw [takeRun_append_full p w t heq] at h
    omega

/-- A drop that lands strictly inside `w` splits off the same head. -/
theorem drop_append_cons (w t : List Char) (l : Nat) (e : Char)
    (s2 : List Char) (hl : l < w.length)
    (h : (w ++ t).drop l = e :: s2) :
    ∃ w2, w.drop l = e :: w2 ∧ s2 = w2 ++ t := by
  rw [List.drop_append_of_le_length (le_of_lt hl)] at h
  cases hwd : w.drop l with
  | nil =>
      rw [hwd] at h
      have := congrArg List.length hwd
      rw [List.length_drop] at this
      simp at this
      omega
  | cons f w2 =>
      rw [hwd, List.cons_append] at h
      injection h with h1 h2
      exact ⟨w2, by rw [h1], h2.symm⟩

/-- A block of run characters bounds the greedy run from below. -/
theorem takeRun_ge (p : Char → Bool) (z : List Char) (j : Nat)
    (hj : j ≤ z.length) (hall : ∀ x ∈ z.take j, p x = true) :
    j ≤ takeRun p z := by
  induction z generalizing j with
  | nil =>
      simp at hj
      simp [hj, takeRun_nil]
  | cons c zt ih =>
      cases j with
      | zero => exact Nat.zero_le _
      | succ j =>
          have hc : p c = true := hall c (by simp)
          rw [takeRun_cons, if_pos hc]
          have := ih j (by simpa using hj) fun x hx => hall x (by
            rw [List.take_succ_cons]
            exact List.mem_cons_of_mem _ hx)
          omega

/-- Without trailing dots, dropping them is the identity. -/
theorem dropTrailingDots_eq_self (l : List Char)
    (h : ∀ d, l.getLast? = some d → d ≠ '.') :
    dropTrailingDots l = l := by
  unfold dropTrailingDots
  cases hr : l.reverse with
  | nil =>
      rw [List.dropWhile_nil]
      rw [← hr, List.reverse_reverse]
  | cons a as =>
      have ha : a ≠ '.' := by
        refine h a ?_
        rw [← List.head?_reverse, hr]
        rfl
      rw [List.dropWhile_cons, if_neg (by simpa using ha), ← hr,
        List.reverse_reverse]

/-- The take of a greedy run is the take of the string. -/
theorem takeWhile_take (p : Char → Bool) (z : List Char) (j : Nat)
    (hj : j ≤ takeRun p z) :
    (z.takeWhile p).take j = z.take j := by
  rw [← take_takeRun, List.take_take, Nat.min_eq_left hj]

/-- An email match is at least five characters and fits the string. -/
theorem emailMatchAt_bounds (p : Option Char) (z : List Char) (n : Nat)
    (h : emailMatchAt p z = some n) :
    5 ≤ n ∧ n ≤ z.length := by
  cases z with
  | nil => cases h
  | cons c r =>
      obtain ⟨hc, hb, s2, s3, hd1, hdom, hd2, hkept, hn⟩ :=
        (emailMatchAt_cons_iff p c r n).mp h
      have hl1 : 1 ≤ takeRun isLocalCh (c :: r) := by
        rw [takeRun_cons, if_pos hc]
        omega
      have hll : takeRun isLocalCh (c :: r) ≤ (c :: r).length :=
        takeRun_le _ _
      have hz1 := congrArg List.length hd1
      rw [List.length_drop] at hz1
      simp only [List.length_cons] at hz1
      have hdl : takeRun isDomCh s2 ≤ s2.length := takeRun_le _ _
      have hz2 := congrArg List.length hd2
      rw [List.length_drop] at hz2
      simp only [List.length_cons] at hz2
      have hk1 : (dropTrailingDots (s3.takeWhile isTailCh)).length ≤
          s3.length :=
        le_trans (dropTrailingDots_length_le _)
          (List.Sublist.length_le (List.takeWhile_sublist _))
      have hd1p : 1 ≤ takeRun isDomCh s2 := Nat.pos_of_ne_zero hdom
      have hk1p : 1 ≤ (dropTrailingDots (s3.takeWhile isTailCh)).length :=
        Nat.pos_of_ne_zero hkept
      simp only [List.length_cons]
      omega

/-- `emailMatchAt` only reads the word-status of the preceding
character. -/
theorem emailMatchAt_ctx (p q : Option Char) (z : List Char)
    (h : isWordOpt p = isWordOpt q) :
    emailMatchAt p z = emailMatchAt q z := by
  cases z with
  | nil => rfl
  | cons c r => simp only [emailMatchAt, wordBoundary, h]

/-- No email match starts at a non-word character after a non-word
character. -/
theorem emailMatchAt_ws (p : Option Char) (c : Char) (z : List Char)
    (hp : isWordOpt p = false) (hc : isWordCh c = false) :
    emailMatchAt p (c :: z) = none := by
  have hb : wordBoundary p c = false := by
    rw [wordBoundary, hp, hc]
    rfl
  simp [emailMatchAt, hb]

/-- After a word character an email match forces a non-word head, hence
the trailing-boundary condition holds for the matched text. -/
theorem emailMatchAt_val (d : Char) (v : List Char) (n : Nat)
    (h : emailMatchAt (some d) v = some n) (hw : isWordCh d = true) :
    nextOk v = true := by
  cases v with
  | nil => cases h
  | cons c r =>
      obtain ⟨-, hb, -⟩ := (emailMatchAt_cons_iff (some d) c r n).mp h
      rw [wordBoundary] at hb
      have : isWordOpt (some d) = true := hw
      rw [this] at hb
      cases hcw : isWordCh c with
      | false => simp [nextOk, hcw]
      | true => rw [hcw] at hb; cases hb

theorem take_split3 (a : List Char) (e : Char) (b : List Char) (m : Nat) :
    (a ++ e :: b).take (a.length + 1 + m) = a ++ e :: b.take m := by
  rw [show a.length + 1 + m = a.length + (1 + m) by omega, List.take_append,
    show 1 + m = m + 1 by omega, List.take_succ_cons]

theorem drop_split3 (a : List Char) (e : Char) (b : List Char) (m : Nat) :
    (a ++ e :: b).drop (a.length + 1 + m) = b.drop m := by
  rw [show a.length + 1 + m = a.length + (1 + m) by omega, List.drop_append,
    show 1 + m = m + 1 by omega, List.drop_succ_cons]

/-- Full anatomy of an email match: the splitting of the matched text
into local part, `@`, domain, `.` and kept tail, together with the
take/drop forms used by the charset, last-character and boundary
lemmas. -/
theorem emailMatchAt_anatomy (p : Option Char) (c : Char) (r : List Char)
    (n : Nat) (h : emailMatchAt p (c :: r) = some n) :
    ∃ s2 s3,
      c :: r = (c :: r).take (takeRun isLocalCh (c :: r)) ++ '@' :: s2 ∧
      s2 = s2.take (takeRun isDomCh s2) ++ '.' :: s3 ∧
      s3.take (dropTrailingDots (s3.takeWhile isTailCh)).length =
        dropTrailingDots (s3.takeWhile isTailCh) ∧
      (c :: r).take n =
        (c :: r).take (takeRun isLocalCh (c :: r)) ++ '@' ::
          (s2.take (takeRun isDomCh s2) ++ '.' ::
            dropTrailingDots (s3.takeWhile isTailCh)) ∧
      (c :: r).drop n =
        s3.drop (dropTrailingDots (s3.takeWhile isTailCh)).length ∧
      takeRun isDomCh s2 ≠ 0 ∧
      (dropTrailingDots (s3.takeWhile isTailCh)).length ≠ 0 ∧
      n = takeRun isLocalCh (c :: r) + 1 + takeRun isDomCh s2 + 1 +
        (dropTrailingDots (s3.takeWhile isTailCh)).length := by
  obtain ⟨hc, hb, s2, s3, hd1, hdom, hd2, hkept, hn⟩ :=
    (emailMatchAt_cons_iff p c r n).mp h
  have hz : c :: r = (c :: r).take (takeRun isLocalCh (c :: r)) ++ '@' :: s2 := by
    rw [← hd1, List.take_append_drop]
  have hs2 : s2 = s2.take (takeRun isDomCh s2) ++ '.' :: s3 := by
    rw [← hd2, List.take_append_drop]
  have hAlen : ((c :: r).take (takeRun isLocalCh (c :: r))).length =
      takeRun isLocalCh (c :: r) := by
    rw [List.length_take, Nat.min_eq_left (takeRun_le _ _)]
  have hBlen : (s2.take (takeRun isDomCh s2)).length =
      takeRun isDomCh s2 := by
    rw [List.length_take, Nat.min_eq_left (takeRun_le _ _)]
  have hK : s3.take (dropTrailingDots (s3.takeWhile isTailCh)).length =
      dropTrailingDots (s3.takeWhile isTailCh) := by
    have hKTR2 : (dropTrailingDots (s3.takeWhile isTailCh)).length ≤
        takeRun isTailCh s3 := dropTrailingDots_length_le _
    obtain ⟨dots, hTRd, -⟩ := dropTrailingDots_spec (s3.takeWhile isTailCh)
    calc s3.take (dropTrailingDots (s3.takeWhile isTailCh)).length
        = (s3.take (takeRun isTailCh s3)).take
            (dropTrailingDots (s3.takeWhile isTailCh)).length := by
          rw [List.take_take, Nat.min_eq_left hKTR2]
      _ = (s3.takeWhile isTailCh).take
            (dropTrailingDots (s3.takeWhile isTailCh)).length := by
          rw [take_takeRun isTailCh s3]
      _ = dropTrailingDots (s3.takeWhile isTailCh) := by
          nth_rewrite 2 [hTRd]
          exact List.take_left _ _
  refine ⟨s2, s3, hz, hs2, hK, ?_, ?_, hdom, hkept, hn⟩
  · calc (c :: r).take n
        = ((c :: r).take (takeRun isLocalCh (c :: r)) ++ '@' :: s2).take
            (((c :: r).take (takeRun isLocalCh (c :: r))).length + 1 +
              (takeRun isDomCh s2 + 1 +
                (dropTrailingDots (s3.takeWhile isTailCh)).length)) := by
          rw [← hz, hAlen]
          congr 1
          omega
      _ = (c :: r).take (takeRun isLocalCh (c :: r)) ++ '@' ::
            s2.take (takeRun isDomCh s2 + 1 +
              (dropTrailingDots (s3.takeWhile isTailCh)).length) :=
          take_split3 _ _ _ _
      _ = (c :: r).take (takeRun isLocalCh (c :: r)) ++ '@' ::
            (s2.take (takeRun isDomCh s2) ++ '.' :: s3).take
              ((s2.take (takeRun isDomCh s2)).length + 1 +
                (dropTrailingDots (s3.takeWhile isTailCh)).length) := by
          rw [hBlen, ← hs2]
      _ = (c :: r).take (takeRun isLocalCh (c :: r)) ++ '@' ::
            (s2.take (takeRun isDomCh s2) ++ '.' ::
              s3.take (dropTrailingDots (s3.takeWhile isTailCh)).length) := by
          rw [take_split3]
      _ = (c :: r).take (takeRun isLocalCh (c :: r)) ++ '@' ::
            (s2.take (takeRun isDomCh s2) ++ '.' ::
              dropTrailingDots (s3.takeWhile isTailCh)) := by
          rw [hK]
  · calc (c :: r).drop n
        = ((c :: r).take (takeRun isLocalCh (c :: r)) ++ '@' :: s2).drop
            (((c :: r).take (takeRun isLocalCh (c :: r))).length + 1 +
              (takeRun isDomCh s2 + 1 +
                (dropTrailingDots (s3.takeWhile isTailCh)).length)) := by
          rw [← hz, hAlen]
          congr 1
          omega
      _ = s2.drop (takeRun isDomCh s2 + 1 +
            (dropTrailingDots (s3.takeWhile isTailCh)).length) :=
          drop_split3 _ _ _ _
      _ = (s2.take (takeRun isDomCh s2) ++ '.' :: s3).drop
            ((s2.take (takeRun isDomCh s2)).length + 1 +
              (dropTrailingDots (s3.takeWhile isTailCh)).length) := by
          rw [hBlen, ← hs2]
      _ = s3.drop (dropTrailingDots (s3.takeWhile isTailCh)).length :=
          drop_split3 _ _ _ _

theorem emailCs_of_local (x : Char) (h : isLocalCh x = true) :
    emailCs x = true := by
  simp only [isLocalCh, Bool.or_eq_true] at h
  simp only [emailCs, Bool.or_eq_true]
  tauto

theorem emailCs_of_dom (x : Char) (h : isDomCh x = true) :
    emailCs x = true := by
  simp only [isDomCh, Bool.or_eq_true] at h
  simp only [emailCs, Bool.or_eq_true]
  tauto

theorem emailCs_of_tail (x : Char) (h : isTailCh x = true) :
    emailCs x = true := by
  simp only [isTailCh, Bool.or_eq_true] at h
  simp only [emailCs, Bool.or_eq_true]
  tauto

theorem word_of_tail_ne_dot (x : Char) (h : isTailCh x = true)
    (hne : x ≠ '.') : isWordCh x = true := by
  simp only [isTailCh, Bool.or_eq_true, decide_eq_true_eq] at h
  tauto

/-- Every character of an email match lies in the pattern's character
set. -/
theorem emailMatchAt_charset (q : Option Char) (z : List Char) (k : Nat)
    (h : emailMatchAt q z = some k) :
    ∀ d ∈ z.take k, emailCs d = true := by
  cases z with
  | nil => cases h
  | cons c r =>
      obtain ⟨s2, s3, hz, hs2, hK, htake, -, -, -, -⟩ :=
        emailMatchAt_anatomy q c r k h
      intro d hd
      rw [htake] at hd
      rcases List.mem_append.mp hd with hA | hrest
      · exact emailCs_of_local d (takeRun_mem isLocalCh (c :: r) d hA)
      · rcases List.mem_cons.mp hrest with hat | hrest2
        · rw [hat]
          decide
        · rcases List.mem_append.mp hrest2 with hB | hrest3
          · exact emailCs_of_dom d (takeRun_mem isDomCh s2 d hB)
          · rcases List.mem_cons.mp hrest3 with hdot | hKmem
            · rw [hdot]
              decide
            · obtain ⟨dots, hTRd, -⟩ :=
                dropTrailingDots_spec (s3.takeWhile isTailCh)
              have hdTR : d ∈ s3.takeWhile isTailCh := by
                rw [hTRd]
                exact List.mem_append_left _ hKmem
              exact emailCs_of_tail d (List.mem_takeWhile_imp hdTR)

/-- The last character of an email match is a word character. -/
theorem emailMatchAt_last (q : Option Char) (z : List Char) (k : Nat)
    (h : emailMatchAt q z = some k) :
    ∃ d, (z.take k).getLast? = some d ∧ isWordCh d = true := by
  cases z with
  | nil => cases h
  | cons c r =>
      obtain ⟨s2, s3, hz, hs2, hK, htake, -, -, hkept, -⟩ :=
        emailMatchAt_anatomy q c r k h
      have hKne : dropTrailingDots (s3.takeWhile isTailCh) ≠ [] := by
        intro habs
        rw [habs] at hkept
        simp at hkept
      obtain ⟨dl, hdl, hdlne⟩ := dropTrailingDots_last _ hKne
      refine ⟨dl, ?_, ?_⟩
      · rw [htake]
        have hassoc : (c :: r).take (takeRun isLocalCh (c :: r)) ++ '@' ::
            (s2.take (takeRun isDomCh s2) ++ '.' ::
              dropTrailingDots (s3.takeWhile isTailCh)) =
            ((c :: r).take (takeRun isLocalCh (c :: r)) ++ '@' ::
              (s2.take (takeRun isDomCh s2) ++ ['.'])) ++
              dropTrailingDots (s3.takeWhile isTailCh) := by
          simp
        rw [hassoc, List.getLast?_append_of_ne_nil _ hKne]
        exact hdl
      · have hdlmem : dl ∈ dropTrailingDots (s3.takeWhile isTailCh) :=
          mem_of_getLast?_eq _ _ hdl
        obtain ⟨dots, hTRd, -⟩ :=
          dropTrailingDots_spec (s3.takeWhile isTailCh)
        have hdTR : dl ∈ s3.takeWhile isTailCh := by
          rw [hTRd]
          exact List.mem_append_left _ hdlmem
        exact word_of_tail_ne_dot dl (List.mem_takeWhile_imp hdTR) hdlne

/-- The character after an email match (if any) is not a word
character. -/
theorem emailMatchAt_after (q : Option Char) (z : List Char) (k : Nat)
    (h : emailMatchAt q z = some k) :
    nextOk (z.drop k) = true := by
  cases z with
  | nil => cases h
  | cons c r =>
      obtain ⟨s2, s3, hz, hs2, hK, -, hdropn, -, hkept, -⟩ :=
        emailMatchAt_anatomy q c r k h
      rw [hdropn]
      obtain ⟨dots, hTRd, hdots⟩ :=
        dropTrailingDots_spec (s3.takeWhile isTailCh)
      have hsplit3 : s3 = s3.takeWhile isTailCh ++ s3.dropWhile isTailCh :=
        (List.takeWhile_append_dropWhile _ _).symm
      cases hdots2 : dots with
      | nil =>
          have hTReq : s3.takeWhile isTailCh =
              dropTrailingDots (s3.takeWhile isTailCh) := by
            nth_rewrite 1 [hTRd]
            rw [hdots2, List.append_nil]
          have hlen2 : (dropTrailingDots (s3.takeWhile isTailCh)).length =
              (s3.takeWhile isTailCh).length := by
            conv_rhs => rw [hTReq]
          have hdrop : s3.drop
              (dropTrailingDots (s3.takeWhile isTailCh)).length =
              s3.dropWhile isTailCh := by
            nth_rewrite 2 [hsplit3]
            rw [hlen2, List.drop_left]
          rw [hdrop]
          cases hDW : s3.dropWhile isTailCh with
          | nil => rfl
          | cons x xs =>
              have hx := head_dropWhile_false isTailCh s3 x xs hDW
              have hxw : isWordCh x = false := by
                simp only [isTailCh, Bool.or_eq_true, Bool.or_eq_false_iff] at hx
                exact hx.1
              simp [nextOk, hxw]
      | cons dc dt =>
          have hdc : dc = '.' := hdots dc (by rw [hdots2]; simp)
          have hs3 : s3 = dropTrailingDots (s3.takeWhile isTailCh) ++
              (dc :: (dt ++ s3.dropWhile isTailCh)) := by
            conv_lhs => rw [hsplit3]
            nth_rewrite 1 [hTRd]
            rw [hdots2]
            simp
          have hdrop : s3.drop
              (dropTrailingDots (s3.takeWhile isTailCh)).length =
              dc :: (dt ++ s3.dropWhile isTailCh) := by
            nth_rewrite 2 [hs3]
            exact List.drop_left _ _
          rw [hdrop, hdc]
          simp only [nextOk]
          decide

theorem emailMatchAt_afterMax (p : Option Char) (v : List Char) (n : Nat)
    (h : emailMatchAt p v = some n) :
    nextOk (v.drop (max n 1)) = true := by
  have hb := emailMatchAt_bounds p v n h
  have hm : max n 1 = n := by omega
  rw [hm]
  exact emailMatchAt_after p v n h

/-- The kept tail of the `[\w.]+` run is an initial segment of the
remaining text. -/
theorem take_keep_eq (s3 : List Char) :
    s3.take (dropTrailingDots (s3.takeWhile isTailCh)).length =
      dropTrailingDots (s3.takeWhile isTailCh) := by
  have hKTR2 : (dropTrailingDots (s3.takeWhile isTailCh)).length ≤
      takeRun isTailCh s3 := dropTrailingDots_length_le _
  obtain ⟨dots, hTRd, -⟩ := dropTrailingDots_spec (s3.takeWhile isTailCh)
  calc s3.take (dropTrailingDots (s3.takeWhile isTailCh)).length
      = (s3.take (takeRun isTailCh s3)).take
          (dropTrailingDots (s3.takeWhile isTailCh)).length := by
        rw [List.take_take, Nat.min_eq_left hKTR2]
    _ = (s3.takeWhile isTailCh).take
          (dropTrailingDots (s3.takeWhile isTailCh)).length := by
        rw [take_takeRun isTailCh s3]
    _ = dropTrailingDots (s3.takeWhile isTailCh) := by
        nth_rewrite 2 [hTRd]
        exact List.take_left _ _

/-- Transferring an email match across a change of suffix: a match
that fits inside the kept window survives, because each greedy run is
determined inside the window and appending can only grow the kept
tail. -/
theorem emailMatchAt_agree (p : Option Char) (w t t1 : List Char)
    (k : Nat) (h : emailMatchAt p (w ++ t) = some k) (hk : k ≤ w.length)
    (hnext : k = w.length → nextOk t1 = true) :
    emailMatchAt p (w ++ t1) ≠ none := by
  cases w with
  | nil =>
      exfalso
      have hb := emailMatchAt_bounds p t k (by simpa using h)
      simp at hk
      omega
  | cons c w' =>
      rw [List.cons_append] at h
      obtain ⟨hc, hbdry, s2, s3, hd1, hdom, hd2, hkept, hn⟩ :=
        (emailMatchAt_cons_iff p c (w' ++ t) k).mp h
      simp only [← List.cons_append] at hd1 hn
      set K := dropTrailingDots (s3.takeWhile isTailCh) with hKdef
      have hdp : 1 ≤ takeRun isDomCh s2 := Nat.pos_of_ne_zero hdom
      have hkp : 1 ≤ K.length := Nat.pos_of_ne_zero hkept
      simp only [List.length_cons] at hk
      have hll : takeRun isLocalCh ((c :: w') ++ t) < w'.length + 1 := by
        omega
      have hstab : takeRun isLocalCh ((c :: w') ++ t1) =
          takeRun isLocalCh ((c :: w') ++ t) :=
        takeRun_congr_append _ _ _ _ hll
      obtain ⟨w2, hw2, hs2t⟩ :=
        drop_append_cons (c :: w') t _ '@' s2 hll hd1
      have hw2len : w2.length + 1 =
          w'.length + 1 - takeRun isLocalCh ((c :: w') ++ t) := by
        have hlc := congrArg List.length hw2
        rw [List.length_drop] at hlc
        simp only [List.length_cons] at hlc
        omega
      have hdlt : takeRun isDomCh s2 < w2.length := by
        omega
      have hdlt2 : takeRun isDomCh (w2 ++ t) < w2.length := by
        rw [← hs2t]
        exact hdlt
      have hds2 : takeRun isDomCh (w2 ++ t1) = takeRun isDomCh s2 := by
        rw [takeRun_congr_append _ _ _ _ hdlt2, ← hs2t]
      obtain ⟨w3, hw3, hs3t⟩ :=
        drop_append_cons w2 t (takeRun isDomCh s2) '.' s3 hdlt
          (by rw [← hs2t]; exact hd2)
      have hw3len : w3.length + 1 = w2.length - takeRun isDomCh s2 := by
        have hlc := congrArg List.length hw3
        rw [List.length_drop] at hlc
        simp only [List.length_cons] at hlc
        omega
      have hkw3 : K.length ≤ w3.length := by
        omega
      have hKs3 : s3.take K.length = K := take_keep_eq s3
      have hKw3 : w3.take K.length = K := by
        rw [hs3t, List.take_append_of_le_length hkw3] at hKs3
        exact hKs3
      have hKall : ∀ x ∈ K, isTailCh x = true := by
        intro x hx
        obtain ⟨dots, hTRd, -⟩ :=
          dropTrailingDots_spec (s3.takeWhile isTailCh)
        refine List.mem_takeWhile_imp (l := s3) ?_
        rw [hTRd]
        exact List.mem_append_left _ hx
      have hTR1 : K.length ≤ takeRun isTailCh (w3 ++ t1) := by
        refine takeRun_ge _ _ _ ?_ ?_
        · rw [List.length_append]
          omega
        · intro x hx
          rw [List.take_append_of_le_length hkw3, hKw3] at hx
          exact hKall x hx
      obtain ⟨rest1, hTR1e⟩ :
          ∃ rest1, (w3 ++ t1).takeWhile isTailCh = K ++ rest1 := by
        refine ⟨((w3 ++ t1).takeWhile isTailCh).drop K.length, ?_⟩
        conv_lhs => rw [← List.take_append_drop K.length
          ((w3 ++ t1).takeWhile isTailCh)]
        congr 1
        rw [takeWhile_take isTailCh (w3 ++ t1) K.length hTR1,
          List.take_append_of_le_length hkw3, hKw3]
      have hKne : K ≠ [] := by
        intro habs
        rw [habs] at hkp
        simp at hkp
      obtain ⟨dl, hdl, hdlne⟩ :=
        dropTrailingDots_last (s3.takeWhile isTailCh) hKne
      have hKself : dropTrailingDots K = K := by
        refine dropTrailingDots_eq_self K ?_
        intro d hd
        rw [hKdef] at hd
        rw [hdl] at hd
        cases hd
        exact hdlne
      have hkept1 :
          (dropTrailingDots ((w3 ++ t1).takeWhile isTailCh)).length ≠ 0 := by
        have hmono := dropTrailingDots_append_mono K rest1
        rw [hKself] at hmono
        rw [hTR1e]
        omega
      have hll2 : takeRun isLocalCh ((c :: w') ++ t) <
          (c :: w').length := by
        simpa using hll
      have hd1new : ((c :: w') ++ t1).drop
          (takeRun isLocalCh ((c :: w') ++ t1)) = '@' :: (w2 ++ t1) := by
        rw [hstab, List.drop_append_of_le_length (le_of_lt hll2), hw2]
        rfl
      have hd2new : (w2 ++ t1).drop (takeRun isDomCh (w2 ++ t1)) =
          '.' :: (w3 ++ t1) := by
        rw [hds2, List.drop_append_of_le_length (le_of_lt hdlt), hw3]
        rfl
      have hdomnew : takeRun isDomCh (w2 ++ t1) ≠ 0 := by
        rw [hds2]
        exact hdom
      have hmain := (emailMatchAt_cons_iff p c (w' ++ t1)
          (takeRun isLocalCh (c :: (w' ++ t1)) + 1 +
            takeRun isDomCh (w2 ++ t1) + 1 +
            (dropTrailingDots ((w3 ++ t1).takeWhile isTailCh)).length)).mpr
        ⟨hc, hbdry, w2 ++ t1, w3 ++ t1, hd1new, hdomnew, hd2new, hkept1,
          rfl⟩
      rw [List.cons_append, hmain]
      simp

theorem takeRun_all (p : Char → Bool) (ls : List Char)
    (h : ∀ x ∈ ls, p x = true) : takeRun p ls = ls.length :=
  le_antisymm (takeRun_le p ls)
    (takeRun_ge p ls ls.length (le_refl _)
      (fun x hx => h x (by rw [List.take_length] at hx; exact hx)))

/-- No email match can start at a non-local character. -/
theorem emailMatchAt_nonlocal_start (p : Option Char) (c : Char)
    (r : List Char) (hc : isLocalCh c = false) :
    emailMatchAt p (c :: r) = none := by
  simp [emailMatchAt, hc]

/-- A run of local characters that hits a non-local, non-`@` character
cannot be the start of an email match. -/
theorem emailMatchAt_run_no_at (p : Option Char) (ls : List Char)
    (e : Char) (t : List Char) (hls : ∀ x ∈ ls, isLocalCh x = true)
    (he : isLocalCh e = false) (hne : e ≠ '@') :
    emailMatchAt p (ls ++ e :: t) = none := by
  cases hm : emailMatchAt p (ls ++ e :: t) with
  | none => rfl
  | some n =>
      exfalso
      cases hls2 : ls with
      | nil =>
          rw [hls2] at hm
          simp only [List.nil_append] at hm
          rw [emailMatchAt_nonlocal_start p e t he] at hm
          cases hm
      | cons c ls' =>
          rw [hls2, List.cons_append] at hm
          obtain ⟨-, -, s2, s3, hd1, -, -, -, -⟩ :=
            (emailMatchAt_cons_iff p c (ls' ++ e :: t) n).mp hm
          simp only [← List.cons_append] at hd1
          rw [← hls2] at hd1
          have hrun : takeRun isLocalCh (ls ++ e :: t) = ls.length := by
            rw [takeRun_append_full isLocalCh ls (e :: t)
              (takeRun_all isLocalCh ls hls), takeRun_cons, he]
            simp
          rw [hrun, List.drop_left] at hd1
          injection hd1 with h1 h2
          exact hne h1

/-- No email match starts inside the `[EMAIL]` token, whatever
follows. -/
theorem emailMatchAt_token_start_EMAIL :
    ∀ r2 z p, (∃ r1, "[EMAIL]".toList = r1 ++ r2) → r2 ≠ [] →
      emailMatchAt p (r2 ++ z) = none := by
  intro r2 z p hsub hne
  obtain ⟨r1, hr⟩ := hsub
  have hr2 : r2 = "[EMAIL]".toList.drop r1.length := by
    rw [hr, List.drop_left]
  have hlen : r1.length ≤ 7 := by
    have := congrArg List.length hr
    simp at this
    omega
  have hj : r1.length = 0 ∨ r1.length = 1 ∨ r1.length = 2 ∨
      r1.length = 3 ∨ r1.length = 4 ∨ r1.length = 5 ∨ r1.length = 6 ∨
      r1.length = 7 := by omega
  rcases hj with hj | hj | hj | hj | hj | hj | hj | hj <;>
    rw [hj] at hr2 <;> subst hr2
  · exact emailMatchAt_nonlocal_start p '[' _ (by decide)
  · exact emailMatchAt_run_no_at p ['E', 'M', 'A', 'I', 'L'] ']' z
      (by decide) (by decide) (by decide)
  · exact emailMatchAt_run_no_at p ['M', 'A', 'I', 'L'] ']' z
      (by decide) (by decide) (by decide)
  · exact emailMatchAt_run_no_at p ['A', 'I', 'L'] ']' z
      (by decide) (by decide) (by decide)
  · exact emailMatchAt_run_no_at p ['I', 'L'] ']' z
      (by decide) (by decide) (by decide)
  · exact emailMatchAt_run_no_at p ['L'] ']' z
      (by decide) (by decide) (by decide)
  · exact emailMatchAt_nonlocal_start p ']' _ (by decide)
  · exact absurd rfl hne

/-- No email match starts inside the collapse token. -/
theorem emailMatchAt_token_start_SPACE :
    ∀ r2 z p, (∃ r1, ([' '] : List Char) = r1 ++ r2) → r2 ≠ [] →
      emailMatchAt p (r2 ++ z) = none := by
  intro r2 z p hsub hne
  obtain ⟨r1, hr⟩ := hsub
  have hr2 : r2 = ([' '] : List Char).drop r1.length := by
    rw [hr, List.drop_left]
  have hlen : r1.length ≤ 1 := by
    have := congrArg List.length hr
    simp at this
    omega
  have hj : r1.length = 0 ∨ r1.length = 1 := by omega
  rcases hj with hj | hj <;> rw [hj] at hr2 <;> subst hr2
  · exact emailMatchAt_nonlocal_start p ' ' _ (by decide)
  · exact absurd rfl hne

/-! ### Collapse-pattern lemmas -/

theorem collapseMatchAt_some (p : Option Char) (v : List Char) (n : Nat)
    (h : collapseMatchAt p v = some n) :
    n = takeRun isSpaceCh v ∧ 2 ≤ n := by
  simp only [collapseMatchAt] at h
  by_cases h2 : 2 ≤ takeRun isSpaceCh v
  · rw [if_pos h2] at h
    injection h with hn
    exact ⟨hn.symm, hn ▸ h2⟩
  · rw [if_neg h2] at h
    cases h

theorem not_word_toNat (c : Char)
    (h : c.toNat = 11 ∨ c.toNat = 12 ∨ c.toNat = 160) :
    isWordCh c = false := by
  cases hw : isWordCh c with
  | false => rfl
  | true =>
      exfalso
      unfold isWordCh at hw
      simp only [Bool.or_eq_true, Bool.and_eq_true, decide_eq_true_eq] at hw
      omega

theorem space_not_word (c : Char) (h : isSpaceCh c = true) :
    isWordCh c = false := by
  unfold isSpaceCh at h
  simp only [Bool.or_eq_true, decide_eq_true_eq] at h
  rcases h with ((((((h | h) | h) | h) | h) | h) | h)
  · subst h; decide
  · subst h; decide
  · subst h; decide
  · subst h; decide
  · exact not_word_toNat c (Or.inl h)
  · exact not_word_toNat c (Or.inr (Or.inl h))
  · exact not_word_toNat c (Or.inr (Or.inr h))

theorem collapseMatchAt_val (d : Char) (v : List Char) (n : Nat)
    (h : collapseMatchAt (some d) v = some n) (_ : isWordCh d = true) :
    nextOk v = true := by
  obtain ⟨hn, h2⟩ := collapseMatchAt_some (some d) v n h
  cases v with
  | nil => rfl
  | cons c rest =>
      have hc : isSpaceCh c = true := by
        by_contra hcn
        rw [takeRun_cons, if_neg hcn] at hn
        omega
      simp [nextOk, space_not_word c hc]

theorem collapseMatchAt_after (p : Option Char) (v : List Char) (n : Nat)
    (h : collapseMatchAt p v = some n) :
    ∀ d ∈ v.take (max n 1), isWordCh d = false := by
  obtain ⟨hn, h2⟩ := collapseMatchAt_some p v n h
  intro d hd
  have hm : max n 1 = n := by omega
  rw [hm, hn] at hd
  exact space_not_word d (takeRun_mem isSpaceCh v d hd)

/-! ### The anonymizer's passes leave no residual matches -/

/-- The email pass leaves no email-pattern match in its output. -/
theorem emailPassFree (s : List Char) :
    hasMatch emailMatchAt
      (replaceAll emailMatchAt "[EMAIL]".toList s) = false := by
  unfold hasMatch replaceAll
  refine selfResidualFree emailMatchAt emailCs "[EMAIL]".toList
    (by decide)
    emailMatchAt_ctx
    emailMatchAt_ws
    emailMatchAt_charset
    ?_
    emailMatchAt_last
    emailMatchAt_agree
    emailMatchAt_token_start_EMAIL
    (fun p => rfl)
    emailMatchAt_val
    (fun p v n h => Or.inl (emailMatchAt_afterMax p v n h))
    ⟨']', by decide, by decide⟩
    s.length s s.length none none (le_refl _) (le_refl _) (Or.inl rfl)
  intro c hc
  have hc2 : c = '[' := by
    have hh : ("[EMAIL]".toList.head? : Option Char) = some '[' := by decide
    rw [hh] at hc
    cases hc
    rfl
  subst hc2
  decide

/-- The email pass cannot create a phone-pattern match. -/
theorem phoneFreeAfterEmailPass (s : List Char)
    (h : hasMatch phoneMatchAt s = false) :
    hasMatch phoneMatchAt
      (replaceAll emailMatchAt "[EMAIL]".toList s) = false := by
  unfold hasMatch replaceAll
  refine presResidualFree phoneMatchAt emailMatchAt phoneCs
    "[EMAIL]".toList (by decide)
    phoneMatchAt_ctx
    (fun p c z _ hc => phoneMatchAt_nonword_start p c z hc)
    (fun q z k hm => phoneMatchAt_charset q z k hm)
    ?_
    (fun q z k hm => by
      obtain ⟨d, hg, hd⟩ := phoneMatchAt_last q z k hm
      exact ⟨d, hg, digit_isWord d hd⟩)
    phoneMatchAt_agree
    (phoneMatchAt_token_start _ (by decide))
    (fun p => rfl)
    emailMatchAt_val
    (fun p v n hm => Or.inl (emailMatchAt_afterMax p v n hm))
    ⟨']', by decide, by decide⟩
    s.length s s.length none none (le_refl _) (le_refl _) (Or.inl rfl) h
  intro c hc
  have hc2 : c = '[' := by
    have hh : ("[EMAIL]".toList.head? : Option Char) = some '[' := by decide
    rw [hh] at hc
    cases hc
    rfl
  subst hc2
  decide

/-- The whitespace-collapse pass cannot create a phone-pattern
match. -/
theorem phoneFreeAfterCollapsePass (s : List Char)
    (h : hasMatch phoneMatchAt s = false) :
    hasMatch phoneMatchAt
      (replaceAll collapseMatchAt [' '] s) = false := by
  unfold hasMatch replaceAll
  refine presResidualFree phoneMatchAt collapseMatchAt phoneCs
    [' '] (by decide)
    phoneMatchAt_ctx
    (fun p c z _ hc => phoneMatchAt_nonword_start p c z hc)
    (fun q z k hm => phoneMatchAt_charset q z k hm)
    ?_
    (fun q z k hm => by
      obtain ⟨d, hg, hd⟩ := phoneMatchAt_last q z k hm
      exact ⟨d, hg, digit_isWord d hd⟩)
    phoneMatchAt_agree
    (phoneMatchAt_token_start _ (by decide))
    (fun p => rfl)
    collapseMatchAt_val
    (fun p v n hm => Or.inr (collapseMatchAt_after p v n hm))
    ⟨' ', by decide, by decide⟩
    s.length s s.length none none (le_refl _) (le_refl _) (Or.inl rfl) h
  intro c hc
  have hc2 : c = ' ' := by
    have hh : (([' '] : List Char).head? : Option Char) = some ' ' := by
      decide
    rw [hh] at hc
    cases hc
    rfl
  subst hc2
  decide

/-- The whitespace-collapse pass cannot create an email-pattern
match. -/
theorem emailFreeAfterCollapsePass (s : List Char)
    (h : hasMatch emailMatchAt s = false) :
    hasMatch emailMatchAt
      (replaceAll collapseMatchAt [' '] s) = false := by
  unfold hasMatch replaceAll
  refine presResidualFree emailMatchAt collapseMatchAt emailCs
    [' '] (by decide)
    emailMatchAt_ctx
    emailMatchAt_ws
    emailMatchAt_charset
    ?_
    emailMatchAt_last
    emailMatchAt_agree
    emailMatchAt_token_start_SPACE
    (fun p => rfl)
    collapseMatchAt_val
    (fun p v n hm => Or.inr (collapseMatchAt_after p v n hm))
    ⟨' ', by decide, by decide⟩
    s.length s s.length none none (le_refl _) (le_refl _) (Or.inl rfl) h
  intro c hc
  have hc2 : c = ' ' := by
    have hh : (([' '] : List Char).head? : Option Char) = some ' ' := by
      decide
    rw [hh] at hc
    cases hc
    rfl
  subst hc2
  decide

/-! ### The name pattern: no uppercase-lowercase pair survives -/

theorem toNat_ofNat_small (n : Nat) (h : n < 55296) :
    (Char.ofNat n).toNat = n := by
  unfold Char.ofNat
  rw [dif_pos (Or.inl h)]
  simp [Char.ofNatAux, Char.toNat, UInt32.toNat, UInt32.ofNatCore]

/-- Lowercasing never produces an ASCII uppercase letter. -/
theorem jsToLowerChar_not_upper (c : Char) :
    isUpperAZ (jsToLowerChar c) = false := by
  unfold jsToLowerChar
  by_cases hc : (65 ≤ c.toNat && c.toNat ≤ 90) = true
  · rw [if_pos hc]
    simp only [Bool.and_eq_true, decide_eq_true_eq] at hc
    unfold isUpperAZ
    rw [toNat_ofNat_small (c.toNat + 32) (by omega)]
    simp only [Bool.and_eq_false_iff, decide_eq_false_iff_not]
    omega
  · rw [if_neg hc]
    unfold isUpperAZ
    simp only [Bool.and_eq_true, decide_eq_true_eq, not_and, not_le] at hc
    simp only [Bool.and_eq_false_iff, decide_eq_false_iff_not]
    omega

theorem noUL_tail (a : Char) (t : List Char) (h : noUL (a :: t) = true) :
    noUL t = true := by
  cases t with
  | nil => rfl
  | cons b t2 =>
      rw [noUL, Bool.and_eq_true] at h
      exact h.2

theorem noUL_pair (a b : Char) (t : List Char)
    (h : noUL (a :: b :: t) = true) :
    (isUpperAZ a && isLowerAZ b) = false := by
  rw [noUL, Bool.and_eq_true] at h
  have h1 := h.1
  rw [Bool.not_eq_true'] at h1
  exact h1

theorem noUL_append_right (x y : List Char) (h : noUL (x ++ y) = true) :
    noUL y = true := by
  induction x with
  | nil => simpa using h
  | cons a x2 ih =>
      rw [List.cons_append] at h
      exact ih (noUL_tail _ _ h)

theorem noUL_append_left (x y : List Char) (h : noUL (x ++ y) = true) :
    noUL x = true := by
  induction x with
  | nil => rfl
  | cons a x2 ih =>
      cases hx : x2 with
      | nil => rfl
      | cons b x3 =>
          subst hx
          simp only [List.cons_append] at h
          rw [noUL, Bool.and_eq_true]
          refine ⟨?_, ?_⟩
          · rw [Bool.not_eq_true']
            exact noUL_pair a b _ h
          · exact ih (noUL_tail _ _ h)

theorem noUL_append_build (x y : List Char) (hx : noUL x = true)
    (hy : noUL y = true)
    (hb : ∀ a b, x.getLast? = some a → y.head? = some b →
      (isUpperAZ a && isLowerAZ b) = false) :
    noUL (x ++ y) = true := by
  induction x with
  | nil => simpa using hy
  | cons a x2 ih =>
      cases hx2 : x2 with
      | nil =>
          subst hx2
          cases y with
          | nil => rfl
          | cons b y2 =>
              simp only [List.singleton_append]
              rw [noUL, Bool.and_eq_true]
              refine ⟨?_, hy⟩
              rw [Bool.not_eq_true']
              exact hb a b rfl rfl
      | cons c x3 =>
          subst hx2
          simp only [List.cons_append]
          rw [noUL, Bool.and_eq_true]
          refine ⟨?_, ?_⟩
          · rw [Bool.not_eq_true']
            exact noUL_pair a c _ hx
          · have hx2n : noUL (c :: x3) = true := noUL_tail _ _ hx
            have hb2 : ∀ d b, (c :: x3).getLast? = some d →
                y.head? = some b → (isUpperAZ d && isLowerAZ b) = false := by
              intro d b hd hby
              refine hb d b ?_ hby
              rw [List.getLast?_cons_cons]
              exact hd
            have := ih hx2n hb2
            simpa using this

theorem noUL_drop (s : List Char) (k : Nat) (h : noUL s = true) :
    noUL (s.drop k) = true :=
  noUL_append_right (s.take k) (s.drop k)
    (by rw [List.take_append_drop]; exact h)

theorem noUL_of_no_upper (s : List Char)
    (h : ∀ c ∈ s, isUpperAZ c = false) : noUL s = true := by
  induction s with
  | nil => rfl
  | cons a t ih =>
      cases t with
      | nil => rfl
      | cons b t2 =>
          rw [noUL, Bool.and_eq_true]
          refine ⟨?_, ?_⟩
          · rw [h a (by simp)]
            rfl
          · exact ih fun c hc => h c (List.mem_cons_of_mem _ hc)

/-- Characters of a replace-pass output come from the input or the
token. -/
theorem replaceScan_chars (m : Option Char → List Char → Option Nat)
    (R : List Char) :
    ∀ (fuel : Nat) (prev : Option Char) (s : List Char) (d : Char),
      d ∈ replaceScan m R fuel prev s → d ∈ s ∨ d ∈ R := by
  intro fuel
  induction fuel with
  | zero =>
      intro prev s d hd
      rw [replaceScan] at hd
      simp at hd
  | succ fuel ih =>
      intro prev s d hd
      cases s with
      | nil =>
          rw [replaceScan] at hd
          simp at hd
      | cons c rest =>
          cases hm : m prev (c :: rest) with
          | some n =>
              simp only [replaceScan, hm] at hd
              rcases List.mem_append.mp hd with hR | hrec
              · exact Or.inr hR
              · rcases ih _ _ d hrec with hs | hR
                · exact Or.inl (List.mem_of_mem_drop hs)
                · exact Or.inr hR
          | none =>
              simp only [replaceScan, hm] at hd
              rcases List.mem_cons.mp hd with hc | hrec
              · exact Or.inl (by rw [hc]; simp)
              · rcases ih _ _ d hrec with hs | hR
                · exact Or.inl (List.mem_cons_of_mem _ hs)
                · exact Or.inr hR

/-- A replace pass with a well-behaved token preserves the
no-uppercase-lowercase-pair invariant. -/
theorem noUL_replaceScan (m : Option Char → List Char → Option Nat)
    (R : List Char) (hRne : R ≠ []) (hRn : noUL R = true)
    (hRhead : ∀ c, R.head? = some c → isLowerAZ c = false)
    (hRlastU : ∀ c, R.getLast? = some c → isUpperAZ c = false) :
    ∀ (N : Nat) (s : List Char) (fuel : Nat) (prev : Option Char),
      s.length ≤ N → s.length ≤ fuel → noUL s = true →
      noUL (replaceScan m R fuel prev s) = true := by
  intro N
  induction N with
  | zero =>
      intro s fuel prev hN _ _
      have hs : s = [] := List.eq_nil_of_length_eq_zero (Nat.le_zero.mp hN)
      subst hs
      cases fuel <;> rfl
  | succ N ih =>
      intro s fuel prev hN hfuel hs
      rcases replaceScan_decomp m R fuel prev s hfuel with
        ⟨heq, -⟩ | ⟨u, v, n, fuel2, hsplit, hmatch, -, hout, hl2⟩
      · rw [heq]
        exact hs
      · rw [hout]
        have hu : noUL u = true :=
          noUL_append_left u v (by rw [← hsplit]; exact hs)
        have hv : noUL v = true :=
          noUL_append_right u v (by rw [← hsplit]; exact hs)
        have hdroplen : (v.drop (max n 1)).length ≤ N := by
          rw [List.length_drop]
          have h1 : 1 ≤ max n 1 := le_max_right n 1
          have hslen : s.length = u.length + v.length := by
            rw [hsplit]
            simp
          omega
        rw [List.append_assoc]
        refine noUL_append_build u _ hu ?_ ?_
        · refine noUL_append_build R _ hRn ?_ ?_
          · exact ih (v.drop (max n 1)) fuel2 _ hdroplen hl2
              (noUL_drop v _ hv)
          · intro a b ha hb2
            rw [hRlastU a ha]
            rfl
        · intro a b ha hb2
          cases hR : R with
          | nil => exact absurd hR hRne
          | cons Rh Rt =>
              rw [hR] at hb2
              simp only [List.cons_append, List.head?] at hb2
              injection hb2 with hbe
              subst hbe
              rw [hRhead Rh (by rw [hR]; rfl)]
              simp

/-! ### Trimming preserves match-freeness -/

/-- `jsTrim` splits the string into leading spaces, the kept middle and
trailing spaces. -/
theorem jsTrim_decomp (s : List Char) :
    ∃ a b, s = a ++ (jsTrim s ++ b) ∧ (∀ c ∈ a, isSpaceCh c = true) ∧
      ∀ c ∈ b, isSpaceCh c = true := by
  refine ⟨s.takeWhile isSpaceCh,
    ((s.dropWhile isSpaceCh).reverse.takeWhile isSpaceCh).reverse, ?_, ?_, ?_⟩
  · conv_lhs => rw [← List.takeWhile_append_dropWhile (p := isSpaceCh)
      (l := s)]
    congr 1
    unfold jsTrim
    calc s.dropWhile isSpaceCh
        = ((s.dropWhile isSpaceCh).reverse).reverse :=
          (List.reverse_reverse _).symm
      _ = ((s.dropWhile isSpaceCh).reverse.takeWhile isSpaceCh ++
            (s.dropWhile isSpaceCh).reverse.dropWhile isSpaceCh).reverse := by
          rw [List.takeWhile_append_dropWhile]
      _ = ((s.dropWhile isSpaceCh).reverse.dropWhile isSpaceCh).reverse ++
            ((s.dropWhile isSpaceCh).reverse.takeWhile isSpaceCh).reverse := by
          rw [List.reverse_append]
  · exact fun c hc => List.mem_takeWhile_imp hc
  · intro c hc
    rw [List.mem_reverse] at hc
    exact List.mem_takeWhile_imp hc

theorem jsTrim_subset (s : List Char) : ∀ c ∈ jsTrim s, c ∈ s := by
  intro c hc
  obtain ⟨a, b, hsplit, -, -⟩ := jsTrim_decomp s
  rw [hsplit]
  exact List.mem_append_right _ (List.mem_append_left _ hc)

/-- Trimming cannot create a match of a pattern with a trailing
boundary handled by `Hagree`. -/
theorem hasMatch_jsTrim (ms : Option Char → List Char → Option Nat)
    (Hctx : ∀ p q z, isWordOpt p = isWordOpt q → ms p z = ms q z)
    (Hagree : ∀ p w t t1 k, ms p (w ++ t) = some k → k ≤ w.length →
      (k = w.length → nextOk t1 = true) → ms p (w ++ t1) ≠ none)
    (Hbounds : ∀ p z n, ms p z = some n → n ≤ z.length)
    (s : List Char) (h : hasMatch ms s = false) :
    hasMatch ms (jsTrim s) = false := by
  unfold hasMatch at h ⊢
  obtain ⟨a, b, hsplit, hA, hB⟩ := jsTrim_decomp s
  rw [hsplit] at h
  have h2 := hasMatchFrom_append_false ms a none _ h
  have hctxa : isWordOpt (ctxAfter none a) = false := by
    cases hg : a.getLast? with
    | none =>
        unfold ctxAfter
        rw [hg]
        rfl
    | some d =>
        unfold ctxAfter
        rw [hg]
        exact space_not_word d (hA d (mem_of_getLast?_eq a d hg))
  have h3 : hasMatchFrom ms none (jsTrim s ++ b) = false := by
    rw [hasMatchFrom_ctx ms Hctx none (ctxAfter none a) _ hctxa.symm]
    exact h2
  rw [hasMatchFrom_false_iff]
  intro u1 u2 hu hne
  cases hm : ms (ctxAfter none u1) u2 with
  | none => rfl
  | some k =>
      exfalso
      have hk : k ≤ u2.length := Hbounds _ _ _ hm
      have hmm : ms (ctxAfter none u1) (u2 ++ []) = some k := by
        rw [List.append_nil]
        exact hm
      have hnb : k = u2.length → nextOk b = true := by
        intro _
        cases b with
        | nil => rfl
        | cons bc bt =>
            have := space_not_word bc (hB bc (by simp))
            simp [nextOk, this]
      have hsome := Hagree (ctxAfter none u1) u2 [] b k hmm hk hnb
      have hnone := (hasMatchFrom_false_iff ms _ none).mp h3 u1 (u2 ++ b)
        (by rw [hu, List.append_assoc])
        (by
          intro habs
          exact hne (List.append_eq_nil.mp habs).1)
      exact hsome hnone

/-! ### The name pattern never matches a `noUL` string -/

theorem nameMatchAt_none_head (q : Option Char) (a : Char)
    (rest : List Char) (h : noUL (a :: rest) = true) :
    nameMatchAt q (a :: rest) = none := by
  cases hu : isUpperAZ a with
  | false => simp [nameMatchAt, hu]
  | true =>
      have hlow : takeRun isLowerAZ rest = 0 := by
        cases rest with
        | nil => rfl
        | cons b t =>
            have hpair := noUL_pair a b t h
            rw [hu] at hpair
            simp only [Bool.true_and] at hpair
            rw [takeRun_cons, if_neg (by simp [hpair])]
      simp [nameMatchAt, hlow, hu]

theorem noUL_no_name (s : List Char) (h : noUL s = true) :
    ∀ p, hasMatchFrom nameMatchAt p s = false := by
  induction s with
  | nil => intro p; rfl
  | cons a rest ih =>
      intro p
      rw [hasMatchFrom, Bool.or_eq_false_iff]
      refine ⟨?_, ih (noUL_tail _ _ h) (some a)⟩
      rw [nameMatchAt_none_head p a rest h]
      rfl

theorem jsToLower_no_upper (s : List Char) :
    ∀ c ∈ jsToLower s, isUpperAZ c = false := by
  intro c hc
  unfold jsToLower at hc
  obtain ⟨d, -, hd⟩ := List.mem_map.mp hc
  rw [← hd]
  exact jsToLowerChar_not_upper d

theorem head_eq_of (o : Option Char) (d : Char) (h : o = some d)
    (P : Char → Bool) (hP : P d = false) :
    ∀ c, o = some c → P c = false := by
  intro c hc
  rw [h] at hc
  injection hc with he
  subst he
  exact hP

/-- After `sanitizeSymptom`, no phone-pattern match remains. -/
theorem sanitizeSymptom_phone_free (raw : List Char) :
    hasMatch phoneMatchAt (sanitizeSymptom raw) = false := by
  unfold sanitizeSymptom
  refine hasMatch_jsTrim phoneMatchAt phoneMatchAt_ctx phoneMatchAt_agree
    (fun p z n h => (phoneMatchAt_bounds p z n h).2) _ ?_
  exact phoneFreeAfterCollapsePass _
    (phoneFreeAfterEmailPass _ (phonePassFree _))

/-- After `sanitizeSymptom`, no email-pattern match remains. -/
theorem sanitizeSymptom_email_free (raw : List Char) :
    hasMatch emailMatchAt (sanitizeSymptom raw) = false := by
  unfold sanitizeSymptom
  refine hasMatch_jsTrim emailMatchAt emailMatchAt_ctx emailMatchAt_agree
    (fun p z n h => (emailMatchAt_bounds p z n h).2) _ ?_
  exact emailFreeAfterCollapsePass _ (emailPassFree _)

/-- After `sanitizeSymptom`, no name-pattern match remains. -/
theorem sanitizeSymptom_name_free (raw : List Char) :
    hasMatch nameMatchAt (sanitizeSymptom raw) = false := by
  unfold sanitizeSymptom
  set s3 := replaceAll salMatchAt [] (jsTrim (jsToLower raw)) with hs3def
  set s4 := replaceAll nameMatchAt "[REDACTED]".toList s3 with hs4def
  set s5 := replaceAll phoneMatchAt "[PHONE]".toList s4 with hs5def
  set s6 := replaceAll emailMatchAt "[EMAIL]".toList s5 with hs6def
  set s7 := replaceAll collapseMatchAt [' '] s6 with hs7def
  have h3 : ∀ c ∈ s3, isUpperAZ c = false := by
    intro c hc
    rw [hs3def] at hc
    unfold replaceAll at hc
    rcases replaceScan_chars salMatchAt [] _ _ _ c hc with hs | hR
    · exact jsToLower_no_upper raw c (jsTrim_subset _ c hs)
    · simp at hR
  have hn3 : noUL s3 = true := noUL_of_no_upper _ h3
  have hn4 : noUL s4 = true := by
    rw [hs4def]
    unfold replaceAll
    exact noUL_replaceScan nameMatchAt "[REDACTED]".toList (by decide)
      (by decide)
      (head_eq_of _ '[' (by decide) isLowerAZ (by decide))
      (head_eq_of _ ']' (by decide) isUpperAZ (by decide))
      s3.length s3 s3.length none (le_refl _) (le_refl _) hn3
  have hn5 : noUL s5 = true := by
    rw [hs5def]
    unfold replaceAll
    exact noUL_replaceScan phoneMatchAt "[PHONE]".toList (by decide)
      (by decide)
      (head_eq_of _ '[' (by decide) isLowerAZ (by decide))
      (head_eq_of _ ']' (by decide) isUpperAZ (by decide))
      s4.length s4 s4.length none (le_refl _) (le_refl _) hn4
  have hn6 : noUL s6 = true := by
    rw [hs6def]
    unfold replaceAll
    exact noUL_replaceScan emailMatchAt "[EMAIL]".toList (by decide)
      (by decide)
      (head_eq_of _ '[' (by decide) isLowerAZ (by decide))
      (head_eq_of _ ']' (by decide) isUpperAZ (by decide))
      s5.length s5 s5.length none (le_refl _) (le_refl _) hn5
  have hn7 : noUL s7 = true := by
    rw [hs7def]
    unfold replaceAll
    exact noUL_replaceScan collapseMatchAt [' '] (by decide)
      (by decide)
      (head_eq_of _ ' ' (by decide) isLowerAZ (by decide))
      (head_eq_of _ ' ' (by decide) isUpperAZ (by decide))
      s6.length s6 s6.length none (le_refl _) (le_refl _) hn6
  obtain ⟨a, b, hsplit, -, -⟩ := jsTrim_decomp s7
  have htrim : noUL (jsTrim s7) = true :=
    noUL_append_left _ b (noUL_append_right a _ (by rw [← hsplit]; exact hn7))
  unfold hasMatch
  exact noUL_no_name _ htrim none

/-! ### Age bucketing -/

theorem bucketAge_unknown_iff (age : Option ℚ) :
    bucketAge age = "unknown".toList ↔
      (age = none ∨ ∃ a, age = some a ∧ a < 0) := by
  cases age with
  | none => simp [bucketAge]
  | some a =>
      by_cases ha : a < 0
      · constructor
        · intro _
          exact Or.inr ⟨a, rfl, ha⟩
        · intro _
          simp [bucketAge, ha]
      · simp only [bucketAge, if_neg ha]
        constructor
        · intro h
          exfalso
          have hmem : '-' ∈ Nat.toDigits 10 (⌊a / 5⌋ * 5).toNat ++
              "-".toList ++ Nat.toDigits 10 ((⌊a / 5⌋ * 5) + 4).toNat := by
            refine List.mem_append_left _ ?_
            exact List.mem_append_right _ (by decide)
          rw [h] at hmem
          revert hmem
          decide
        · rintro (h | ⟨a2, ha2, hneg⟩)
          · exact Option.noConfusion h
          · injection ha2 with he
            subst he
            exact absurd hneg ha

theorem bucketAge_band (a : ℚ) (h : ¬a < 0) :
    bucketAge (some a) =
      Nat.toDigits 10 (⌊a / 5⌋ * 5).toNat ++ '-' ::
        Nat.toDigits 10 (⌊a / 5⌋ * 5 + 4).toNat := by
  simp only [bucketAge, if_neg h]
  simp [List.append_assoc]

/-- **C2.** Every `recentSymptoms` entry of the anonymizer's output is
free of email-, phone- and capitalised-full-name-pattern matches, and
`ageBand` is `"unknown"` exactly for a missing or negative age and
otherwise the five-year band starting at `L = ⌊age/5⌋·5` with
`L ≡ 0 (mod 5)`. -/
theorem claim_C2_anonymizer_no_pii (sessionId : List Char)
    (input : StructuredClinicalInput) :
    (∀ sym ∈ (anonymizeForAi sessionId input).recentSymptoms,
        hasMatch emailMatchAt sym = false ∧
        hasMatch phoneMatchAt sym = false ∧
        hasMatch nameMatchAt sym = false) ∧
    ((anonymizeForAi sessionId input).ageBand = "unknown".toList ↔
      (input.age = none ∨ ∃ a, input.age = some a ∧ a < 0)) ∧
    ∀ a, input.age = some a → 0 ≤ a →
      ∃ L : ℤ, L % 5 = 0 ∧ L = ⌊a / 5⌋ * 5 ∧
        (anonymizeForAi sessionId input).ageBand =
          Nat.toDigits 10 L.toNat ++ '-' ::
            Nat.toDigits 10 (L + 4).toNat := by
  refine ⟨?_, ?_, ?_⟩
  · intro sym hsym
    simp only [anonymizeForAi] at hsym
    obtain ⟨raw, -, hraw⟩ := List.mem_map.mp hsym
    rw [← hraw]
    exact ⟨sanitizeSymptom_email_free raw, sanitizeSymptom_phone_free raw,
      sanitizeSymptom_name_free raw⟩
  · simp only [anonymizeForAi]
    exact bucketAge_unknown_iff input.age
  · intro a ha hnn
    refine ⟨⌊a / 5⌋ * 5, Int.mul_emod_left _ _, rfl, ?_⟩
    simp only [anonymizeForAi, ha]
    exact bucketAge_band a (not_lt.mpr hnn)

/-- Witness for C2 at a concrete input (age 37). -/
theorem claim_C2_anonymizer_no_pii_witness :
    ∃ L : ℤ, L % 5 = 0 ∧ L = ⌊(37 : ℚ) / 5⌋ * 5 ∧
      (anonymizeForAi []
          (⟨some 37, [], [], [], [], [], []⟩ :
            StructuredClinicalInput)).ageBand =
        Nat.toDigits 10 L.toNat ++ '-' ::
          Nat.toDigits 10 (L + 4).toNat :=
  (claim_C2_anonymizer_no_pii [] _).2.2 37 rfl (by norm_num)

/-! ### C10 necessity: a residual match forces the re-scrub to change
the text.  Each replacement inserts a bracket, matched text never
contains one, and copied text keeps them, so the bracket count grows
strictly with every replacement and is otherwise non-decreasing. -/

theorem parseHex_some_iff (k : Nat) (s r : List Char) :
    parseHex k s = some r ↔
      k ≤ s.length ∧ (∀ d ∈ s.take k, isHexCh d = true) ∧ r = s.drop k := by
  induction k generalizing s with
  | zero =>
      rw [parseHex]
      simp only [Nat.zero_le, true_and, List.take_zero, List.drop_zero,
        List.not_mem_nil, false_implies, implies_true]
      constructor
      · intro h
        cases h
        rfl
      · intro h
        rw [h]
  | succ k ih =>
      cases s with
      | nil => simp [parseHex]
      | cons c rest =>
          rw [parseHex]
          by_cases hc : isHexCh c
          · rw [if_pos hc, ih]
            constructor
            · rintro ⟨h1, h2, h3⟩
              refine ⟨by simpa using h1, ?_, by simpa using h3⟩
              intro d hd
              rw [List.take_succ_cons] at hd
              rcases List.mem_cons.mp hd with h | h
              · rw [h]; exact hc
              · exact h2 d h
            · rintro ⟨h1, h2, h3⟩
              refine ⟨by simpa using h1, ?_, by simpa using h3⟩
              intro d hd
              exact h2 d (by rw [List.take_succ_cons]; exact List.mem_cons_of_mem c hd)
          · rw [if_neg hc]
            constructor
            · intro h; cases h
            · rintro ⟨h1, h2, h3⟩
              exact absurd (h2 c (by rw [List.take_succ_cons]; exact List.mem_cons_self c _)) (by simpa using hc)

theorem parseHex_seg (k : Nat) (s r : List Char) :
    parseHex k s = some r ↔ SegStep isHexCh k s r := by
  rw [parseHex_some_iff]
  rfl

theorem parseDash_some_iff (s r : List Char) :
    parseDash s = some r ↔ s = '-' :: r := by
  cases s with
  | nil =>
      constructor
      · intro h; cases h
      · intro h; cases h
  | cons c t =>
      by_cases hc : c = '-'
      · subst hc
        constructor
        · intro h
          injection h with h
          rw [h]
        · intro h
          injection h with _ h
          rw [h]
          rfl
      · have hnone : parseDash (c :: t) = none := by
          unfold parseDash
          split
          · rename_i heq
            injection heq with h1 _
            exact absurd h1 hc
          · rfl
        rw [hnone]
        constructor
        · intro h; cases h
        · intro h
          injection h with h1 _
          exact absurd h1 hc

theorem parseDash_seg (s r : List Char) :
    parseDash s = some r ↔ SegStep (fun c => decide (c = '-')) 1 s r := by
  rw [parseDash_some_iff]
  constructor
  · intro h
    subst h
    refine ⟨by simp, ?_, by simp⟩
    intro d hd
    simp only [List.take_succ_cons, List.take_zero] at hd
    rcases List.mem_cons.mp hd with h | h
    · rw [h]
      simp
    · simp at h
  · rintro ⟨hl, hmem, hr⟩
    cases s with
    | nil => simp at hl
    | cons a t =>
        have ha : a = '-' := by
          have := hmem a (by simp)
          simpa using this
        subst ha
        simp only [List.drop_succ_cons, List.drop_zero] at hr
        rw [hr]

theorem ne_br_of_pred (P : Char → Bool) (hP : P '[' = false) (d : Char)
    (hd : P d = true) : d ≠ '[' := by
  intro he
  rw [he, hP] at hd
  cases hd

/-- A UUID match is non-empty and consists of hex digits and
dashes. -/
theorem uuidMatchAt_pos_charset (p : Option Char) (z : List Char)
    (n : Nat) (h : uuidMatchAt p z = some n) :
    1 ≤ n ∧ ∀ d ∈ z.take n, d ≠ '[' := by
  cases z with
  | nil => cases h
  | cons c t =>
      rw [uuidMatchAt] at h
      by_cases hg : (!isHexCh c || isWordOpt p) = true
      · rw [if_pos hg] at h
        cases h
      · rw [if_neg hg] at h
        cases h1 : parseHex 8 (c :: t) with
        | none => simp only [h1] at h; cases h
        | some s1 =>
        simp only [h1] at h
        cases h2 : parseDash s1 with
        | none => simp only [h2] at h; cases h
        | some s2 =>
        simp only [h2] at h
        cases h3 : parseHex 4 s2 with
        | none => simp only [h3] at h; cases h
        | some s3 =>
        simp only [h3] at h
        cases h4 : parseDash s3 with
        | none => simp only [h4] at h; cases h
        | some s4 =>
        simp only [h4] at h
        cases h5 : parseHex 4 s4 with
        | none => simp only [h5] at h; cases h
        | some s5 =>
        simp only [h5] at h
        cases h6 : parseDash s5 with
        | none => simp only [h6] at h; cases h
        | some s6 =>
        simp only [h6] at h
        cases h7 : parseHex 4 s6 with
        | none => simp only [h7] at h; cases h
        | some s7 =>
        simp only [h7] at h
        cases h8 : parseDash s7 with
        | none => simp only [h8] at h; cases h
        | some s8 =>
        simp only [h8] at h
        cases h9 : parseHex 12 s8 with
        | none => simp only [h9] at h; cases h
        | some s9 =>
        simp only [h9] at h
        split at h
        · injection h with hn
          have hchain : SegChain
              [(isHexCh, 8), (fun c => decide (c = '-'), 1),
               (isHexCh, 4), (fun c => decide (c = '-'), 1),
               (isHexCh, 4), (fun c => decide (c = '-'), 1),
               (isHexCh, 4), (fun c => decide (c = '-'), 1),
               (isHexCh, 12)] (c :: t) s9 :=
            ⟨s1, (parseHex_seg 8 _ s1).mp h1,
             s2, (parseDash_seg s1 s2).mp h2,
             s3, (parseHex_seg 4 s2 s3).mp h3,
             s4, (parseDash_seg s3 s4).mp h4,
             s5, (parseHex_seg 4 s4 s5).mp h5,
             s6, (parseDash_seg s5 s6).mp h6,
             s7, (parseHex_seg 4 s6 s7).mp h7,
             s8, (parseDash_seg s7 s8).mp h8,
             s9, (parseHex_seg 12 s8 s9).mp h9, rfl⟩
          obtain ⟨hle, hdrop⟩ := segChain_len_drop _ _ _ hchain
          have hsum : ((([(isHexCh, 8), (fun c => decide (c = '-'), 1),
               (isHexCh, 4), (fun c => decide (c = '-'), 1),
               (isHexCh, 4), (fun c => decide (c = '-'), 1),
               (isHexCh, 4), (fun c => decide (c = '-'), 1),
               (isHexCh, 12)] :
                List ((Char → Bool) × Nat)).map Prod.snd).sum) = 36 := rfl
          rw [hsum] at hle hdrop
          have hlen9 : s9.length = (c :: t).length - 36 := by
            rw [hdrop, List.length_drop]
          have hn36 : n = 36 := by
            rw [← hn, hlen9]
            omega
          refine ⟨by omega, ?_⟩
          intro d hd
          rw [hn36] at hd
          obtain ⟨pk, hpk, hpd⟩ := segChain_mem _ _ _ hchain d
            (by rw [hsum]; exact hd)
          simp only [List.mem_cons, List.not_mem_nil, or_false] at hpk
          rcases hpk with rfl | rfl | rfl | rfl | rfl | rfl | rfl | rfl | rfl <;>
            simp only at hpd
          · exact ne_br_of_pred isHexCh (by decide) d hpd
          · intro he
            rw [he] at hpd
            simp at hpd
          · exact ne_br_of_pred isHexCh (by decide) d hpd
          · intro he
            rw [he] at hpd
            simp at hpd
          · exact ne_br_of_pred isHexCh (by decide) d hpd
          · intro he
            rw [he] at hpd
            simp at hpd
          · exact ne_br_of_pred isHexCh (by decide) d hpd
          · intro he
            rw [he] at hpd
            simp at hpd
          · exact ne_br_of_pred isHexCh (by decide) d hpd
        · cases h

theorem email2DomSplit_some (s2 : List Char) :
    ∀ (k consumed : Nat), email2DomSplit s2 k = some consumed →
      ∃ a s3, 1 ≤ a ∧ a ≤ k ∧ s2.drop a = '.' :: s3 ∧
        2 ≤ takeRun isLetterCh s3 ∧
        consumed = a + 1 + takeRun isLetterCh s3 := by
  intro k
  induction k with
  | zero =>
      intro consumed h
      simp only [email2DomSplit] at h
      cases h
  | succ k ih =>
      intro consumed h
      rw [email2DomSplit] at h
      split at h
      · rename_i s3 heq
        dsimp only [] at h
        split at h
        · rename_i htld
          injection h with hc
          exact ⟨k + 1, s3, by omega, le_refl _, heq, htld, hc.symm⟩
        · obtain ⟨a, s3x, h1, h2, h3, h4, h5⟩ := ih consumed h
          exact ⟨a, s3x, h1, by omega, h3, h4, h5⟩
      · obtain ⟨a, s3x, h1, h2, h3, h4, h5⟩ := ih consumed h
        exact ⟨a, s3x, h1, by omega, h3, h4, h5⟩

/-- An audit email match is non-empty and consists of local-class
characters, an at sign, domain-class characters, a dot and letters. -/
theorem email2MatchAt_pos_charset (p : Option Char) (z : List Char)
    (n : Nat) (h : email2MatchAt p z = some n) :
    1 ≤ n ∧ ∀ d ∈ z.take n, d ≠ '[' := by
  cases z with
  | nil => cases h
  | cons c t =>
      simp only [email2MatchAt] at h
      split at h
      · cases h
      · rename_i hloc
        split at h
        · rename_i s2 hd1
          split at h
          · cases h
          · rename_i hdom
            split at h
            · cases h
            · rename_i consumed hsplit
              injection h with hn
              obtain ⟨a, s3, ha1, ha2, hdrop, htld, hcons⟩ :=
                email2DomSplit_some s2 _ consumed hsplit
              refine ⟨by omega, ?_⟩
              have has2 : a ≤ s2.length := by
                have := congrArg List.length hdrop
                rw [List.length_drop] at this
                simp only [List.length_cons] at this
                omega
              obtain ⟨A, hzeq, hAlen, hAmem⟩ :
                  ∃ A, c :: t = A ++ '@' :: s2 ∧
                    A.length = takeRun isLocal2Ch (c :: t) ∧
                    ∀ d ∈ A, isLocal2Ch d = true := by
                refine ⟨(c :: t).take (takeRun isLocal2Ch (c :: t)), ?_, ?_, ?_⟩
                · conv_lhs => rw [← List.take_append_drop
                    (takeRun isLocal2Ch (c :: t)) (c :: t)]
                  rw [hd1]
                · rw [List.length_take]
                  have := takeRun_le isLocal2Ch (c :: t)
                  omega
                · intro d hd
                  exact takeRun_mem isLocal2Ch (c :: t) d hd
              obtain ⟨B, hs2eq, hBlen, hBmem⟩ :
                  ∃ B, s2 = B ++ '.' :: s3 ∧ B.length = a ∧
                    ∀ d ∈ B, isDom2Ch d = true := by
                refine ⟨s2.take a, ?_, ?_, ?_⟩
                · conv_lhs => rw [← List.take_append_drop a s2]
                  rw [hdrop]
                · rw [List.length_take]
                  omega
                · intro d hd
                  have haD : a ≤ takeRun isDom2Ch s2 := by omega
                  have hBa : s2.take a =
                      (s2.take (takeRun isDom2Ch s2)).take a := by
                    rw [List.take_take, min_eq_left haD]
                  rw [hBa] at hd
                  exact takeRun_mem isDom2Ch s2 d (List.take_subset a _ hd)
              have htakeC : s2.take consumed =
                  B ++ '.' :: s3.take (takeRun isLetterCh s3) := by
                rw [hcons, ← hBlen, hs2eq, take_split3]
              have htakeN : (c :: t).take n =
                  A ++ '@' :: s2.take consumed := by
                rw [← hn, ← hAlen, hzeq, take_split3]
              intro d hd
              rw [htakeN, htakeC] at hd
              simp only [List.mem_append, List.mem_cons] at hd
              rcases hd with hd | hd | hd | hd | hd
              · exact ne_br_of_pred isLocal2Ch (by decide) d (hAmem d hd)
              · rw [hd]
                decide
              · exact ne_br_of_pred isDom2Ch (by decide) d (hBmem d hd)
              · rw [hd]
                decide
              · exact ne_br_of_pred isLetterCh (by decide) d
                  (takeRun_mem isLetterCh s3 d hd)
        · cases h

theorem phone2End_some (s1 : List Char) :
    ∀ (k m : Nat), phone2End s1 k = some m →
      7 ≤ m ∧ m ≤ k ∧ ∃ d rest2, s1.drop m = d :: rest2 ∧
        isDigitCh d = true := by
  intro k
  induction k with
  | zero =>
      intro m h
      simp only [phone2End] at h
      cases h
  | succ k ih =>
      intro m h
      rw [phone2End] at h
      split at h
      · cases h
      · rename_i h7
        split at h
        · rename_i d rest2 heq
          split at h
          · rename_i hdig
            injection h with hm
            exact ⟨by omega, by omega, d, rest2, by rw [← hm]; exact heq, hdig⟩
          · obtain ⟨h1, h2, h3⟩ := ih m h
            exact ⟨h1, by omega, h3⟩
        · obtain ⟨h1, h2, h3⟩ := ih m h
          exact ⟨h1, by omega, h3⟩

/-- The plus-less core of the audit phone pattern: a match is non-empty
and consists of digits and middle-class characters. -/
theorem phone2core_pos_charset (t : List Char) (n2 : Nat)
    (h : (match t with
          | c :: rest =>
              if !isDigitCh c then none
              else
                match phone2End rest (takeRun isMid2Ch rest) with
                | none => none
                | some m => some (1 + m + 1)
          | [] => none) = some n2) :
    1 ≤ n2 ∧ ∀ d ∈ t.take n2, d ≠ '[' := by
  cases t with
  | nil => cases h
  | cons c rest =>
      split at h
      case h_2 heq0 => cases h
      case h_1 c2 rest2x heq0 =>
        injection heq0 with he1 he2
        subst he1
        subst he2
        split at h
        · cases h
        · rename_i hdig0
          split at h
          · cases h
          · rename_i m hend
            injection h with hn
            obtain ⟨hm7, hmrun, d2, r2, hdrop2, hdig2⟩ :=
              phone2End_some rest _ m hend
            refine ⟨by omega, ?_⟩
            have hmlen : m ≤ rest.length := by
              have := takeRun_le isMid2Ch rest
              omega
            obtain ⟨B, hreq, hBlen, hBmem⟩ :
                ∃ B, rest = B ++ d2 :: r2 ∧ B.length = m ∧
                  ∀ d ∈ B, isMid2Ch d = true := by
              refine ⟨rest.take m, ?_, ?_, ?_⟩
              · conv_lhs => rw [← List.take_append_drop m rest]
                rw [hdrop2]
              · rw [List.length_take]
                omega
              · intro d hd
                have hmr : m ≤ takeRun isMid2Ch rest := hmrun
                have hBa : rest.take m =
                    (rest.take (takeRun isMid2Ch rest)).take m := by
                  rw [List.take_take, min_eq_left hmr]
                rw [hBa] at hd
                exact takeRun_mem isMid2Ch rest d (List.take_subset m _ hd)
            have htk : (c :: rest).take n2 = c :: (B ++ [d2]) := by
              rw [← hn, show 1 + m + 1 = (m + 1) + 1 by omega,
                List.take_succ_cons, ← hBlen, hreq,
                show B.length + 1 = B.length + 1 + 0 by omega, take_split3,
                List.take_zero]
            intro d hd
            rw [htk] at hd
            simp only [List.mem_cons, List.mem_append, List.not_mem_nil,
              or_false] at hd
            have hcdig : isDigitCh c = true := by
              cases hb : isDigitCh c
              · exact absurd (by simp [hb]) hdig0
              · rfl
            rcases hd with hd | hd | hd
            · rw [hd]
              exact ne_br_of_pred isDigitCh (by decide) c hcdig
            · exact ne_br_of_pred isMid2Ch (by decide) d (hBmem d hd)
            · rw [hd]
              exact ne_br_of_pred isDigitCh (by decide) d2 hdig2

/-- An audit phone match is non-empty and consists of an optional plus,
digits and middle-class characters. -/
theorem phone2MatchAt_pos_charset (p : Option Char) (z : List Char)
    (n : Nat) (h : phone2MatchAt p z = some n) :
    1 ≤ n ∧ ∀ d ∈ z.take n, d ≠ '[' := by
  simp only [phone2MatchAt] at h
  split at h
  · rename_i rest
    split at h
    · rename_i n2 hcore
      injection h with hn
      obtain ⟨hpos, hmem⟩ := phone2core_pos_charset rest n2 hcore
      refine ⟨by omega, ?_⟩
      intro d hd
      rw [← hn, List.take_succ_cons] at hd
      rcases List.mem_cons.mp hd with hd | hd
      · rw [hd]
        decide
      · exact hmem d hd
    · cases h
  · exact phone2core_pos_charset z n h

/-- If every match of `m` is non-empty and never covers `x`, a
replacement pass never decreases the number of occurrences of `x`. -/
theorem count_replaceScan_ge (m : Option Char → List Char → Option Nat)
    (R : List Char) (x : Char)
    (H : ∀ p z n, m p z = some n → 1 ≤ n ∧ ∀ d ∈ z.take n, d ≠ x) :
    ∀ (N : Nat) (s : List Char) (fuel : Nat) (prev : Option Char),
      s.length ≤ N → s.length ≤ fuel →
      s.count x ≤ (replaceScan m R fuel prev s).count x := by
  intro N
  induction N with
  | zero =>
      intro s fuel prev hN hfuel
      have hs : s = [] := List.length_eq_zero.mp (by omega)
      subst hs
      cases fuel
      · exact le_refl _
      · exact le_refl _
  | succ N ih =>
      intro s fuel prev hN hfuel
      rcases replaceScan_decomp m R fuel prev s hfuel with
        ⟨heq, -⟩ | ⟨u, v, n, fuel2, hsplit, hmatch, -, hout, hl2⟩
      · rw [heq]
      · rw [hout]
        obtain ⟨hpos, hcs⟩ := H _ _ _ hmatch
        have hstep : max n 1 = n := by omega
        have hcnt0 : (v.take (max n 1)).count x = 0 := by
          rw [hstep, List.count_eq_zero]
          intro hmem
          exact hcs x hmem rfl
        have hvlen : v.length ≤ N + 1 := by
          have := congrArg List.length hsplit
          rw [List.length_append] at this
          omega
        have hdN : (v.drop (max n 1)).length ≤ N := by
          rw [List.length_drop]
          omega
        have hrec := ih (v.drop (max n 1)) fuel2 ((v.take (max n 1)).getLast?)
          hdN hl2
        have hv : v.count x =
            (v.take (max n 1)).count x + (v.drop (max n 1)).count x := by
          conv_lhs => rw [← List.take_append_drop (max n 1) v]
          rw [List.count_append]
        rw [hsplit]
        simp only [List.count_append]
        omega

/-- If additionally `x` occurs in the replacement and a match exists,
a replacement pass strictly increases the count of `x`. -/
theorem count_replaceScan_lt (m : Option Char → List Char → Option Nat)
    (R : List Char) (x : Char)
    (H : ∀ p z n, m p z = some n → 1 ≤ n ∧ ∀ d ∈ z.take n, d ≠ x)
    (hxR : x ∈ R) :
    ∀ (s : List Char) (fuel : Nat) (prev : Option Char),
      s.length ≤ fuel → hasMatchFrom m prev s = true →
      s.count x < (replaceScan m R fuel prev s).count x := by
  intro s fuel prev hfuel hm
  rcases replaceScan_decomp m R fuel prev s hfuel with
    ⟨-, hfree⟩ | ⟨u, v, n, fuel2, hsplit, hmatch, -, hout, hl2⟩
  · rw [hm] at hfree
    cases hfree
  · rw [hout]
    obtain ⟨hpos, hcs⟩ := H _ _ _ hmatch
    have hstep : max n 1 = n := by omega
    have hcnt0 : (v.take (max n 1)).count x = 0 := by
      rw [hstep, List.count_eq_zero]
      intro hmem
      exact hcs x hmem rfl
    have hR1 : 1 ≤ R.count x := List.count_pos_iff.mpr hxR
    have hrec := count_replaceScan_ge m R x H (v.drop (max n 1)).length
      (v.drop (max n 1)) fuel2 ((v.take (max n 1)).getLast?) (le_refl _) hl2
    have hv : v.count x =
        (v.take (max n 1)).count x + (v.drop (max n 1)).count x := by
      conv_lhs => rw [← List.take_append_drop (max n 1) v]
      rw [List.count_append]
    rw [hsplit]
    simp only [List.count_append]
    omega

/-- A replacement pass never decreases the count of `x` when matches
of `m` are non-empty and never cover `x`. -/
theorem count_replaceAll_ge (m : Option Char → List Char → Option Nat)
    (R : List Char) (x : Char)
    (H : ∀ p z n, m p z = some n → 1 ≤ n ∧ ∀ d ∈ z.take n, d ≠ x)
    (s : List Char) :
    s.count x ≤ (replaceAll m R s).count x :=
  count_replaceScan_ge m R x H s.length s s.length none (le_refl _)
    (le_refl _)

/-- A replacement pass with a live match strictly increases the count
of `x` when `x` occurs in the replacement. -/
theorem count_replaceAll_lt (m : Option Char → List Char → Option Nat)
    (R : List Char) (x : Char)
    (H : ∀ p z n, m p z = some n → 1 ≤ n ∧ ∀ d ∈ z.take n, d ≠ x)
    (hxR : x ∈ R) (s : List Char) (hm : hasMatch m s = true) :
    s.count x < (replaceAll m R s).count x :=
  count_replaceScan_lt m R x H hxR s s.length none (le_refl _) hm

/-- A residual occurrence of any of the three scrub patterns forces
`scrubPhi` to change the text: every replacement inserts a `[`, matched
text never contains one, and copied text keeps them, so the count of
`[` strictly increases. -/
theorem scrubPhi_changes_of_match (t : List Char)
    (h : hasMatch uuidMatchAt t = true ∨ hasMatch email2MatchAt t = true ∨
      hasMatch phone2MatchAt t = true) :
    scrubPhi t ≠ t := by
  intro heq
  have hc : (scrubPhi t).count '[' = t.count '[' := by rw [heq]
  have hbr : '[' ∈ redactedToken := by decide
  have hsc : scrubPhi t = replaceAll phone2MatchAt redactedToken
      (replaceAll email2MatchAt redactedToken
        (replaceAll uuidMatchAt redactedToken t)) := rfl
  rw [hsc] at hc
  rcases h with hu | he | hp
  · have h1 := count_replaceAll_lt uuidMatchAt redactedToken '['
      uuidMatchAt_pos_charset hbr t hu
    have h2 := count_replaceAll_ge email2MatchAt redactedToken '['
      email2MatchAt_pos_charset (replaceAll uuidMatchAt redactedToken t)
    have h3 := count_replaceAll_ge phone2MatchAt redactedToken '['
      phone2MatchAt_pos_charset
      (replaceAll email2MatchAt redactedToken
        (replaceAll uuidMatchAt redactedToken t))
    omega
  · cases hu2 : hasMatch uuidMatchAt t with
    | true =>
        have h1 := count_replaceAll_lt uuidMatchAt redactedToken '['
          uuidMatchAt_pos_charset hbr t hu2
        have h2 := count_replaceAll_ge email2MatchAt redactedToken '['
          email2MatchAt_pos_charset (replaceAll uuidMatchAt redactedToken t)
        have h3 := count_replaceAll_ge phone2MatchAt redactedToken '['
          phone2MatchAt_pos_charset
          (replaceAll email2MatchAt redactedToken
            (replaceAll uuidMatchAt redactedToken t))
        omega
    | false =>
        have ht1e : replaceAll uuidMatchAt redactedToken t = t :=
          replaceAll_of_no_match _ _ _ hu2
        have h1 := count_replaceAll_lt email2MatchAt redactedToken '['
          email2MatchAt_pos_charset hbr
          (replaceAll uuidMatchAt redactedToken t) (by rw [ht1e]; exact he)
        have h3 := count_replaceAll_ge phone2MatchAt redactedToken '['
          phone2MatchAt_pos_charset
          (replaceAll email2MatchAt redactedToken
            (replaceAll uuidMatchAt redactedToken t))
        have e1 : (replaceAll uuidMatchAt redactedToken t).count '[' =
            t.count '[' := by rw [ht1e]
        omega
  · cases hu2 : hasMatch uuidMatchAt t with
    | true =>
        have h1 := count_replaceAll_lt uuidMatchAt redactedToken '['
          uuidMatchAt_pos_charset hbr t hu2
        have h2 := count_replaceAll_ge email2MatchAt redactedToken '['
          email2MatchAt_pos_charset (replaceAll uuidMatchAt redactedToken t)
        have h3 := count_replaceAll_ge phone2MatchAt redactedToken '['
          phone2MatchAt_pos_charset
          (replaceAll email2MatchAt redactedToken
            (replaceAll uuidMatchAt redactedToken t))
        omega
    | false =>
        have ht1e : replaceAll uuidMatchAt redactedToken t = t :=
          replaceAll_of_no_match _ _ _ hu2
        cases he2 : hasMatch email2MatchAt
            (replaceAll uuidMatchAt redactedToken t) with
        | true =>
            have h1 := count_replaceAll_lt email2MatchAt redactedToken '['
              email2MatchAt_pos_charset hbr
              (replaceAll uuidMatchAt redactedToken t) he2
            have h3 := count_replaceAll_ge phone2MatchAt redactedToken '['
              phone2MatchAt_pos_charset
              (replaceAll email2MatchAt redactedToken
                (replaceAll uuidMatchAt redactedToken t))
            have e1 : (replaceAll uuidMatchAt redactedToken t).count '[' =
                t.count '[' := by rw [ht1e]
            omega
        | false =>
            have ht2e : replaceAll email2MatchAt redactedToken
                (replaceAll uuidMatchAt redactedToken t) =
                replaceAll uuidMatchAt redactedToken t :=
              replaceAll_of_no_match _ _ _ he2
            have h1 := count_replaceAll_lt phone2MatchAt redactedToken '['
              phone2MatchAt_pos_charset hbr
              (replaceAll email2MatchAt redactedToken
                (replaceAll uuidMatchAt redactedToken t))
              (by rw [ht2e, ht1e]; exact hp)
            have e1 : (replaceAll uuidMatchAt redactedToken t).count '[' =
                t.count '[' := by rw [ht1e]
            have e2 : (replaceAll email2MatchAt redactedToken
                (replaceAll uuidMatchAt redactedToken t)).count '[' =
                (replaceAll uuidMatchAt redactedToken t).count '[' := by
              rw [ht2e]
            omega

/-- C10 (amended): re-scrubbing changes nothing exactly when the
scrubbed text contains no further occurrence of the three PHI patterns;
in general a replacement can expose a fresh match (see the
counterexample), and exactly then the second scrub redacts more. -/
theorem claim_C10_scrub_idempotent_iff_clean (s : List Char) :
    scrubPhi (scrubPhi s) = scrubPhi s ↔
      (hasMatch uuidMatchAt (scrubPhi s) = false ∧
       hasMatch email2MatchAt (scrubPhi s) = false ∧
       hasMatch phone2MatchAt (scrubPhi s) = false) := by
  constructor
  · intro hid
    refine ⟨?_, ?_, ?_⟩
    · cases hu : hasMatch uuidMatchAt (scrubPhi s) with
      | false => rfl
      | true =>
          exact absurd hid (scrubPhi_changes_of_match _ (Or.inl hu))
    · cases he : hasMatch email2MatchAt (scrubPhi s) with
      | false => rfl
      | true =>
          exact absurd hid
            (scrubPhi_changes_of_match _ (Or.inr (Or.inl he)))
    · cases hp : hasMatch phone2MatchAt (scrubPhi s) with
      | false => rfl
      | true =>
          exact absurd hid
            (scrubPhi_changes_of_match _ (Or.inr (Or.inr hp)))
  · rintro ⟨h1, h2, h3⟩
    have e1 : replaceAll uuidMatchAt redactedToken (scrubPhi s) =
        scrubPhi s := replaceAll_of_no_match _ _ _ h1
    have e2 : replaceAll email2MatchAt redactedToken (scrubPhi s) =
        scrubPhi s := replaceAll_of_no_match _ _ _ h2
    have e3 : replaceAll phone2MatchAt redactedToken (scrubPhi s) =
        scrubPhi s := replaceAll_of_no_match _ _ _ h3
    calc scrubPhi (scrubPhi s)
        = replaceAll phone2MatchAt redactedToken
            (replaceAll email2MatchAt redactedToken
              (replaceAll uuidMatchAt redactedToken (scrubPhi s))) := rfl
      _ = scrubPhi s := by rw [e1, e2, e3]

/-- Witness for `claim_C10_scrub_idempotent_iff_clean` at a clean
action string. -/
theorem claim_C10_scrub_idempotent_iff_clean_witness :
    scrubPhi (scrubPhi "PATIENT_CREATE".toList) =
      scrubPhi "PATIENT_CREATE".toList :=
  (claim_C10_scrub_idempotent_iff_clean "PATIENT_CREATE".toList).mpr
    ⟨by decide, by decide, by decide⟩

end MediBrief
